import Mathlib

/-!
# VDFParse: a shallow embedding of `src/C++/VDFParse.h`

The header parses Valve's brace-delimited key/value text format into a tree of
`VDFNode`s and wraps the root in a `VDFValue` view.

Conventions of the embedding

* a C++ `char` is a Lean `Char`, a `std::string` is a `List Char`;
  `Content[Pos]` is `charAt Content Pos`, which yields NUL at `Pos = length`
  exactly as `std::string::operator[]` does;
* `size_t& Pos` is threaded explicitly: every function takes the cursor and
  returns the new cursor next to its result;
* `std::map<std::string, VDFNodePtr>` is an association list; `mapInsert` keeps
  it in strictly ascending key order (`std::less<std::string>`), so that equal
  maps are equal lists; the pointers stored in a map are never null in the
  parser, a map value is the node itself;
* `throw std::runtime_error(msg)` is an error value, one constructor of
  `VDFError` per message of the header;
* the two overloads of `ParseString` get two names: `ParseString` is the public
  `ParseString(Content)`, `ParseStringAt` the private token parser
  `ParseString(Content, Pos)`;
* the `while` loops of `SkipWhitespace` and of the token parser advance the
  cursor in every iteration; they are unrolled `Content.length - Pos` times,
  which is as often as they can run;
* the recursive descent (`ParseValue`, `ParseObject`, the two pair loops) takes
  an explicit `fuel`, one unit per call or loop iteration; `Res.outOfFuel` is
  the outcome of a run that needs more than `fuel` of them, and a run has no
  outcome at all when it is `Res.outOfFuel` for every `fuel`.
-/

namespace SteamVDF

/-! ## Errors and results -/

/-- One constructor per `std::runtime_error` message thrown by the header. -/
inductive VDFError where
  /-- Message "VDF value is not a string". -/
  | NotAString
  /-- Message "VDF value is not an object". -/
  | NotAnObject
  /-- Message "Cannot set key on a string value". -/
  | CannotSetKey
  /-- Message "Unexpected end of input", thrown by `ParseValue`. -/
  | UnexpectedEndOfInput
  /-- Message "Unexpected end of input while parsing string", thrown by the token parser. -/
  | UnexpectedEndOfInputInString
  /-- Message "Expected '{' at position " followed by `Pos`. -/
  | ExpectedOpenBrace (Pos : Nat)
  /-- Message "Expected '}' at position " followed by `Pos`. -/
  | ExpectedCloseBrace (Pos : Nat)
  /-- Message "Unterminated string starting at position " followed by `Pos`. -/
  | UnterminatedString (Pos : Nat)
  deriving DecidableEq, Repr

/-- Outcome of a fuel-bounded run of the recursive descent. -/
inductive Res (α : Type) where
  | ok (a : α)
  | error (e : VDFError)
  | outOfFuel
  deriving Repr

/-! ## Node tree -/

/-- The class `VDFNode`: a string leaf or a key to node mapping. -/
inductive VDFNode where
  | String (StringValue : List Char) : VDFNode
  | Object (ObjectValue : List (List Char × VDFNode)) : VDFNode
  deriving Repr

/-- The instantiation `std::map<std::string, VDFNodePtr>`. -/
abbrev VDFMap := List (List Char × VDFNode)

/-- The comparison `std::string::operator<`: lexicographic on the character codes,
a proper prefix is smaller. -/
def keyLt : List Char → List Char → Bool
  | [], [] => false
  | [], _ :: _ => true
  | _ :: _, [] => false
  | a :: as, b :: bs =>
    if a.toNat < b.toNat then true
    else if b.toNat < a.toNat then false
    else keyLt as bs

/-- The statement `Map[Key] = Value` on a `std::map`: overwrite the entry of an
equivalent key, otherwise insert at the place the ordering assigns. -/
def mapInsert (Key : List Char) (Value : VDFNode) : VDFMap → VDFMap
  | [] => [(Key, Value)]
  | (k, v) :: rest =>
    if keyLt Key k then (Key, Value) :: (k, v) :: rest
    else if keyLt k Key then (k, v) :: mapInsert Key Value rest
    else (k, Value) :: rest

/-- The call `Map.find(Key)`, `none` standing for `end()`: the entry whose key is
equivalent to `Key`, that is neither smaller nor greater. -/
def mapFind (Key : List Char) : VDFMap → Option VDFNode
  | [] => none
  | (k, v) :: rest =>
    if keyLt Key k = false ∧ keyLt k Key = false then some v
    else mapFind Key rest

namespace VDFNode

def IsString : VDFNode → Bool
  | .String _ => true
  | .Object _ => false

def IsObject : VDFNode → Bool
  | .String _ => false
  | .Object _ => true

def AsString (n : VDFNode) : Except VDFError (List Char) :=
  match n with
  | .String s => .ok s
  | .Object _ => .error .NotAString

def GetObject (n : VDFNode) : Except VDFError VDFMap :=
  match n with
  | .Object m => .ok m
  | .String _ => .error .NotAnObject

/-- The method `SetValue`; the node after the call is the result. -/
def SetValue (n : VDFNode) (Key : List Char) (Value : VDFNode) : Except VDFError VDFNode :=
  match n with
  | .Object m => .ok (.Object (mapInsert Key Value m))
  | .String _ => .error .CannotSetKey

/-- The member `VDFNode::operator[]`; `none` is `nullptr`. -/
def operatorIndex (n : VDFNode) (Key : List Char) : Option VDFNode :=
  match n with
  | .String _ => none
  | .Object m => mapFind Key m

end VDFNode

/-! ## View -/

/-- The class `VDFValue`: a handle on a node; `none` is a null `VDFNodePtr`. -/
structure VDFValue where
  Node : Option VDFNode
  deriving Repr

namespace VDFValue

/-- The constructor `VDFValue(VDFNodePtr NodePtr)`: a null pointer is replaced by
a fresh default node, and the default `VDFNode()` is an empty Object. -/
def ofPtr (NodePtr : Option VDFNode) : VDFValue :=
  match NodePtr with
  | some n => ⟨some n⟩
  | none => ⟨some (.Object [])⟩

/-- The member `VDFValue::operator[]`. -/
def operatorIndex (v : VDFValue) (Key : List Char) : VDFValue :=
  match v.Node with
  | none => ofPtr none
  | some n => if n.IsObject then ofPtr (n.operatorIndex Key) else ofPtr none

/-- The conversion `operator std::string`. -/
def operatorString (v : VDFValue) : List Char :=
  match v.Node with
  | none => []
  | some n =>
    match n with
    | .String s => s
    | .Object _ => []

end VDFValue

/-! ## Tokenizer -/

/-- The read `Content[Pos]`. -/
def charAt (Content : List Char) (Pos : Nat) : Char := Content.getD Pos '\x00'

/-- The classification `std::isspace` in the "C" locale (the program never calls
`setlocale`): space, `\t`, `\n`, `\v`, `\f`, `\r`. -/
def isspace (C : Char) : Bool :=
  C == ' ' || C == '\t' || C == '\n' || C == '\x0b' || C == '\x0c' || C == '\r'

/-- The inner loop of `SkipWhitespace`:
`while (Pos < Content.length() && Content[Pos] != '\n') Pos++`. -/
def SkipWhitespace.comment (Content : List Char) : Nat → Nat → Nat
  | 0, Pos => Pos
  | fuel + 1, Pos =>
    if Pos < Content.length ∧ charAt Content Pos ≠ '\n' then
      SkipWhitespace.comment Content fuel (Pos + 1)
    else Pos

/-- The outer loop of `SkipWhitespace`. -/
def SkipWhitespace.loop (Content : List Char) : Nat → Nat → Nat
  | 0, Pos => Pos
  | fuel + 1, Pos =>
    if Pos < Content.length then
      if isspace (charAt Content Pos) then
        SkipWhitespace.loop Content fuel (Pos + 1)
      else if charAt Content Pos = '/' ∧ Pos + 1 < Content.length
          ∧ charAt Content (Pos + 1) = '/' then
        SkipWhitespace.loop Content fuel
          (SkipWhitespace.comment Content (Content.length - (Pos + 2)) (Pos + 2))
      else Pos
    else Pos

/-- The function `SkipWhitespace(Content, Pos)`; the result is the new cursor. -/
def SkipWhitespace (Content : List Char) (Pos : Nat) : Nat :=
  SkipWhitespace.loop Content (Content.length - Pos) Pos

/-- The `switch (C)` of the token parser on the character after a backslash. -/
def unescape (C : Char) : Char :=
  if C = 'n' then '\n'
  else if C = 'r' then '\r'
  else if C = 't' then '\t'
  else if C = '\\' then '\\'
  else if C = '"' then '"'
  else C

/-- The condition that ends an unquoted token. -/
def isTerminator (C : Char) : Bool :=
  C == '\r' || C == '\n' || C == '\t' || C == ' ' || C == '{' || C == '}'

/-- The `while (Pos < Content.length())` loop of the token parser; the state is
the cursor, `Result` and `Escaped`. -/
def ParseStringAt.loop (Content : List Char) (IsQuoted : Bool) :
    Nat → Nat → List Char → Bool → List Char × Nat
  | 0, Pos, Result, _ => (Result, Pos)
  | fuel + 1, Pos, Result, Escaped =>
    if Pos < Content.length then
      let C := charAt Content Pos
      if Escaped then
        ParseStringAt.loop Content IsQuoted fuel (Pos + 1) (Result ++ [unescape C]) false
      else if C = '\\' then
        ParseStringAt.loop Content IsQuoted fuel (Pos + 1) Result true
      else if IsQuoted = true ∧ C = '"' then
        (Result, Pos + 1)
      else if IsQuoted = false ∧ isTerminator C = true then
        (Result, Pos + 1 - 1)
      else
        ParseStringAt.loop Content IsQuoted fuel (Pos + 1) (Result ++ [C]) false
    else (Result, Pos)

/-- The private overload `ParseString(Content, Pos)`, the token parser. -/
def ParseStringAt (Content : List Char) (Pos : Nat) : Except VDFError (List Char × Nat) :=
  let Pos := SkipWhitespace Content Pos
  if Pos ≥ Content.length then .error .UnexpectedEndOfInputInString
  else
    let IsQuoted : Bool := decide (charAt Content Pos = '"')
    let Pos := if IsQuoted then Pos + 1 else Pos
    let r := ParseStringAt.loop Content IsQuoted (Content.length - Pos) Pos [] false
    if IsQuoted = true ∧ (r.2 > Content.length ∨ charAt Content (r.2 - 1) ≠ '"') then
      .error (.UnterminatedString r.2)
    else .ok r

/-! ## Recursive descent -/

mutual

/-- The function `ParseValue(Content, Pos)`. -/
def ParseValue : Nat → List Char → Nat → Res (VDFNode × Nat)
  | 0, _, _ => .outOfFuel
  | fuel + 1, Content, Pos =>
    let Pos := SkipWhitespace Content Pos
    if Pos ≥ Content.length then .error .UnexpectedEndOfInput
    else if charAt Content Pos = '{' then ParseObject fuel Content Pos
    else
      match ParseStringAt Content Pos with
      | .error e => .error e
      | .ok (s, Pos) => .ok (.String s, Pos)

/-- The function `ParseObject(Content, Pos)`. -/
def ParseObject : Nat → List Char → Nat → Res (VDFNode × Nat)
  | 0, _, _ => .outOfFuel
  | fuel + 1, Content, Pos =>
    if charAt Content Pos ≠ '{' then .error (.ExpectedOpenBrace Pos)
    else
      match ParseObjectLoop fuel Content (SkipWhitespace Content (Pos + 1)) [] with
      | .outOfFuel => .outOfFuel
      | .error e => .error e
      | .ok (Obj, Pos) =>
        if Pos ≥ Content.length ∨ charAt Content Pos ≠ '}' then
          .error (.ExpectedCloseBrace Pos)
        else .ok (.Object Obj, Pos + 1)

/-- The pair loop of `ParseObject`:
`while (Pos < Content.length() && Content[Pos] != '}')`. -/
def ParseObjectLoop : Nat → List Char → Nat → VDFMap → Res (VDFMap × Nat)
  | 0, _, _, _ => .outOfFuel
  | fuel + 1, Content, Pos, Obj =>
    if Pos < Content.length ∧ charAt Content Pos ≠ '}' then
      match ParseStringAt Content Pos with
      | .error e => .error e
      | .ok (Key, Pos) =>
        match ParseValue fuel Content (SkipWhitespace Content Pos) with
        | .outOfFuel => .outOfFuel
        | .error e => .error e
        | .ok (Value, Pos) =>
          ParseObjectLoop fuel Content (SkipWhitespace Content Pos) (mapInsert Key Value Obj)
    else .ok (Obj, Pos)

end

/-- The pair loop of the public `ParseString`: `while (Pos < Content.length())`. -/
def ParseStringLoop : Nat → List Char → Nat → VDFNode → Res VDFNode
  | 0, _, _, _ => .outOfFuel
  | fuel + 1, Content, Pos, Root =>
    if Pos < Content.length then
      match ParseStringAt Content Pos with
      | .error e => .error e
      | .ok (Key, Pos) =>
        match ParseValue fuel Content (SkipWhitespace Content Pos) with
        | .outOfFuel => .outOfFuel
        | .error e => .error e
        | .ok (Value, Pos) =>
          match Root.SetValue Key Value with
          | .error e => .error e
          | .ok Root => ParseStringLoop fuel Content (SkipWhitespace Content Pos) Root
    else .ok Root

/-- The public `VDFParser::ParseString(Content)`. -/
def ParseString (fuel : Nat) (Content : List Char) : Res VDFValue :=
  match ParseStringLoop fuel Content (SkipWhitespace Content 0) (.Object []) with
  | .outOfFuel => .outOfFuel
  | .error e => .error e
  | .ok Root => .ok (VDFValue.ofPtr (some Root))

/-! ## Auxiliary definitions used by the statements -/

/-- Moves the position carried by an error message `k` characters to the right. -/
def VDFError.shift (k : Nat) : VDFError → VDFError
  | .ExpectedOpenBrace p => .ExpectedOpenBrace (k + p)
  | .ExpectedCloseBrace p => .ExpectedCloseBrace (k + p)
  | .UnterminatedString p => .UnterminatedString (k + p)
  | e => e

/-- Moves the position carried by a failed outcome `k` characters to the right. -/
def Res.shiftError {α : Type} (k : Nat) : Res α → Res α
  | .ok a => .ok a
  | .error e => .error (e.shift k)
  | .outOfFuel => .outOfFuel

/-- The token loop read off the remaining text instead of a cursor: the decoded
characters and the number of characters consumed, started with `Escaped` as given.
`tokenLoop_eq_scan` proves it equal to `ParseStringAt.loop`. -/
def tokenScan (IsQuoted : Bool) : List Char → Bool → List Char × Nat
  | [], _ => ([], 0)
  | c :: rest, true =>
    (unescape c :: (tokenScan IsQuoted rest false).1, (tokenScan IsQuoted rest false).2 + 1)
  | c :: rest, false =>
    if c = '\\' then ((tokenScan IsQuoted rest true).1, (tokenScan IsQuoted rest true).2 + 1)
    else if IsQuoted = true ∧ c = '"' then ([], 1)
    else if IsQuoted = false ∧ isTerminator c = true then ([], 0)
    else (c :: (tokenScan IsQuoted rest false).1, (tokenScan IsQuoted rest false).2 + 1)

/-- Moves the cursor of a successful outcome, or the position of a failed one,
`k` characters to the right. -/
def Res.shiftCursor {α : Type} (k : Nat) : Res (α × Nat) → Res (α × Nat)
  | .ok r => .ok (r.1, k + r.2)
  | .error e => .error (e.shift k)
  | .outOfFuel => .outOfFuel

/-- Escape decoding of the body of a token as the specification words it: a
backslash and the character after it stand for one character, every other
character stands for itself (a backslash that ends the text stands for nothing). -/
def decodeEscapes : List Char → List Char
  | [] => []
  | [c] => if c = '\\' then [] else [c]
  | c :: d :: rest =>
    if c = '\\' then unescape d :: decodeEscapes rest else c :: decodeEscapes (d :: rest)

/-- The body of a quoted token holds no unescaped `"` and does not end in the
middle of an escape, so that a `"` that follows it is the first unescaped one. -/
def closedBody : List Char → Bool
  | [] => true
  | [c] => decide (c ≠ '\\' ∧ c ≠ '"')
  | c :: d :: rest =>
    if c = '\\' then closedBody rest else decide (c ≠ '"') && closedBody (d :: rest)

/-- Replaces each `\\` by `\\\\` and each `"` by `\\"`. -/
def escapeQuoted : List Char → List Char
  | [] => []
  | c :: rest =>
    if c = '\\' ∨ c = '"' then '\\' :: c :: escapeQuoted rest else c :: escapeQuoted rest

/-- The number of characters of the unquoted token at the head of the text: up to
the first terminator that no backslash escapes, or to the end of the text. -/
def unquotedLength : List Char → Nat
  | [] => 0
  | [c] => if isTerminator c = true then 0 else 1
  | c :: d :: rest =>
    if c = '\\' then unquotedLength rest + 2
    else if isTerminator c = true then 0
    else unquotedLength (d :: rest) + 1

/-- No character of the token is a backslash or ends an unquoted token. -/
def plainToken (tok : List Char) : Prop :=
  ∀ x ∈ tok, x ≠ '\\' ∧ isTerminator x = false

/-- The text after an unquoted token is empty or starts with a terminator. -/
def endsToken (rest : List Char) : Prop :=
  rest = [] ∨ ∃ t r, rest = t :: r ∧ isTerminator t = true

/-- The simple tokens of the unquoted-token claims: not empty, no `isspace`
character, no brace, no quote, no backslash, and not beginning with `//`. -/
def simpleToken (k : List Char) : Prop :=
  k ≠ [] ∧
  (∀ x ∈ k, isspace x = false ∧ x ≠ '{' ∧ x ≠ '}' ∧ x ≠ '"' ∧ x ≠ '\\') ∧
  ¬ (['/', '/'] <+: k)

/-- The keys of the map are strictly ascending in the order of `std::map`. -/
def keysSorted (m : VDFMap) : Prop :=
  m.Pairwise (fun p q => keyLt p.1 q.1 = true)

mutual

/-- The mapping of every Object of the tree, the tree itself included, satisfies `P`. -/
def VDFNode.AllObjects (P : VDFMap → Prop) : VDFNode → Prop
  | .String _ => True
  | .Object m => P m ∧ childrenAllObjects P m

/-- Every child of the mapping satisfies `VDFNode.AllObjects P`. -/
def childrenAllObjects (P : VDFMap → Prop) : List (List Char × VDFNode) → Prop
  | [] => True
  | (_, v) :: rest => VDFNode.AllObjects P v ∧ childrenAllObjects P rest

end

/-- Each Object of the tree has unique keys. -/
def VDFNode.UniqueKeys (n : VDFNode) : Prop :=
  n.AllObjects (fun m => (m.map Prod.fst).Nodup)

/-- The value of the last pair with key `k` in a sequence of pairs. -/
def lastValue (k : List Char) : List (List Char × VDFNode) → Option VDFNode
  | [] => none
  | p :: rest =>
    match lastValue k rest with
    | some w => some w
    | none => if p.1 = k then some p.2 else none

/-- The sequence of pairs a pair loop reads from the cursor `Pos` until it stops at
the cursor `Pos'`: the loop of `ParseObject` (`nested = true`, it stops at `}` or at
the end of the text) or the loop of `ParseString` (it stops at the end of the text).
Each pair is the key returned by the token parser and the value returned by
`ParseValue`, as in the loop bodies. -/
inductive PairSeq (Content : List Char) (nested : Bool) :
    Nat → List (List Char × VDFNode) → Nat → Prop where
  | stop (Pos : Nat)
      (h : ¬ (Pos < Content.length ∧ (nested = true → charAt Content Pos ≠ '}'))) :
      PairSeq Content nested Pos [] Pos
  | pair (Pos p1 p2 Pos' fuel : Nat) (Key : List Char) (Value : VDFNode)
      (rest : List (List Char × VDFNode))
      (h : Pos < Content.length ∧ (nested = true → charAt Content Pos ≠ '}'))
      (hKey : ParseStringAt Content Pos = .ok (Key, p1))
      (hValue : ParseValue fuel Content (SkipWhitespace Content p1) = .ok (Value, p2))
      (hrest : PairSeq Content nested (SkipWhitespace Content p2) rest Pos') :
      PairSeq Content nested Pos ((Key, Value) :: rest) Pos'

/-- The number of `{` among the first `i` characters of the text. -/
def opens (Content : List Char) (i : Nat) : Nat := (Content.take i).count '{'

/-- The number of `}` among the first `i` characters of the text. -/
def closes (Content : List Char) (i : Nat) : Nat := (Content.take i).count '}'

/-- The two failures an unmatched `{` may end in: "Unexpected end of input" and
"Expected '}'". -/
def unmatchedError (e : VDFError) : Prop :=
  e = .UnexpectedEndOfInput ∨ ∃ p, e = .ExpectedCloseBrace p

/-! ## Further members of the node and of the view -/

/-- The default constructor `VDFNode()`: an Object without entries. -/
instance : Inhabited VDFNode := ⟨.Object []⟩

/-- The field `StringValue`; it is empty in a node built as an Object. -/
def VDFNode.StringValue : VDFNode → List Char
  | .String s => s
  | .Object _ => []

/-- The field `ObjectValue`; it is empty in a node built as a String. -/
def VDFNode.ObjectValue : VDFNode → VDFMap
  | .String _ => []
  | .Object m => m

/-- The conversion `VDFNode::operator bool`. -/
def VDFNode.operatorBool (n : VDFNode) : Bool :=
  !((n.IsString && n.StringValue.isEmpty) || (n.IsObject && n.ObjectValue.isEmpty))

/-- The method `VDFNode::SetValue` as a state change: the node after the call and
whether the call threw. The test `!IsObject()` comes before the assignment. -/
def VDFNode.SetValueState (n : VDFNode) (Key : List Char) (Value : VDFNode) :
    VDFNode × Except VDFError Unit :=
  if n.IsObject then (.Object (mapInsert Key Value n.ObjectValue), .ok ())
  else (n, .error .CannotSetKey)

/-- The conversion `VDFValue::operator bool`: `Node && (*Node)`. -/
def VDFValue.operatorBool (v : VDFValue) : Bool :=
  match v.Node with
  | none => false
  | some n => n.operatorBool

/-- The method `VDFValue::IsNull`. -/
def VDFValue.IsNull (v : VDFValue) : Bool :=
  match v.Node with
  | none => true
  | some _ => false

/-- The method `VDFValue::IsString`: `Node && Node->IsString()`. -/
def VDFValue.IsString (v : VDFValue) : Bool :=
  match v.Node with
  | none => false
  | some n => n.IsString

/-- The method `VDFValue::IsObject`: `Node && Node->IsObject()`. -/
def VDFValue.IsObject (v : VDFValue) : Bool :=
  match v.Node with
  | none => false
  | some n => n.IsObject

/-- The conversion `operator std::string` with the exception channel of the
`AsString` it calls: `if (!Node || !Node->IsString()) return ""; return Node->AsString();`. -/
def VDFValue.operatorStringChecked (v : VDFValue) : Except VDFError (List Char) :=
  match v.Node with
  | none => .ok []
  | some n => if n.IsString then n.AsString else .ok []

/-- The chained lookup `view[k1]...[kn]`. -/
def VDFValue.chain (v : VDFValue) (ks : List (List Char)) : VDFValue :=
  ks.foldl VDFValue.operatorIndex v

/-- The node a key path leads to inside a tree, if every key of the path is found
in an Object. -/
def VDFNode.resolve : VDFNode → List (List Char) → Option VDFNode
  | n, [] => some n
  | n, k :: ks =>
    match n.operatorIndex k with
    | none => none
    | some c => c.resolve ks

/-- The text the specification assigns to the end of a key path: the payload of a
String node, the empty string otherwise. -/
def pathText : Option VDFNode → List Char
  | some (.String s) => s
  | _ => []

/-- The child stored under a key, in the words of the specification: the value of
the first entry whose key is the given one. It is stated on the entries and uses
neither the order of the keys nor the search of the map. -/
def specEntry (k : List Char) : List (List Char × VDFNode) → Option VDFNode
  | [] => none
  | (a, v) :: rest => if a = k then some v else specEntry k rest

/-- The node a key path resolves to, in the words of the specification: the tree
itself for the empty path; nothing below a String; below an Object the resolution
of the rest of the path in the child stored under the first key, nothing when
there is no such child. -/
def specResolve : VDFNode → List (List Char) → Option VDFNode
  | n, [] => some n
  | .String _, _ :: _ => none
  | .Object m, k :: ks =>
    match specEntry k m with
    | none => none
    | some c => specResolve c ks

/-- The relation `ResolvesTo t ks n`: following the keys `ks` from the node `t`,
each through an entry of an Object, ends at the node `n`. -/
inductive ResolvesTo : VDFNode → List (List Char) → VDFNode → Prop
  | here (n : VDFNode) : ResolvesTo n [] n
  | step (m : List (List Char × VDFNode)) (k : List Char) (c : VDFNode)
      (ks : List (List Char)) (n : VDFNode) :
      (k, c) ∈ m → ResolvesTo c ks n → ResolvesTo (.Object m) (k :: ks) n

/-! ## What `SkipWhitespace` passes over -/

/-- The text at which `SkipWhitespace` stops: it is empty, or it starts with a
character that is neither an `isspace` character nor the first `/` of `//`. -/
def stopsSkip (rest : List Char) : Prop :=
  rest = [] ∨ ∃ c t, rest = c :: t ∧ isspace c = false ∧ ¬ (c = '/' ∧ t.head? = some '/')

/-- The relation `SkipsTo l rest`: started on the text `l`, passing over `isspace`
characters and over whole comments (`//` and all that follows up to, not
including, the next LF or the end of the text) leaves the text `rest`, at which
nothing more can be passed over. -/
inductive SkipsTo : List Char → List Char → Prop where
  | stop (rest : List Char) (h : stopsSkip rest) : SkipsTo rest rest
  | space (c : Char) (t rest : List Char) (hc : isspace c = true) (h : SkipsTo t rest) :
      SkipsTo (c :: t) rest
  | comment (body tail rest : List Char) (hb : '\n' ∉ body)
      (ht : tail = [] ∨ ∃ t, tail = '\n' :: t) (h : SkipsTo tail rest) :
      SkipsTo ('/' :: '/' :: (body ++ tail)) rest

/-! ## Serializer -/

/-- The string `std::string IndentStr(Indent, ' ')`. -/
def indentStr (Indent : Nat) : List Char := List.replicate Indent ' '

mutual

/-- The method `VDFNode::ToString(Indent)`. -/
def VDFNode.ToString : VDFNode → Nat → List Char
  | .String s, Indent => indentStr Indent ++ '"' :: (s ++ ['"'])
  | .Object m, Indent =>
    indentStr Indent ++ '{' :: '\n' :: (entriesToString m Indent ++ (indentStr Indent ++ ['}']))

/-- The `for (const auto& Pair : ObjectValue)` loop of `ToString`: for each entry,
in the iteration order of the map, the indented quoted key on a line of its own
and the child, serialized two columns deeper, followed by a newline. -/
def entriesToString : List (List Char × VDFNode) → Nat → List Char
  | [], _ => []
  | (k, v) :: rest, Indent =>
    indentStr Indent ++ ' ' :: ' ' :: '"' :: (k ++ '"' :: '\n' ::
      (VDFNode.ToString v (Indent + 2) ++ '\n' :: entriesToString rest Indent))

end

/-! ## The reads of the tokenizer and of the parser

The functions below are the tokenizer and the recursive descent once more, with
every read `Content[i]` made through `readAt`; their outcome is `none` as soon as
one read is at an index that is not strictly below `Content.length`. The
conditions are evaluated left to right as `&&` and `||` do. -/

/-- A read of `Content[Pos]` that is refused outside `0 .. length - 1`. -/
def readAt (Content : List Char) (Pos : Nat) : Option Char := Content[Pos]?

/-- The read `Content[Pos - 1]` with `Pos` a `size_t`: at `Pos = 0` the index wraps
around and the read is refused. -/
def readBefore (Content : List Char) (Pos : Nat) : Option Char :=
  if Pos = 0 then none else readAt Content (Pos - 1)

/-- The inner loop of `SkipWhitespace` with checked reads. -/
def SkipWhitespaceChecked.comment (Content : List Char) : Nat → Nat → Option Nat
  | 0, Pos => some Pos
  | fuel + 1, Pos =>
    if Pos < Content.length then
      match readAt Content Pos with
      | none => none
      | some C =>
        if C ≠ '\n' then SkipWhitespaceChecked.comment Content fuel (Pos + 1) else some Pos
    else some Pos

/-- The outer loop of `SkipWhitespace` with checked reads. -/
def SkipWhitespaceChecked.loop (Content : List Char) : Nat → Nat → Option Nat
  | 0, Pos => some Pos
  | fuel + 1, Pos =>
    if Pos < Content.length then
      match readAt Content Pos with
      | none => none
      | some C =>
        if isspace C then SkipWhitespaceChecked.loop Content fuel (Pos + 1)
        else if C = '/' ∧ Pos + 1 < Content.length then
          match readAt Content (Pos + 1) with
          | none => none
          | some D =>
            if D = '/' then
              match SkipWhitespaceChecked.comment Content (Content.length - (Pos + 2))
                  (Pos + 2) with
              | none => none
              | some q => SkipWhitespaceChecked.loop Content fuel q
            else some Pos
        else some Pos
    else some Pos

/-- The function `SkipWhitespace` with checked reads. -/
def SkipWhitespaceChecked (Content : List Char) (Pos : Nat) : Option Nat :=
  SkipWhitespaceChecked.loop Content (Content.length - Pos) Pos

/-- The loop of the token parser with checked reads. -/
def ParseStringAtChecked.loop (Content : List Char) (IsQuoted : Bool) :
    Nat → Nat → List Char → Bool → Option (List Char × Nat)
  | 0, Pos, Result, _ => some (Result, Pos)
  | fuel + 1, Pos, Result, Escaped =>
    if Pos < Content.length then
      match readAt Content Pos with
      | none => none
      | some C =>
        if Escaped then
          ParseStringAtChecked.loop Content IsQuoted fuel (Pos + 1) (Result ++ [unescape C]) false
        else if C = '\\' then
          ParseStringAtChecked.loop Content IsQuoted fuel (Pos + 1) Result true
        else if IsQuoted = true ∧ C = '"' then
          some (Result, Pos + 1)
        else if IsQuoted = false ∧ isTerminator C = true then
          some (Result, Pos + 1 - 1)
        else
          ParseStringAtChecked.loop Content IsQuoted fuel (Pos + 1) (Result ++ [C]) false
    else some (Result, Pos)

/-- The token parser with checked reads. -/
def ParseStringAtChecked (Content : List Char) (Pos : Nat) :
    Option (Except VDFError (List Char × Nat)) :=
  match SkipWhitespaceChecked Content Pos with
  | none => none
  | some Pos =>
    if Pos ≥ Content.length then some (.error .UnexpectedEndOfInputInString)
    else
      match readAt Content Pos with
      | none => none
      | some C =>
        let IsQuoted : Bool := decide (C = '"')
        let Pos := if IsQuoted then Pos + 1 else Pos
        match ParseStringAtChecked.loop Content IsQuoted (Content.length - Pos) Pos [] false with
        | none => none
        | some r =>
          if IsQuoted = true then
            if r.2 > Content.length then some (.error (.UnterminatedString r.2))
            else
              match readBefore Content r.2 with
              | none => none
              | some D =>
                if D ≠ '"' then some (.error (.UnterminatedString r.2)) else some (.ok r)
          else some (.ok r)

mutual

/-- The function `ParseValue` with checked reads. -/
def ParseValueChecked : Nat → List Char → Nat → Option (Res (VDFNode × Nat))
  | 0, _, _ => some .outOfFuel
  | fuel + 1, Content, Pos =>
    match SkipWhitespaceChecked Content Pos with
    | none => none
    | some Pos =>
      if Pos ≥ Content.length then some (.error .UnexpectedEndOfInput)
      else
        match readAt Content Pos with
        | none => none
        | some C =>
          if C = '{' then ParseObjectChecked fuel Content Pos
          else
            match ParseStringAtChecked Content Pos with
            | none => none
            | some (.error e) => some (.error e)
            | some (.ok (s, Pos)) => some (.ok (.String s, Pos))

/-- The function `ParseObject` with checked reads. -/
def ParseObjectChecked : Nat → List Char → Nat → Option (Res (VDFNode × Nat))
  | 0, _, _ => some .outOfFuel
  | fuel + 1, Content, Pos =>
    match readAt Content Pos with
    | none => none
    | some C =>
      if C ≠ '{' then some (.error (.ExpectedOpenBrace Pos))
      else
        match SkipWhitespaceChecked Content (Pos + 1) with
        | none => none
        | some q =>
          match ParseObjectLoopChecked fuel Content q [] with
          | none => none
          | some .outOfFuel => some .outOfFuel
          | some (.error e) => some (.error e)
          | some (.ok (Obj, Pos)) =>
            if Pos ≥ Content.length then some (.error (.ExpectedCloseBrace Pos))
            else
              match readAt Content Pos with
              | none => none
              | some D =>
                if D ≠ '}' then some (.error (.ExpectedCloseBrace Pos))
                else some (.ok (.Object Obj, Pos + 1))

/-- The pair loop of `ParseObject` with checked reads. -/
def ParseObjectLoopChecked : Nat → List Char → Nat → VDFMap → Option (Res (VDFMap × Nat))
  | 0, _, _, _ => some .outOfFuel
  | fuel + 1, Content, Pos, Obj =>
    if Pos < Content.length then
      match readAt Content Pos with
      | none => none
      | some C =>
        if C ≠ '}' then
          match ParseStringAtChecked Content Pos with
          | none => none
          | some (.error e) => some (.error e)
          | some (.ok (Key, Pos)) =>
            match SkipWhitespaceChecked Content Pos with
            | none => none
            | some q =>
              match ParseValueChecked fuel Content q with
              | none => none
              | some .outOfFuel => some .outOfFuel
              | some (.error e) => some (.error e)
              | some (.ok (Value, Pos)) =>
                match SkipWhitespaceChecked Content Pos with
                | none => none
                | some q' => ParseObjectLoopChecked fuel Content q' (mapInsert Key Value Obj)
        else some (.ok (Obj, Pos))
    else some (.ok (Obj, Pos))

end

/-! ## Trees that are written and read back -/

mutual

/-- No key and no String payload of the tree holds a `"` or a backslash. -/
def VDFNode.quoteFree : VDFNode → Prop
  | .String s => ∀ x ∈ s, x ≠ '"' ∧ x ≠ '\\'
  | .Object m => entriesQuoteFree m

/-- No key of the mapping holds a `"` or a backslash and every child is
`VDFNode.quoteFree`. -/
def entriesQuoteFree : List (List Char × VDFNode) → Prop
  | [] => True
  | (k, v) :: rest =>
    (∀ x ∈ k, x ≠ '"' ∧ x ≠ '\\') ∧ VDFNode.quoteFree v ∧ entriesQuoteFree rest

end

mutual

/-- Fuel that is enough for `ParseValue` to read the tree back from its text. -/
def VDFNode.parseFuel : VDFNode → Nat
  | .String _ => 1
  | .Object m => entriesFuel m + 2

/-- Fuel that is enough for the pair loop of `ParseObject` to read the entries back. -/
def entriesFuel : List (List Char × VDFNode) → Nat
  | [] => 1
  | (_, v) :: rest => VDFNode.parseFuel v + entriesFuel rest + 1

end

/-! ## Cursor arithmetic -/

theorem charAt_append_right (pre d : List Char) (p : Nat) :
    charAt (pre ++ d) (pre.length + p) = charAt d p := by
  simp [charAt, List.getD_eq_getElem?_getD, List.getElem?_append_right]

theorem charAt_append_length (pre : List Char) (c : Char) (suf : List Char) :
    charAt (pre ++ c :: suf) pre.length = c := by
  have h := charAt_append_right pre (c :: suf) 0
  simpa [charAt] using h

theorem comment_shift (pre d : List Char) (fuel p : Nat) :
    SkipWhitespace.comment (pre ++ d) fuel (pre.length + p)
      = pre.length + SkipWhitespace.comment d fuel p := by
  induction fuel generalizing p with
  | zero => simp [SkipWhitespace.comment]
  | succ fuel ih =>
    simp only [SkipWhitespace.comment, List.length_append, Nat.add_lt_add_iff_left,
      charAt_append_right]
    split_ifs
    · rw [Nat.add_assoc, ih]
    · rfl

theorem comment_ge (Content : List Char) (fuel p : Nat) :
    p ≤ SkipWhitespace.comment Content fuel p := by
  induction fuel generalizing p with
  | zero => simp [SkipWhitespace.comment]
  | succ fuel ih =>
    simp only [SkipWhitespace.comment]
    split_ifs
    · exact Nat.le_trans (Nat.le_succ p) (ih (p + 1))
    · exact Nat.le_refl p

theorem skipLoop_shift (pre d : List Char) (fuel p : Nat) :
    SkipWhitespace.loop (pre ++ d) fuel (pre.length + p)
      = pre.length + SkipWhitespace.loop d fuel p := by
  induction fuel generalizing p with
  | zero => simp [SkipWhitespace.loop]
  | succ fuel ih =>
    have e1 : pre.length + p + 1 = pre.length + (p + 1) := by omega
    have e3 : pre.length + p + 2 = pre.length + (p + 2) := by omega
    simp only [SkipWhitespace.loop, List.length_append, Nat.add_lt_add_iff_left,
      charAt_append_right, e1, e3, Nat.add_sub_add_left, comment_shift, ih]
    split_ifs <;> rfl

theorem skipLoop_fuel (Content : List Char) (fuel1 fuel2 p : Nat)
    (h1 : Content.length - p ≤ fuel1) (h2 : Content.length - p ≤ fuel2) :
    SkipWhitespace.loop Content fuel1 p = SkipWhitespace.loop Content fuel2 p := by
  induction fuel1 generalizing fuel2 p with
  | zero =>
    have hp : ¬ p < Content.length := by omega
    cases fuel2 <;> simp [SkipWhitespace.loop, hp]
  | succ fuel1 ih =>
    cases fuel2 with
    | zero =>
      have hp : ¬ p < Content.length := by omega
      simp [SkipWhitespace.loop, hp]
    | succ fuel2 =>
      simp only [SkipWhitespace.loop]
      have hge := comment_ge Content (Content.length - (p + 2)) (p + 2)
      split_ifs
      · exact ih fuel2 (p + 1) (by omega) (by omega)
      · exact ih fuel2 _ (by omega) (by omega)
      · rfl
      · rfl

theorem SkipWhitespace_shift (pre d : List Char) (p : Nat) :
    SkipWhitespace (pre ++ d) (pre.length + p) = pre.length + SkipWhitespace d p := by
  simp only [SkipWhitespace, List.length_append, Nat.add_sub_add_left, skipLoop_shift]

theorem SkipWhitespace_ge (Content : List Char) (p : Nat) : p ≤ SkipWhitespace Content p := by
  unfold SkipWhitespace
  generalize Content.length - p = fuel
  induction fuel generalizing p with
  | zero => simp [SkipWhitespace.loop]
  | succ fuel ih =>
    simp only [SkipWhitespace.loop]
    have hge := comment_ge Content (Content.length - (p + 2)) (p + 2)
    split_ifs
    · exact Nat.le_trans (Nat.le_succ p) (ih (p + 1))
    · exact Nat.le_trans (by omega) (ih _)
    · exact Nat.le_refl p
    · exact Nat.le_refl p

/-- One iteration of `SkipWhitespace` at a cursor inside the text. -/
theorem SkipWhitespace_step (Content : List Char) (p : Nat) (hp : p < Content.length) :
    SkipWhitespace Content p =
      if isspace (charAt Content p) then SkipWhitespace Content (p + 1)
      else if charAt Content p = '/' ∧ p + 1 < Content.length ∧ charAt Content (p + 1) = '/' then
        SkipWhitespace Content
          (SkipWhitespace.comment Content (Content.length - (p + 2)) (p + 2))
      else p := by
  have hge := comment_ge Content (Content.length - (p + 2)) (p + 2)
  obtain ⟨m, hm⟩ : ∃ m, Content.length - p = m + 1 := ⟨Content.length - p - 1, by omega⟩
  conv_lhs => rw [SkipWhitespace, hm, SkipWhitespace.loop]
  simp only [hp, if_true]
  split_ifs
  · exact skipLoop_fuel _ _ _ _ (by omega) (by omega)
  · exact skipLoop_fuel _ _ _ _ (by omega) (by omega)
  · rfl

theorem SkipWhitespace_end (Content : List Char) (p : Nat) (hp : Content.length ≤ p) :
    SkipWhitespace Content p = p := by
  have : Content.length - p = 0 := by omega
  simp [SkipWhitespace, this, SkipWhitespace.loop]

/-! ## The token loop -/

theorem tokenLoop_shift (pre d : List Char) (q : Bool) (fuel p : Nat) (R : List Char)
    (esc : Bool) :
    ParseStringAt.loop (pre ++ d) q fuel (pre.length + p) R esc
      = ((ParseStringAt.loop d q fuel p R esc).1,
          pre.length + (ParseStringAt.loop d q fuel p R esc).2) := by
  induction fuel generalizing p R esc with
  | zero => simp [ParseStringAt.loop]
  | succ fuel ih =>
    have e1 : pre.length + p + 1 = pre.length + (p + 1) := by omega
    simp only [ParseStringAt.loop, List.length_append, Nat.add_lt_add_iff_left,
      charAt_append_right, e1, ih, Nat.add_sub_cancel]
    split_ifs <;> rfl

theorem tokenLoop_ge (Content : List Char) (q : Bool) (fuel p : Nat) (R : List Char)
    (esc : Bool) : p ≤ (ParseStringAt.loop Content q fuel p R esc).2 := by
  induction fuel generalizing p R esc with
  | zero => simp [ParseStringAt.loop]
  | succ fuel ih =>
    simp only [ParseStringAt.loop, Nat.add_sub_cancel]
    split_ifs
    · exact Nat.le_trans (Nat.le_succ p) (ih _ _ _)
    · exact Nat.le_trans (Nat.le_succ p) (ih _ _ _)
    · exact Nat.le_succ p
    · exact Nat.le_refl p
    · exact Nat.le_trans (Nat.le_succ p) (ih _ _ _)
    · exact Nat.le_refl p

theorem tokenLoop_eq_scan (q : Bool) (suf : List Char) :
    ∀ (pre : List Char) (fuel : Nat) (R : List Char) (esc : Bool), suf.length ≤ fuel →
      ParseStringAt.loop (pre ++ suf) q fuel pre.length R esc
        = (R ++ (tokenScan q suf esc).1, pre.length + (tokenScan q suf esc).2) := by
  induction suf with
  | nil =>
    intro pre fuel R esc _
    cases fuel <;> cases esc <;> simp [ParseStringAt.loop, tokenScan]
  | cons c rest ih =>
    intro pre fuel R esc hf
    obtain ⟨f, rfl⟩ : ∃ f, fuel = f + 1 := ⟨fuel - 1, by simp at hf; omega⟩
    have hlen : pre.length < (pre ++ c :: rest).length := by simp
    have hre : pre ++ c :: rest = (pre ++ [c]) ++ rest := by simp
    have hl1 : pre.length + 1 = (pre ++ [c]).length := by simp
    have hf' : rest.length ≤ f := by simp at hf; omega
    have ih1 := fun R esc => ih (pre ++ [c]) f R esc hf'
    simp only [← hre, ← hl1] at ih1
    cases esc with
    | true =>
      simp [ParseStringAt.loop, hlen, charAt_append_length, ih1, tokenScan, Nat.add_assoc,
        Nat.add_comm 1]
    | false =>
      simp only [ParseStringAt.loop, hlen, if_true, charAt_append_length, Nat.add_sub_cancel,
        ih1, tokenScan, Bool.false_eq_true, if_false]
      split_ifs <;> simp [Nat.add_assoc, Nat.add_comm 1]

theorem ParseStringAt_shift (pre d : List Char) (p : Nat) :
    ParseStringAt (pre ++ d) (pre.length + p) =
      match ParseStringAt d p with
      | .ok r => .ok (r.1, pre.length + r.2)
      | .error e => .error (e.shift pre.length) := by
  have hge := SkipWhitespace_ge d p
  simp only [ParseStringAt, SkipWhitespace_shift, List.length_append, ge_iff_le,
    Nat.add_le_add_iff_left, charAt_append_right]
  by_cases h1 : d.length ≤ SkipWhitespace d p
  · simp [h1, VDFError.shift]
  · simp only [h1, if_false]
    by_cases hq : charAt d (SkipWhitespace d p) = '"'
    · have hg := tokenLoop_ge d true (d.length - (SkipWhitespace d p + 1))
        (SkipWhitespace d p + 1) [] false
      simp only [hq, decide_True, if_true, Nat.add_assoc, Nat.add_sub_add_left, tokenLoop_shift,
        true_and, gt_iff_lt, Nat.add_lt_add_iff_left]
      have e : pre.length + (ParseStringAt.loop d true (d.length - (SkipWhitespace d p + 1))
          (SkipWhitespace d p + 1) [] false).2 - 1 = pre.length +
          ((ParseStringAt.loop d true (d.length - (SkipWhitespace d p + 1))
          (SkipWhitespace d p + 1) [] false).2 - 1) := by omega
      rw [e, charAt_append_right]
      split_ifs <;> simp [VDFError.shift]
    · simp [hq, Nat.add_sub_add_left, tokenLoop_shift]

/-! ## The recursive descent does not depend on what precedes the cursor -/

theorem parser_shift (pre d : List Char) (fuel : Nat) :
    (∀ p, ParseValue fuel (pre ++ d) (pre.length + p)
        = (ParseValue fuel d p).shiftCursor pre.length) ∧
    (∀ p, ParseObject fuel (pre ++ d) (pre.length + p)
        = (ParseObject fuel d p).shiftCursor pre.length) ∧
    (∀ p Obj, ParseObjectLoop fuel (pre ++ d) (pre.length + p) Obj
        = (ParseObjectLoop fuel d p Obj).shiftCursor pre.length) := by
  induction fuel with
  | zero => simp [ParseValue, ParseObject, ParseObjectLoop, Res.shiftCursor]
  | succ fuel ih =>
    obtain ⟨ihV, ihO, ihL⟩ := ih
    refine ⟨?_, ?_, ?_⟩
    · intro p
      simp only [ParseValue, SkipWhitespace_shift, List.length_append, ge_iff_le,
        Nat.add_le_add_iff_left, charAt_append_right, ihO, ParseStringAt_shift]
      split_ifs
      · rfl
      · rfl
      · cases ParseStringAt d (SkipWhitespace d p) <;> rfl
    · intro p
      simp only [ParseObject, Nat.add_assoc, SkipWhitespace_shift, charAt_append_right, ihL]
      split_ifs
      · rfl
      · cases hL : ParseObjectLoop fuel d (SkipWhitespace d (p + 1)) [] with
        | outOfFuel => rfl
        | error e => rfl
        | ok r =>
          simp only [Res.shiftCursor, List.length_append, ge_iff_le, Nat.add_le_add_iff_left,
            charAt_append_right]
          split_ifs <;> simp [VDFError.shift, Nat.add_assoc]
    · intro p Obj
      simp only [ParseObjectLoop, List.length_append, Nat.add_lt_add_iff_left,
        charAt_append_right, ParseStringAt_shift]
      split_ifs
      · cases hK : ParseStringAt d p with
        | error e => rfl
        | ok r =>
          simp only [SkipWhitespace_shift, ihV]
          cases hV : ParseValue fuel d (SkipWhitespace d r.2) with
          | outOfFuel => rfl
          | error e => rfl
          | ok v => simp only [Res.shiftCursor, SkipWhitespace_shift, ihL]
      · rfl

theorem ParseStringLoop_shift (pre d : List Char) (fuel p : Nat) (Root : VDFNode) :
    ParseStringLoop fuel (pre ++ d) (pre.length + p) Root
      = (ParseStringLoop fuel d p Root).shiftError pre.length := by
  induction fuel generalizing p Root with
  | zero => rfl
  | succ fuel ih =>
    simp only [ParseStringLoop, List.length_append, Nat.add_lt_add_iff_left,
      ParseStringAt_shift]
    split_ifs
    · cases hK : ParseStringAt d p with
      | error e => rfl
      | ok r =>
        simp only [SkipWhitespace_shift, (parser_shift pre d fuel).1]
        cases hV : ParseValue fuel d (SkipWhitespace d r.2) with
        | outOfFuel => rfl
        | error e => rfl
        | ok v =>
          simp only [Res.shiftCursor]
          cases hS : Root.SetValue r.1 v.1 with
          | error e => cases Root <;> simp [VDFNode.SetValue] at hS; subst hS; rfl
          | ok Root1 => simp only [SkipWhitespace_shift, ih]
    · rfl

/-! ## The token parser at the start of a token -/

theorem SkipWhitespace_stay (Content : List Char) (p : Nat) (hp : p < Content.length)
    (h1 : isspace (charAt Content p) = false)
    (h2 : ¬ (charAt Content p = '/' ∧ p + 1 < Content.length ∧ charAt Content (p + 1) = '/')) :
    SkipWhitespace Content p = p := by
  rw [SkipWhitespace_step Content p hp]
  simp [h1, h2]

theorem tokenScan_le (q : Bool) (suf : List Char) (esc : Bool) :
    (tokenScan q suf esc).2 ≤ suf.length := by
  induction suf generalizing esc with
  | nil => simp [tokenScan]
  | cons c rest ih =>
    cases esc with
    | true => simpa [tokenScan] using ih false
    | false =>
      have h1 := ih false
      have h2 := ih true
      simp only [tokenScan, List.length_cons]
      split_ifs <;> simp <;> omega

theorem ParseStringAt_quoted (pre suf : List Char) :
    ParseStringAt (pre ++ '"' :: suf) pre.length =
      if charAt ('"' :: suf) (tokenScan true suf false).2 ≠ '"' then
        .error (.UnterminatedString (pre.length + 1 + (tokenScan true suf false).2))
      else .ok ((tokenScan true suf false).1, pre.length + 1 + (tokenScan true suf false).2) := by
  have hlen : pre.length < (pre ++ '"' :: suf).length := by simp
  have hc := charAt_append_length pre '"' suf
  have hs : SkipWhitespace (pre ++ '"' :: suf) pre.length = pre.length :=
    SkipWhitespace_stay _ _ hlen (by rw [hc]; decide) (by rw [hc]; simp)
  have hre : pre ++ '"' :: suf = (pre ++ ['"']) ++ suf := by simp
  have hl1 : pre.length + 1 = (pre ++ ['"']).length := by simp
  have hloop := tokenLoop_eq_scan true suf (pre ++ ['"']) suf.length [] false (Nat.le_refl _)
  rw [← hre, ← hl1] at hloop
  have hfuel : (pre ++ '"' :: suf).length - (pre.length + 1) = suf.length := by
    simp; omega
  have hn : pre.length + 1 + (tokenScan true suf false).2 - 1
      = pre.length + (tokenScan true suf false).2 := by omega
  have hb := tokenScan_le true suf false
  have hgt : ¬ (pre ++ '"' :: suf).length < pre.length + 1 + (tokenScan true suf false).2 := by
    simp; omega
  simp only [ParseStringAt, hs, ge_iff_le, Nat.not_le.mpr hlen, if_false, hc, decide_True,
    if_true, hfuel, hloop, List.nil_append, true_and, hn, charAt_append_right, gt_iff_lt, hgt,
    false_or]

theorem ParseStringAt_unquoted (pre : List Char) (c : Char) (suf : List Char)
    (hq : c ≠ '"') (hsp : isspace c = false) (hcm : ¬ (c = '/' ∧ suf.head? = some '/')) :
    ParseStringAt (pre ++ c :: suf) pre.length =
      .ok ((tokenScan false (c :: suf) false).1,
        pre.length + (tokenScan false (c :: suf) false).2) := by
  have hlen : pre.length < (pre ++ c :: suf).length := by simp
  have hc := charAt_append_length pre c suf
  have hs : SkipWhitespace (pre ++ c :: suf) pre.length = pre.length := by
    refine SkipWhitespace_stay _ _ hlen (by rw [hc]; exact hsp) ?_
    rw [hc, charAt_append_right]
    rintro ⟨h1, h2, h3⟩
    apply hcm
    refine ⟨h1, ?_⟩
    cases suf with
    | nil => simp at h2
    | cons d t => simpa [charAt] using h3
  have hloop := tokenLoop_eq_scan false (c :: suf) pre (c :: suf).length [] false (Nat.le_refl _)
  have hfuel : (pre ++ c :: suf).length - pre.length = (c :: suf).length := by simp
  simp only [ParseStringAt, hs, ge_iff_le, Nat.not_le.mpr hlen, if_false, hc, hq, decide_False,
    Bool.false_eq_true, hfuel, hloop, List.nil_append, false_and]

/-! ## Quoted bodies -/

theorem tokenScan_closedBody (body rest : List Char) (hb : closedBody body = true) :
    tokenScan true (body ++ '"' :: rest) false = (decodeEscapes body, body.length + 1) := by
  induction body using closedBody.induct with
  | case1 => simp [tokenScan, decodeEscapes]
  | case2 c =>
    simp only [closedBody, decide_eq_true_eq] at hb
    simp [tokenScan, decodeEscapes, hb.1, hb.2]
  | case3 d t ih =>
    simp only [closedBody, if_true] at hb
    simp [tokenScan, decodeEscapes, ih hb]
  | case4 c d t hc ih =>
    simp only [closedBody, hc, if_false, Bool.and_eq_true, decide_eq_true_eq] at hb
    have ih' := ih hb.2
    have e : c :: d :: t ++ '"' :: rest = c :: (d :: t ++ '"' :: rest) := rfl
    rw [e, tokenScan, ih']
    simp [decodeEscapes, hc, hb.1]

theorem tokenScan_escapeQuoted (s rest : List Char) :
    tokenScan true (escapeQuoted s ++ '"' :: rest) false = (s, (escapeQuoted s).length + 1) := by
  induction s with
  | nil => simp [tokenScan, escapeQuoted]
  | cons c t ih =>
    by_cases h1 : c = '\\'
    · subst h1
      simp [escapeQuoted, tokenScan, ih, unescape]
    · by_cases h2 : c = '"'
      · subst h2
        simp [escapeQuoted, tokenScan, ih, unescape]
      · simp [escapeQuoted, tokenScan, ih, h1, h2]

theorem charAt_quote_body (body rest : List Char) :
    charAt ('"' :: (body ++ '"' :: rest)) (body.length + 1) = '"' := by
  have h := charAt_append_right ('"' :: body) ('"' :: rest) 0
  simpa [charAt] using h

/-! ## Unquoted tokens -/

theorem decodeEscapes_cons (c : Char) (l : List Char) (hc : c ≠ '\\') :
    decodeEscapes (c :: l) = c :: decodeEscapes l := by
  cases l <;> simp [decodeEscapes, hc]

theorem tokenScan_unquoted (l : List Char) :
    tokenScan false l false
      = (decodeEscapes (l.take (unquotedLength l)), unquotedLength l) := by
  induction l using unquotedLength.induct with
  | case1 => simp [tokenScan, unquotedLength, decodeEscapes]
  | case2 c hc =>
    have h : c ≠ '\\' := by rintro rfl; simp [isTerminator] at hc
    simp [tokenScan, unquotedLength, hc, h, decodeEscapes]
  | case3 c hc =>
    by_cases h : c = '\\'
    · simp [tokenScan, unquotedLength, hc, h, decodeEscapes, isTerminator]
    · simp [tokenScan, unquotedLength, hc, h, decodeEscapes]
  | case4 d t ih =>
    simp [tokenScan, unquotedLength, ih, decodeEscapes]
  | case5 c d t hc ht =>
    simp [tokenScan, unquotedLength, hc, ht, decodeEscapes]
  | case6 c d t hc ht ih =>
    rw [tokenScan]
    simp only [hc, if_false, ht, Bool.false_eq_true, and_false, and_true, ih, unquotedLength,
      List.take_succ_cons, decodeEscapes_cons _ _ hc, not_false_eq_true]
    simp

theorem tokenScan_plain (tok rest : List Char) (htok : plainToken tok) (hrest : endsToken rest) :
    tokenScan false (tok ++ rest) false = (tok, tok.length) := by
  induction tok with
  | nil =>
    rcases hrest with rfl | ⟨t, r, rfl, ht⟩
    · simp [tokenScan]
    · have h : t ≠ '\\' := by rintro rfl; simp [isTerminator] at ht
      simp [tokenScan, h, ht]
  | cons c t ih =>
    have hc := htok c (List.mem_cons_self _ _)
    have ih' := ih (fun x hx => htok x (List.mem_cons_of_mem _ hx))
    simp [tokenScan, hc.1, hc.2, ih']

theorem ParseStringAt_plain (pre : List Char) (c : Char) (tok rest : List Char)
    (htok : plainToken (c :: tok)) (hrest : endsToken rest)
    (hq : c ≠ '"') (hsp : isspace c = false) (hcm : ¬ (c = '/' ∧ (tok ++ rest).head? = some '/')) :
    ParseStringAt (pre ++ (c :: tok ++ rest)) pre.length
      = .ok (c :: tok, pre.length + (tok.length + 1)) := by
  have h := ParseStringAt_unquoted pre c (tok ++ rest) hq hsp hcm
  have hs := tokenScan_plain (c :: tok) rest htok hrest
  simp only [List.cons_append] at hs ⊢
  rw [h, hs]
  simp

theorem unquotedLength_le (l : List Char) : unquotedLength l ≤ l.length := by
  have h := tokenScan_le false l false
  rwa [tokenScan_unquoted] at h

theorem unquotedLength_stops (l : List Char) (h : unquotedLength l < l.length) :
    isTerminator (charAt l (unquotedLength l)) = true := by
  induction l using unquotedLength.induct with
  | case1 => simp at h
  | case2 c hc => simp [unquotedLength, hc, charAt]
  | case3 c hc => simp [unquotedLength, hc] at h
  | case4 d t ih =>
    simp only [unquotedLength, if_true, List.length_cons] at h ⊢
    have e := charAt_append_right ['\\', d] t (unquotedLength t)
    simp only [List.length_cons, List.length_nil] at e
    have e2 : ['\\', d] ++ t = '\\' :: d :: t := rfl
    rw [e2, Nat.add_comm] at e
    rw [e]
    exact ih (by omega)
  | case5 c d t hc ht => simp [unquotedLength, hc, ht, charAt]
  | case6 c d t hc ht ih =>
    simp only [unquotedLength, hc, if_false, ht, List.length_cons, Bool.false_eq_true] at h ⊢
    have e := charAt_append_right [c] (d :: t) (unquotedLength (d :: t))
    simp only [List.length_cons, List.length_nil] at e
    have e2 : [c] ++ d :: t = c :: d :: t := rfl
    rw [e2, Nat.add_comm] at e
    rw [e]
    exact ih (by simp only [List.length_cons]; omega)

theorem decodeEscapes_plain (tok : List Char) (h : '\\' ∉ tok) : decodeEscapes tok = tok := by
  induction tok with
  | nil => rfl
  | cons c t ih =>
    have hc : c ≠ '\\' := fun e => h (e ▸ List.mem_cons_self _ _)
    rw [decodeEscapes_cons c t hc, ih (fun hm => h (List.mem_cons_of_mem _ hm))]

theorem take_unquotedLength_plain (l : List Char)
    (h : '\\' ∉ l.take (unquotedLength l)) :
    l.take (unquotedLength l) = l.takeWhile (fun x => !isTerminator x) := by
  induction l using unquotedLength.induct with
  | case1 => rfl
  | case2 c hc => simp [unquotedLength, hc, List.takeWhile]
  | case3 c hc => simp [unquotedLength, hc, List.takeWhile]
  | case4 d t ih => simp [unquotedLength] at h
  | case5 c d t hc ht => simp [unquotedLength, hc, ht, List.takeWhile]
  | case6 c d t hc ht ih =>
    simp only [unquotedLength, hc, if_false, ht, Bool.false_eq_true, List.take_succ_cons,
      List.mem_cons, not_or] at h ⊢
    rw [ih h.2]
    simp [List.takeWhile, ht]

/-! ## Simple tokens -/

theorem isTerminator_of_not_isspace {x : Char} (h1 : isspace x = false) (h2 : x ≠ '{')
    (h3 : x ≠ '}') : isTerminator x = false := by
  simp only [isspace, Bool.or_eq_false_iff, beq_eq_false_iff_ne, ne_eq] at h1
  simp [isTerminator, h1, h2, h3]

theorem endsToken_head {rest : List Char} (h : endsToken rest) : rest.head? ≠ some '/' := by
  rcases h with rfl | ⟨t, r, rfl, ht⟩
  · simp
  · intro e
    simp only [List.head?_cons, Option.some.injEq] at e
    subst e
    simp [isTerminator] at ht

theorem simpleToken_facts {k : List Char} (hk : simpleToken k) {rest : List Char}
    (hrest : endsToken rest) :
    ∃ c tok, k = c :: tok ∧ plainToken (c :: tok) ∧ c ≠ '"' ∧ isspace c = false ∧ c ≠ '{' ∧
      ¬ (c = '/' ∧ (tok ++ rest).head? = some '/') := by
  obtain ⟨hne, hall, hpre⟩ := hk
  cases k with
  | nil => exact absurd rfl hne
  | cons c tok =>
    have hc := hall c (List.mem_cons_self _ _)
    refine ⟨c, tok, rfl, ?_, hc.2.2.2.1, hc.1, hc.2.1, ?_⟩
    · intro x hx
      have := hall x hx
      exact ⟨this.2.2.2.2, isTerminator_of_not_isspace this.1 this.2.1 this.2.2.1⟩
    · rintro ⟨rfl, h⟩
      cases tok with
      | nil => exact endsToken_head hrest (by simpa using h)
      | cons d t =>
        simp only [List.cons_append, List.head?_cons, Option.some.injEq] at h
        subst h
        exact hpre ⟨t, rfl⟩

theorem simpleToken_parse (pre k rest : List Char) (hk : simpleToken k) (hrest : endsToken rest) :
    ParseStringAt (pre ++ (k ++ rest)) pre.length = .ok (k, pre.length + k.length) := by
  obtain ⟨c, tok, rfl, hp, hq, hsp, _, hcm⟩ := simpleToken_facts hk hrest
  exact ParseStringAt_plain pre c tok rest hp hrest hq hsp hcm

theorem simpleToken_skip (pre k rest : List Char) (hk : simpleToken k) (hrest : endsToken rest) :
    SkipWhitespace (pre ++ (k ++ rest)) pre.length = pre.length := by
  obtain ⟨c, tok, rfl, hp, hq, hsp, _, hcm⟩ := simpleToken_facts hk hrest
  have hc := charAt_append_length pre c (tok ++ rest)
  refine SkipWhitespace_stay _ _ (by simp) (by rw [List.cons_append, hc]; exact hsp) ?_
  rw [List.cons_append, hc, charAt_append_right]
  rintro ⟨h1, h2, h3⟩
  apply hcm
  refine ⟨h1, ?_⟩
  cases hl : tok ++ rest with
  | nil => rw [hl] at h2; simp at h2
  | cons d t => rw [hl] at h3; simpa [charAt] using h3

theorem simpleToken_value (n : Nat) (pre k rest : List Char) (hk : simpleToken k)
    (hrest : endsToken rest) :
    ParseValue (n + 1) (pre ++ (k ++ rest)) pre.length
      = .ok (.String k, pre.length + k.length) := by
  have hs := simpleToken_skip pre k rest hk hrest
  have hp := simpleToken_parse pre k rest hk hrest
  obtain ⟨c, tok, rfl, _, _, _, hb, _⟩ := simpleToken_facts hk hrest
  have hc := charAt_append_length pre c (tok ++ rest)
  have hlen : ¬ (pre ++ (c :: tok ++ rest)).length ≤ pre.length := by simp
  rw [List.cons_append] at hlen hs hp ⊢
  simp only [ParseValue, hs, ge_iff_le, hlen, if_false, hc, hb, hp]

theorem skip_blank (pre : List Char) (suf : List Char) :
    SkipWhitespace (pre ++ ' ' :: suf) pre.length
      = SkipWhitespace (pre ++ ' ' :: suf) (pre.length + 1) := by
  rw [SkipWhitespace_step _ _ (by simp), charAt_append_length]
  simp [isspace]

/-! ## A value expected at a closing brace -/

theorem charAt_split (Content : List Char) (q : Nat) (hq : q < Content.length) :
    Content = Content.take q ++ charAt Content q :: Content.drop (q + 1)
      ∧ (Content.take q).length = q := by
  refine ⟨?_, by simp; omega⟩
  have h : charAt Content q = Content[q] := by
    simp [charAt, List.getD_eq_getElem?_getD, List.getElem?_eq_getElem hq]
  rw [h]
  simp

theorem ParseStringAt_closeBrace (Content : List Char) (q : Nat) (hq : q < Content.length)
    (hc : charAt Content q = '}') : ParseStringAt Content q = .ok ([], q) := by
  obtain ⟨e, hl⟩ := charAt_split Content q hq
  have h := ParseStringAt_unquoted (Content.take q) '}' (Content.drop (q + 1))
    (by decide) (by decide) (by simp)
  rw [hc] at e
  rw [← e, hl] at h
  rw [h]
  simp [tokenScan, isTerminator]

theorem SkipWhitespace_closeBrace (Content : List Char) (q : Nat) (hq : q < Content.length)
    (hc : charAt Content q = '}') : SkipWhitespace Content q = q :=
  SkipWhitespace_stay _ _ hq (by rw [hc]; decide) (by rw [hc]; simp)

theorem ParseValue_closeBrace (n : Nat) (Content : List Char) (p : Nat)
    (hq : SkipWhitespace Content p < Content.length)
    (hc : charAt Content (SkipWhitespace Content p) = '}') :
    ParseValue (n + 1) Content p = .ok (.String [], SkipWhitespace Content p) := by
  have hK := ParseStringAt_closeBrace Content _ hq hc
  simp only [ParseValue, ge_iff_le, Nat.not_le.mpr hq, if_false, hc, hK]
  simp

/-! ## A comment line in front of a document -/

theorem comment_run (c : List Char) (hc : '\n' ∉ c) :
    ∀ (pre rest : List Char) (fuel : Nat), c.length ≤ fuel →
      SkipWhitespace.comment (pre ++ (c ++ '\n' :: rest)) fuel pre.length
        = pre.length + c.length := by
  induction c with
  | nil =>
    intro pre rest fuel _
    cases fuel <;> simp [SkipWhitespace.comment, charAt_append_length]
  | cons x t ih =>
    intro pre rest fuel hf
    obtain ⟨f, rfl⟩ : ∃ f, fuel = f + 1 := ⟨fuel - 1, by simp at hf; omega⟩
    have hx : x ≠ '\n' := fun e => hc (e ▸ List.mem_cons_self _ _)
    have ht : '\n' ∉ t := fun h => hc (List.mem_cons_of_mem _ h)
    have h := ih ht (pre ++ [x]) rest f (by simp at hf; omega)
    have e : pre ++ [x] ++ (t ++ '\n' :: rest) = pre ++ (x :: t ++ '\n' :: rest) := by simp
    rw [e] at h
    rw [SkipWhitespace.comment]
    simp only [List.cons_append, charAt_append_length, hx, ne_eq, not_false_eq_true, and_true]
    rw [if_pos (by simp)]
    simp only [List.cons_append, List.length_append, List.length_singleton] at h
    rw [h]
    simp only [List.length_cons]
    omega

theorem SkipWhitespace_comment_line (c d : List Char) (hc : '\n' ∉ c) :
    SkipWhitespace ('/' :: '/' :: (c ++ '\n' :: d)) 0 = c.length + 3 + SkipWhitespace d 0 := by
  have hrun := comment_run c hc ['/', '/'] d (('/' :: '/' :: (c ++ '\n' :: d)).length - 2)
    (by simp)
  have e1 : ['/', '/'] ++ (c ++ '\n' :: d) = '/' :: '/' :: (c ++ '\n' :: d) := rfl
  rw [e1] at hrun
  simp only [List.length_cons, List.length_nil] at hrun
  rw [SkipWhitespace_step _ _ (by simp)]
  have h0 : charAt ('/' :: '/' :: (c ++ '\n' :: d)) 0 = '/' := rfl
  have h1 : charAt ('/' :: '/' :: (c ++ '\n' :: d)) (0 + 1) = '/' := rfl
  have hlen : 0 + 1 < ('/' :: '/' :: (c ++ '\n' :: d)).length := by simp
  rw [h0, if_neg (by decide), if_pos ⟨rfl, hlen, h1⟩]
  simp only [List.length_cons, Nat.zero_add] at hrun ⊢
  rw [hrun]
  have e2 : '/' :: '/' :: (c ++ '\n' :: d) = ('/' :: '/' :: c) ++ '\n' :: d := by simp
  have hl2 : ('/' :: '/' :: c).length = 2 + c.length := by simp; omega
  have hN : charAt ('/' :: '/' :: (c ++ '\n' :: d)) (2 + c.length) = '\n' := by
    rw [e2, ← hl2]
    exact charAt_append_length _ _ _
  rw [SkipWhitespace_step _ _ (by simp; omega), hN, if_pos (by decide)]
  have e3 : '/' :: '/' :: (c ++ '\n' :: d) = ('/' :: '/' :: (c ++ ['\n'])) ++ d := by simp
  have hl3 : 2 + c.length + 1 = ('/' :: '/' :: (c ++ ['\n'])).length + 0 := by simp; omega
  rw [e3, hl3, SkipWhitespace_shift]
  simp only [List.length_cons, List.length_append, List.length_nil]

/-! ## The order of keys and the map operations -/

theorem keyLt_irrefl (a : List Char) : keyLt a a = false := by
  induction a with
  | nil => rfl
  | cons x t ih => simp [keyLt, ih]

theorem Char_toNat_inj {a b : Char} (h : a.toNat = b.toNat) : a = b := by
  rw [← Char.ofNat_toNat a, ← Char.ofNat_toNat b, h]

theorem keyLt_total (a b : List Char) (h1 : keyLt a b = false) (h2 : keyLt b a = false) :
    a = b := by
  induction a generalizing b with
  | nil => cases b with
    | nil => rfl
    | cons y s => simp [keyLt] at h1
  | cons x t ih => cases b with
    | nil => simp [keyLt] at h2
    | cons y s =>
      simp only [keyLt] at h1 h2
      by_cases hxy : x.toNat < y.toNat
      · simp [hxy] at h1
      · by_cases hyx : y.toNat < x.toNat
        · simp [hyx] at h2
        · simp only [hxy, hyx, if_false] at h1 h2
          have hc : x = y := Char_toNat_inj (by omega)
          rw [hc, ih s h1 h2]

theorem keyLt_trans (a b c : List Char) (h1 : keyLt a b = true) (h2 : keyLt b c = true) :
    keyLt a c = true := by
  induction a generalizing b c with
  | nil => cases b with
    | nil => simp [keyLt] at h1
    | cons y s => cases c with
      | nil => simp [keyLt] at h2
      | cons z u => rfl
  | cons x t ih => cases b with
    | nil => simp [keyLt] at h1
    | cons y s => cases c with
      | nil => simp [keyLt] at h2
      | cons z u =>
        simp only [keyLt] at h1 h2 ⊢
        by_cases hxy : x.toNat < y.toNat
        · by_cases hyz : y.toNat < z.toNat
          · rw [if_pos (by omega)]
          · by_cases hzy : z.toNat < y.toNat
            · simp [hyz, hzy] at h2
            · rw [if_pos (by omega)]
        · by_cases hyx : y.toNat < x.toNat
          · simp [hxy, hyx] at h1
          · simp only [hxy, hyx, if_false] at h1
            by_cases hyz : y.toNat < z.toNat
            · rw [if_pos (by omega)]
            · by_cases hzy : z.toNat < y.toNat
              · simp [hyz, hzy] at h2
              · simp only [hyz, hzy, if_false] at h2
                rw [if_neg (by omega), if_neg (by omega)]
                exact ih s u h1 h2

theorem key_equiv_iff (a b : List Char) :
    (keyLt a b = false ∧ keyLt b a = false) ↔ a = b :=
  ⟨fun h => keyLt_total a b h.1 h.2, fun h => by subst h; exact ⟨keyLt_irrefl a, keyLt_irrefl a⟩⟩

theorem mapFind_cons (Key k : List Char) (v : VDFNode) (rest : VDFMap) :
    mapFind Key ((k, v) :: rest) = if Key = k then some v else mapFind Key rest := by
  simp only [mapFind, key_equiv_iff]

theorem mapFind_mapInsert (k Key : List Char) (Value : VDFNode) (m : VDFMap) :
    mapFind k (mapInsert Key Value m) = if k = Key then some Value else mapFind k m := by
  induction m with
  | nil => simp [mapInsert, mapFind, key_equiv_iff]
  | cons p rest ih =>
    obtain ⟨a, w⟩ := p
    simp only [mapInsert]
    by_cases h1 : keyLt Key a = true
    · simp [h1, mapFind_cons]
    · by_cases h2 : keyLt a Key = true
      · have hne : a ≠ Key := by
          rintro rfl
          rw [keyLt_irrefl] at h2
          exact Bool.false_ne_true h2
        simp only [h1, h2, if_false, if_true, mapFind_cons, ih, Bool.false_eq_true]
        by_cases hk : k = Key
        · subst hk
          have hka : ¬ k = a := fun e => hne e.symm
          simp [hka]
        · simp [hk]
      · have he : Key = a :=
          keyLt_total _ _ (by simpa using h1) (by simpa using h2)
        subst he
        simp only [h1, if_false, mapFind_cons, Bool.false_eq_true]
        by_cases hk : k = Key <;> simp [hk]

theorem mapInsert_keys (Key : List Char) (Value : VDFNode) (m : VDFMap) :
    ∀ p ∈ mapInsert Key Value m, p.1 = Key ∨ ∃ q ∈ m, q.1 = p.1 := by
  induction m with
  | nil =>
    intro p hp
    rw [mapInsert, List.mem_singleton] at hp
    exact Or.inl (by rw [hp])
  | cons q rest ih =>
    obtain ⟨a, w⟩ := q
    intro p hp
    simp only [mapInsert] at hp
    split_ifs at hp with h1 h2
    · rcases List.mem_cons.mp hp with rfl | hp
      · exact Or.inl rfl
      · exact Or.inr ⟨p, hp, rfl⟩
    · rcases List.mem_cons.mp hp with rfl | hp
      · exact Or.inr ⟨_, List.mem_cons_self _ _, rfl⟩
      · rcases ih p hp with h | ⟨q, hq, e⟩
        · exact Or.inl h
        · exact Or.inr ⟨q, List.mem_cons_of_mem _ hq, e⟩
    · rcases List.mem_cons.mp hp with rfl | hp
      · exact Or.inr ⟨_, List.mem_cons_self _ _, rfl⟩
      · exact Or.inr ⟨p, List.mem_cons_of_mem _ hp, rfl⟩

theorem mapInsert_values (Key : List Char) (Value : VDFNode) (m : VDFMap) :
    ∀ p ∈ mapInsert Key Value m, p.2 = Value ∨ p ∈ m := by
  induction m with
  | nil =>
    intro p hp
    rw [mapInsert, List.mem_singleton] at hp
    exact Or.inl (by rw [hp])
  | cons q rest ih =>
    obtain ⟨a, w⟩ := q
    intro p hp
    simp only [mapInsert] at hp
    split_ifs at hp with h1 h2
    · rcases List.mem_cons.mp hp with rfl | hp
      · exact Or.inl rfl
      · exact Or.inr hp
    · rcases List.mem_cons.mp hp with rfl | hp
      · exact Or.inr (List.mem_cons_self _ _)
      · rcases ih p hp with h | h
        · exact Or.inl h
        · exact Or.inr (List.mem_cons_of_mem _ h)
    · rcases List.mem_cons.mp hp with rfl | hp
      · exact Or.inl rfl
      · exact Or.inr (List.mem_cons_of_mem _ hp)

theorem keysSorted_mapInsert (Key : List Char) (Value : VDFNode) (m : VDFMap)
    (hm : keysSorted m) : keysSorted (mapInsert Key Value m) := by
  unfold keysSorted at hm ⊢
  induction m with
  | nil => simp [mapInsert]
  | cons q rest ih =>
    obtain ⟨a, w⟩ := q
    rw [List.pairwise_cons] at hm
    simp only [mapInsert]
    split_ifs with h1 h2
    · refine List.Pairwise.cons ?_ (List.Pairwise.cons hm.1 hm.2)
      intro p hp
      rcases List.mem_cons.mp hp with rfl | hp
      · exact h1
      · exact keyLt_trans _ _ _ h1 (hm.1 p hp)
    · refine List.Pairwise.cons ?_ (ih hm.2)
      intro p hp
      rcases mapInsert_keys Key Value rest p hp with h | ⟨q, hq, e⟩
      · rw [h]; exact h2
      · rw [← e]; exact hm.1 q hq
    · exact List.Pairwise.cons hm.1 hm.2

theorem keysSorted_nodup (m : VDFMap) (hm : keysSorted m) : (m.map Prod.fst).Nodup := by
  unfold keysSorted at hm
  induction m with
  | nil => simp
  | cons q rest ih =>
    rw [List.pairwise_cons] at hm
    rw [List.map_cons, List.nodup_cons]
    refine ⟨?_, ih hm.2⟩
    intro hmem
    obtain ⟨p, hp, e⟩ := List.mem_map.mp hmem
    have := hm.1 p hp
    rw [e, keyLt_irrefl] at this
    exact Bool.false_ne_true this

theorem mapFind_foldl (k : List Char) (pairs : List (List Char × VDFNode)) (m : VDFMap) :
    mapFind k (pairs.foldl (fun acc p => mapInsert p.1 p.2 acc) m)
      = match lastValue k pairs with
        | some w => some w
        | none => mapFind k m := by
  induction pairs generalizing m with
  | nil => rfl
  | cons p rest ih =>
    rw [List.foldl_cons, ih, lastValue]
    cases lastValue k rest with
    | some w => rfl
    | none =>
      simp only [mapFind_mapInsert]
      by_cases h : k = p.1
      · simp [h]
      · have h' : ¬ p.1 = k := fun e => h e.symm
        simp [h, h']

/-! ## Invariants of the trees built by the parser -/

mutual

theorem AllObjects_mono {P Q : VDFMap → Prop} (hPQ : ∀ m, P m → Q m) :
    ∀ n : VDFNode, n.AllObjects P → n.AllObjects Q
  | .String _, _ => by simp [VDFNode.AllObjects]
  | .Object m, h => by
    simp only [VDFNode.AllObjects] at h ⊢
    exact ⟨hPQ m h.1, childrenAllObjects_mono hPQ m h.2⟩

theorem childrenAllObjects_mono {P Q : VDFMap → Prop} (hPQ : ∀ m, P m → Q m) :
    ∀ m : List (List Char × VDFNode), childrenAllObjects P m → childrenAllObjects Q m
  | [], _ => by simp [childrenAllObjects]
  | (_, v) :: rest, h => by
    simp only [childrenAllObjects] at h ⊢
    exact ⟨AllObjects_mono hPQ v h.1, childrenAllObjects_mono hPQ rest h.2⟩

end

theorem childrenAllObjects_iff (P : VDFMap → Prop) (m : VDFMap) :
    childrenAllObjects P m ↔ ∀ p ∈ m, p.2.AllObjects P := by
  induction m with
  | nil => simp [childrenAllObjects]
  | cons q rest ih =>
    obtain ⟨a, w⟩ := q
    simp only [childrenAllObjects, ih, List.mem_cons, forall_eq_or_imp]

theorem childrenAllObjects_mapInsert (P : VDFMap → Prop) (Key : List Char) (Value : VDFNode)
    (m : VDFMap) (hv : Value.AllObjects P) (hm : childrenAllObjects P m) :
    childrenAllObjects P (mapInsert Key Value m) := by
  rw [childrenAllObjects_iff] at hm ⊢
  intro p hp
  rcases mapInsert_values Key Value m p hp with h | h
  · rw [h]; exact hv
  · exact hm p h

theorem parser_sorted (fuel : Nat) :
    (∀ Content Pos v p, ParseValue fuel Content Pos = .ok (v, p) → v.AllObjects keysSorted) ∧
    (∀ Content Pos v p, ParseObject fuel Content Pos = .ok (v, p) → v.AllObjects keysSorted) ∧
    (∀ Content Pos Obj Obj' p, ParseObjectLoop fuel Content Pos Obj = .ok (Obj', p) →
      keysSorted Obj → childrenAllObjects keysSorted Obj →
      keysSorted Obj' ∧ childrenAllObjects keysSorted Obj') := by
  induction fuel with
  | zero =>
    refine ⟨?_, ?_, ?_⟩ <;> intros <;> simp_all [ParseValue, ParseObject, ParseObjectLoop]
  | succ fuel ih =>
    obtain ⟨ihV, ihO, ihL⟩ := ih
    refine ⟨?_, ?_, ?_⟩
    · intro Content Pos v p h
      simp only [ParseValue] at h
      split_ifs at h
      · exact ihO _ _ _ _ h
      · cases hK : ParseStringAt Content (SkipWhitespace Content Pos) with
        | error e => simp [hK] at h
        | ok r =>
          simp only [hK, Res.ok.injEq, Prod.mk.injEq] at h
          rw [← h.1]
          simp [VDFNode.AllObjects]
    · intro Content Pos v p h
      simp only [ParseObject] at h
      split_ifs at h
      cases hL : ParseObjectLoop fuel Content (SkipWhitespace Content (Pos + 1)) [] with
      | outOfFuel => simp [hL] at h
      | error e => simp [hL] at h
      | ok r =>
        simp only [hL] at h
        split_ifs at h
        simp only [Res.ok.injEq, Prod.mk.injEq] at h
        have := ihL _ _ _ _ _ hL (by simp [keysSorted]) (by simp [childrenAllObjects])
        rw [← h.1]
        simpa [VDFNode.AllObjects] using this
    · intro Content Pos Obj Obj' p h hs hc
      simp only [ParseObjectLoop] at h
      split_ifs at h
      · cases hK : ParseStringAt Content Pos with
        | error e => simp [hK] at h
        | ok r =>
          simp only [hK] at h
          cases hV : ParseValue fuel Content (SkipWhitespace Content r.2) with
          | outOfFuel => simp [hV] at h
          | error e => simp [hV] at h
          | ok w =>
            simp only [hV] at h
            exact ihL _ _ _ _ _ h (keysSorted_mapInsert _ _ _ hs)
              (childrenAllObjects_mapInsert _ _ _ _ (ihV _ _ _ _ hV) hc)
      · simp only [Res.ok.injEq, Prod.mk.injEq] at h
        rw [← h.1]
        exact ⟨hs, hc⟩

theorem ParseStringLoop_sorted (fuel : Nat) (Content : List Char) (Pos : Nat) (m : VDFMap)
    (Root : VDFNode) (h : ParseStringLoop fuel Content Pos (.Object m) = .ok Root)
    (hs : keysSorted m) (hc : childrenAllObjects keysSorted m) :
    ∃ m', Root = .Object m' ∧ keysSorted m' ∧ childrenAllObjects keysSorted m' := by
  induction fuel generalizing Pos m with
  | zero => simp [ParseStringLoop] at h
  | succ fuel ih =>
    simp only [ParseStringLoop] at h
    split_ifs at h
    · cases hK : ParseStringAt Content Pos with
      | error e => simp [hK] at h
      | ok r =>
        simp only [hK] at h
        cases hV : ParseValue fuel Content (SkipWhitespace Content r.2) with
        | outOfFuel => simp [hV] at h
        | error e => simp [hV] at h
        | ok w =>
          simp only [hV, VDFNode.SetValue] at h
          exact ih _ _ h (keysSorted_mapInsert _ _ _ hs)
            (childrenAllObjects_mapInsert _ _ _ _ ((parser_sorted fuel).1 _ _ _ _ hV) hc)
    · simp only [Res.ok.injEq] at h
      exact ⟨m, h.symm, hs, hc⟩

/-! ## The pairs read by the pair loops -/

theorem ParseObjectLoop_pairs (fuel : Nat) (Content : List Char) (Pos : Nat) (Obj Obj' : VDFMap)
    (Pos' : Nat) (h : ParseObjectLoop fuel Content Pos Obj = .ok (Obj', Pos')) :
    ∃ pairs, PairSeq Content true Pos pairs Pos' ∧
      Obj' = pairs.foldl (fun acc p => mapInsert p.1 p.2 acc) Obj := by
  induction fuel generalizing Pos Obj with
  | zero => simp [ParseObjectLoop] at h
  | succ fuel ih =>
    simp only [ParseObjectLoop] at h
    split_ifs at h with hcond
    · cases hK : ParseStringAt Content Pos with
      | error e => simp [hK] at h
      | ok r =>
        simp only [hK] at h
        cases hV : ParseValue fuel Content (SkipWhitespace Content r.2) with
        | outOfFuel => simp [hV] at h
        | error e => simp [hV] at h
        | ok w =>
          simp only [hV] at h
          obtain ⟨pairs, hseq, hfold⟩ := ih _ _ h
          exact ⟨(r.1, w.1) :: pairs,
            PairSeq.pair Pos r.2 w.2 Pos' fuel r.1 w.1 pairs ⟨hcond.1, fun _ => hcond.2⟩ hK hV hseq,
            hfold⟩
    · simp only [Res.ok.injEq, Prod.mk.injEq] at h
      refine ⟨[], ?_, h.1.symm⟩
      rw [← h.2]
      exact PairSeq.stop Pos (fun hc => hcond ⟨hc.1, hc.2 rfl⟩)

theorem ParseStringLoop_pairs (fuel : Nat) (Content : List Char) (Pos : Nat) (m : VDFMap)
    (Root : VDFNode) (h : ParseStringLoop fuel Content Pos (.Object m) = .ok Root) :
    ∃ pairs Pos', PairSeq Content false Pos pairs Pos' ∧ Content.length ≤ Pos' ∧
      Root = .Object (pairs.foldl (fun acc p => mapInsert p.1 p.2 acc) m) := by
  induction fuel generalizing Pos m with
  | zero => simp [ParseStringLoop] at h
  | succ fuel ih =>
    simp only [ParseStringLoop] at h
    split_ifs at h with hcond
    · cases hK : ParseStringAt Content Pos with
      | error e => simp [hK] at h
      | ok r =>
        simp only [hK] at h
        cases hV : ParseValue fuel Content (SkipWhitespace Content r.2) with
        | outOfFuel => simp [hV] at h
        | error e => simp [hV] at h
        | ok w =>
          simp only [hV, VDFNode.SetValue] at h
          obtain ⟨pairs, Pos', hseq, hend, hfold⟩ := ih _ _ h
          exact ⟨(r.1, w.1) :: pairs, Pos',
            PairSeq.pair Pos r.2 w.2 Pos' fuel r.1 w.1 pairs ⟨hcond, fun hf => by cases hf⟩
              hK hV hseq, hend, hfold⟩
    · simp only [Res.ok.injEq] at h
      exact ⟨[], Pos, PairSeq.stop Pos (fun hc => hcond hc.1), Nat.le_of_not_lt hcond, h.symm⟩

/-! ## Pairs of simple tokens -/

theorem simpleToken_head {k : List Char} (hk : simpleToken k) (rest : List Char) :
    ∃ c tok, k ++ rest = c :: (tok ++ rest) ∧ isspace c = false ∧ c ≠ '{' ∧ c ≠ '}' := by
  obtain ⟨hne, hall, _⟩ := hk
  cases k with
  | nil => exact absurd rfl hne
  | cons c tok =>
    have hc := hall c (List.mem_cons_self _ _)
    exact ⟨c, tok, rfl, hc.1, hc.2.1, hc.2.2.1⟩

theorem skip_blank_token (Content pre k rest : List Char)
    (hC : Content = pre ++ ' ' :: (k ++ rest)) (hk : simpleToken k) (hrest : endsToken rest) :
    SkipWhitespace Content pre.length = pre.length + 1 := by
  subst hC
  have e : pre ++ ' ' :: (k ++ rest) = (pre ++ [' ']) ++ (k ++ rest) := by simp
  have hl : (pre ++ [' ']).length = pre.length + 1 := by simp
  rw [skip_blank, e, ← hl]
  exact simpleToken_skip _ k rest hk hrest

theorem pair_tokens (n : Nat) (Content pre k v rest : List Char)
    (hC : Content = pre ++ (k ++ ' ' :: (v ++ rest)))
    (hk : simpleToken k) (hv : simpleToken v) (hrest : endsToken rest) :
    pre.length < Content.length ∧ charAt Content pre.length ≠ '}' ∧
    ParseStringAt Content pre.length = .ok (k, pre.length + k.length) ∧
    ParseValue (n + 1) Content (SkipWhitespace Content (pre.length + k.length))
      = .ok (.String v, pre.length + k.length + 1 + v.length) := by
  subst hC
  have hends : endsToken (' ' :: (v ++ rest)) := Or.inr ⟨' ', _, rfl, by decide⟩
  obtain ⟨c, tok, hh, _, _, hcb⟩ := simpleToken_head hk (' ' :: (v ++ rest))
  have e1 : pre ++ (k ++ ' ' :: (v ++ rest)) = (pre ++ k) ++ ' ' :: (v ++ rest) := by simp
  have hl1 : (pre ++ k).length = pre.length + k.length := by simp
  have e2 : pre ++ (k ++ ' ' :: (v ++ rest)) = (pre ++ k ++ [' ']) ++ (v ++ rest) := by simp
  have hl2 : (pre ++ k ++ [' ']).length = pre.length + k.length + 1 := by simp [Nat.add_assoc]
  have hS : SkipWhitespace (pre ++ (k ++ ' ' :: (v ++ rest))) (pre.length + k.length)
      = pre.length + k.length + 1 := by
    rw [← hl1]
    exact skip_blank_token _ (pre ++ k) v rest e1 hv hrest
  refine ⟨?_, ?_, simpleToken_parse pre k _ hk hends, ?_⟩
  · rw [hh]; simp
  · rw [hh, charAt_append_length]; exact hcb
  · rw [hS, e2, ← hl2]
    exact simpleToken_value n _ v rest hv hrest

theorem top_pair_step (n : Nat) (Content pre k v rest : List Char) (m : VDFMap)
    (hC : Content = pre ++ (k ++ ' ' :: (v ++ rest)))
    (hk : simpleToken k) (hv : simpleToken v) (hrest : endsToken rest) :
    ParseStringLoop (n + 2) Content pre.length (.Object m)
      = ParseStringLoop (n + 1) Content
          (SkipWhitespace Content (pre.length + k.length + 1 + v.length))
          (.Object (mapInsert k (.String v) m)) := by
  obtain ⟨h1, _, h3, h4⟩ := pair_tokens n Content pre k v rest hC hk hv hrest
  rw [ParseStringLoop]
  simp only [h1, if_true, h3, h4, VDFNode.SetValue]

theorem object_pair_step (n : Nat) (Content pre k v rest : List Char) (m : VDFMap)
    (hC : Content = pre ++ (k ++ ' ' :: (v ++ rest)))
    (hk : simpleToken k) (hv : simpleToken v) (hrest : endsToken rest) :
    ParseObjectLoop (n + 2) Content pre.length m
      = ParseObjectLoop (n + 1) Content
          (SkipWhitespace Content (pre.length + k.length + 1 + v.length))
          (mapInsert k (.String v) m) := by
  obtain ⟨h1, h2, h3, h4⟩ := pair_tokens n Content pre k v rest hC hk hv hrest
  rw [ParseObjectLoop]
  simp only [h1, h2, ne_eq, not_false_eq_true, and_self, if_true, h3, h4]

theorem mapInsert_twice (k : List Char) (v1 v2 : VDFNode) :
    mapInsert k v2 (mapInsert k v1 []) = [(k, v2)] := by
  simp [mapInsert, keyLt_irrefl]

/-! ## Two pairs with the same key -/

theorem ParseStringLoop_exit (n : Nat) (Content : List Char) (Pos : Nat) (Root : VDFNode)
    (h : Content.length ≤ Pos) : ParseStringLoop (n + 1) Content Pos Root = .ok Root := by
  rw [ParseStringLoop, if_neg (Nat.not_lt.mpr h)]

theorem duplicate_top (n : Nat) (k v1 v2 : List Char)
    (hk : simpleToken k) (hv1 : simpleToken v1) (hv2 : simpleToken v2) :
    ParseString (n + 3) (k ++ ' ' :: (v1 ++ ' ' :: (k ++ ' ' :: v2)))
      = .ok ⟨some (.Object [(k, .String v2)])⟩ := by
  have hb : ∀ l : List Char, endsToken (' ' :: l) := fun l => Or.inr ⟨' ', l, rfl, by decide⟩
  generalize hC : k ++ ' ' :: (v1 ++ ' ' :: (k ++ ' ' :: v2)) = Content
  have h0 : SkipWhitespace Content 0 = 0 := by
    rw [← hC]; exact simpleToken_skip [] k _ hk (hb _)
  have s1 := top_pair_step (n + 1) Content [] k v1 (' ' :: (k ++ ' ' :: v2)) []
    (by rw [← hC]; simp) hk hv1 (hb _)
  have hS1 : SkipWhitespace Content (k.length + 1 + v1.length) = k.length + 1 + v1.length + 1 := by
    have := skip_blank_token Content (k ++ ' ' :: v1) k (' ' :: v2) (by rw [← hC]; simp) hk (hb _)
    have hl1 : (k ++ ' ' :: v1).length = k.length + 1 + v1.length := by
      simp only [List.length_append, List.length_cons, List.length_nil]; omega
    rw [hl1] at this
    exact this
  have s2 := top_pair_step n Content (k ++ ' ' :: v1 ++ [' ']) k v2 []
    (mapInsert k (.String v1) []) (by rw [← hC]; simp) hk hv2 (Or.inl rfl)
  have hl2 : (k ++ ' ' :: v1 ++ [' ']).length = k.length + 1 + v1.length + 1 := by
    simp only [List.length_append, List.length_cons, List.length_nil]; omega
  have hlen : Content.length = k.length + 1 + v1.length + 1 + k.length + 1 + v2.length := by
    rw [← hC]
    simp only [List.length_append, List.length_cons, List.length_nil]; omega
  simp only [List.length_nil, Nat.zero_add] at s1
  rw [hl2] at s2
  have hS2 := SkipWhitespace_end Content (k.length + 1 + v1.length + 1 + k.length + 1 + v2.length)
    (by rw [hlen])
  rw [ParseString, h0, s1, hS1, s2, hS2, ParseStringLoop_exit n _ _ _ (by rw [hlen]),
    mapInsert_twice]
  rfl

theorem duplicate_nested (n : Nat) (k v1 v2 : List Char)
    (hk : simpleToken k) (hv1 : simpleToken v1) (hv2 : simpleToken v2) :
    ParseString (n + 6)
        ('o' :: ' ' :: '{' :: ' ' :: (k ++ ' ' :: (v1 ++ ' ' :: (k ++ ' ' :: (v2 ++ [' ', '}'])))))
      = .ok ⟨some (.Object [(['o'], .Object [(k, .String v2)])])⟩ := by
  have hb : ∀ l : List Char, endsToken (' ' :: l) := fun l => Or.inr ⟨' ', l, rfl, by decide⟩
  have ho : simpleToken ['o'] := ⟨by decide, by decide, by decide⟩
  generalize hC :
    'o' :: ' ' :: '{' :: ' ' :: (k ++ ' ' :: (v1 ++ ' ' :: (k ++ ' ' :: (v2 ++ [' ', '}']))))
      = Content
  have hlen : Content.length
      = 4 + k.length + 1 + v1.length + 1 + k.length + 1 + v2.length + 2 := by
    rw [← hC]
    simp only [List.length_append, List.length_cons, List.length_nil]; omega
  have h0 : SkipWhitespace Content 0 = 0 := by
    rw [← hC]; exact simpleToken_skip [] ['o'] _ ho (hb _)
  have hK0 : ParseStringAt Content 0 = .ok (['o'], 1) := by
    rw [← hC]; exact simpleToken_parse [] ['o'] _ ho (hb _)
  have hc2 : charAt Content 2 = '{' := by rw [← hC]; rfl
  have hS2 : SkipWhitespace Content 2 = 2 :=
    SkipWhitespace_stay _ _ (by rw [hlen]; omega) (by rw [hc2]; decide) (by rw [hc2]; simp)
  have hS1 : SkipWhitespace Content 1 = 2 := by
    have := skip_blank ['o'] ('{' :: ' ' :: (k ++ ' ' :: (v1 ++ ' ' :: (k ++ ' ' ::
      (v2 ++ [' ', '}'])))))
    simp only [List.singleton_append, List.length_singleton] at this
    rw [hC] at this
    rw [this, hS2]
  have hS3 : SkipWhitespace Content 3 = 4 :=
    skip_blank_token Content ['o', ' ', '{'] k (' ' :: (v1 ++ ' ' :: (k ++ ' ' :: (v2 ++ [' ', '}']))))
      (by rw [← hC]; simp) hk (hb _)
  have o1 := object_pair_step (n + 1) Content ['o', ' ', '{', ' '] k v1
    (' ' :: (k ++ ' ' :: (v2 ++ [' ', '}']))) [] (by rw [← hC]; simp) hk hv1 (hb _)
  have hS4 : SkipWhitespace Content (4 + k.length + 1 + v1.length)
      = 4 + k.length + 1 + v1.length + 1 := by
    have := skip_blank_token Content (['o', ' ', '{', ' '] ++ k ++ ' ' :: v1) k
      (' ' :: (v2 ++ [' ', '}'])) (by rw [← hC]; simp) hk (hb _)
    have hl : (['o', ' ', '{', ' '] ++ k ++ ' ' :: v1).length = 4 + k.length + 1 + v1.length := by
      simp only [List.length_append, List.length_cons, List.length_nil]; omega
    rw [hl] at this
    exact this
  have o2 := object_pair_step n Content (['o', ' ', '{', ' '] ++ k ++ ' ' :: v1 ++ [' ']) k v2
    [' ', '}'] (mapInsert k (.String v1) []) (by rw [← hC]; simp) hk hv2
    (Or.inr ⟨' ', ['}'], rfl, by decide⟩)
  have hl2 : (['o', ' ', '{', ' '] ++ k ++ ' ' :: v1 ++ [' ']).length
      = 4 + k.length + 1 + v1.length + 1 := by
    simp only [List.length_append, List.length_cons, List.length_nil]; omega
  rw [hl2] at o2
  simp only [List.length_cons, List.length_nil, Nat.zero_add, Nat.reduceAdd] at o1
  have hcP : charAt Content (4 + k.length + 1 + v1.length + 1 + k.length + 1 + v2.length + 1)
      = '}' := by
    have := charAt_append_length
      (['o', ' ', '{', ' '] ++ k ++ ' ' :: v1 ++ ' ' :: k ++ ' ' :: v2 ++ [' ']) '}' []
    have hl : (['o', ' ', '{', ' '] ++ k ++ ' ' :: v1 ++ ' ' :: k ++ ' ' :: v2 ++ [' ']).length
        = 4 + k.length + 1 + v1.length + 1 + k.length + 1 + v2.length + 1 := by
      simp only [List.length_append, List.length_cons, List.length_nil]; omega
    have e : ['o', ' ', '{', ' '] ++ k ++ ' ' :: v1 ++ ' ' :: k ++ ' ' :: v2 ++ [' '] ++ ['}']
        = Content := by rw [← hC]; simp
    rw [hl, e] at this
    exact this
  have hS5 : SkipWhitespace Content (4 + k.length + 1 + v1.length + 1 + k.length + 1 + v2.length)
      = 4 + k.length + 1 + v1.length + 1 + k.length + 1 + v2.length + 1 := by
    have := skip_blank (['o', ' ', '{', ' '] ++ k ++ ' ' :: v1 ++ ' ' :: k ++ ' ' :: v2) ['}']
    have hl : (['o', ' ', '{', ' '] ++ k ++ ' ' :: v1 ++ ' ' :: k ++ ' ' :: v2).length
        = 4 + k.length + 1 + v1.length + 1 + k.length + 1 + v2.length := by
      simp only [List.length_append, List.length_cons, List.length_nil]; omega
    have e : ['o', ' ', '{', ' '] ++ k ++ ' ' :: v1 ++ ' ' :: k ++ ' ' :: v2 ++ [' ', '}']
        = Content := by rw [← hC]; simp
    rw [hl, e] at this
    rw [this]
    exact SkipWhitespace_closeBrace _ _ (by rw [hlen]; omega) hcP
  have hexit : ∀ Obj, ParseObjectLoop (n + 1) Content
      (4 + k.length + 1 + v1.length + 1 + k.length + 1 + v2.length + 1) Obj
      = .ok (Obj, 4 + k.length + 1 + v1.length + 1 + k.length + 1 + v2.length + 1) := by
    intro Obj
    rw [ParseObjectLoop]
    simp [hcP]
  have hO : ParseObject (n + 4) Content 2
      = .ok (.Object [(k, .String v2)],
          4 + k.length + 1 + v1.length + 1 + k.length + 1 + v2.length + 1 + 1) := by
    rw [ParseObject]
    simp only [hc2, ne_eq, not_true_eq_false, if_false, Nat.reduceAdd, hS3, o1, hS4, o2, hS5,
      hexit, hcP, ge_iff_le, or_false, mapInsert_twice]
    rw [if_neg (by rw [hlen]; omega)]
  have hV : ParseValue (n + 5) Content 2
      = .ok (.Object [(k, .String v2)],
          4 + k.length + 1 + v1.length + 1 + k.length + 1 + v2.length + 1 + 1) := by
    rw [ParseValue]
    simp only [hS2, ge_iff_le, hc2, if_true, hO]
    rw [if_neg (by rw [hlen]; omega)]
  have hS6 := SkipWhitespace_end Content
    (4 + k.length + 1 + v1.length + 1 + k.length + 1 + v2.length + 1 + 1) (by rw [hlen])
  rw [ParseString, h0, ParseStringLoop]
  simp only [hK0, hS1, hV, VDFNode.SetValue, mapInsert, hS6]
  rw [if_pos (by rw [hlen]; omega), ParseStringLoop_exit _ _ _ _ (by rw [hlen])]
  rfl

/-! ## Counting braces along the cursor -/

theorem charAt_eq_getElem (Content : List Char) (i : Nat) (h : i < Content.length) :
    charAt Content i = Content[i] := by
  simp [charAt, List.getD_eq_getElem?_getD, List.getElem?_eq_getElem h]

theorem charAt_mem (Content : List Char) (i : Nat) (h : i < Content.length) :
    charAt Content i ∈ Content := by
  rw [charAt_eq_getElem Content i h]
  exact List.getElem_mem h

theorem count_take_succ (Content : List Char) (b : Char) (i : Nat) (h : i < Content.length) :
    (Content.take (i + 1)).count b
      = (Content.take i).count b + if charAt Content i = b then 1 else 0 := by
  rw [List.take_succ, List.getElem?_eq_getElem h, charAt_eq_getElem Content i h,
    List.count_append]
  simp [List.count_cons]

theorem opens_succ (Content : List Char) (i : Nat) (h : i < Content.length) :
    opens Content (i + 1) = opens Content i + if charAt Content i = '{' then 1 else 0 :=
  count_take_succ Content '{' i h

theorem closes_succ (Content : List Char) (i : Nat) (h : i < Content.length) :
    closes Content (i + 1) = closes Content i + if charAt Content i = '}' then 1 else 0 :=
  count_take_succ Content '}' i h

theorem isspace_not_brace {c : Char} (h : isspace c = true) : c ≠ '{' ∧ c ≠ '}' := by
  constructor <;> rintro rfl <;> simp [isspace] at h

/-- Without `/` in the text `SkipWhitespace` only passes `isspace` characters. -/
theorem skip_spec (Content : List Char) (hs : ∀ x ∈ Content, x ≠ '/') (Pos : Nat)
    (hPos : Pos ≤ Content.length) :
    Pos ≤ SkipWhitespace Content Pos ∧ SkipWhitespace Content Pos ≤ Content.length ∧
    opens Content (SkipWhitespace Content Pos) = opens Content Pos ∧
    closes Content (SkipWhitespace Content Pos) = closes Content Pos ∧
    (SkipWhitespace Content Pos < Content.length →
      isspace (charAt Content (SkipWhitespace Content Pos)) = false) := by
  generalize hn : Content.length - Pos = n
  induction n generalizing Pos with
  | zero =>
    rw [SkipWhitespace_end Content Pos (by omega)]
    exact ⟨Nat.le_refl _, hPos, rfl, rfl, fun h => absurd h (by omega)⟩
  | succ n ih =>
    have hlt : Pos < Content.length := by omega
    rw [SkipWhitespace_step Content Pos hlt]
    by_cases hsp : isspace (charAt Content Pos) = true
    · rw [if_pos hsp]
      obtain ⟨h1, h2, h3, h4, h5⟩ := ih (Pos + 1) (by omega) (by omega)
      have hb := isspace_not_brace hsp
      refine ⟨by omega, h2, ?_, ?_, h5⟩
      · rw [h3, opens_succ Content Pos hlt, if_neg hb.1]; rfl
      · rw [h4, closes_succ Content Pos hlt, if_neg hb.2]; rfl
    · have hsl : charAt Content Pos ≠ '/' := hs _ (charAt_mem Content Pos hlt)
      rw [if_neg hsp, if_neg (fun h => hsl h.1)]
      exact ⟨Nat.le_refl _, hPos, rfl, rfl, fun _ => by simpa using hsp⟩

theorem skip_stable (Content : List Char) (hs : ∀ x ∈ Content, x ≠ '/') (Pos : Nat)
    (hst : Pos < Content.length → isspace (charAt Content Pos) = false) :
    SkipWhitespace Content Pos = Pos := by
  by_cases hlt : Pos < Content.length
  · exact SkipWhitespace_stay _ _ hlt (hst hlt)
      (fun h => hs _ (charAt_mem Content Pos hlt) h.1)
  · exact SkipWhitespace_end _ _ (by omega)

theorem tokenScan_noBackslash (l : List Char) (h : ∀ x ∈ l, x ≠ '\\') :
    tokenScan false l false
      = (l.takeWhile (fun x => !isTerminator x),
          (l.takeWhile (fun x => !isTerminator x)).length) := by
  induction l with
  | nil => rfl
  | cons c t ih =>
    have hc := h c (List.mem_cons_self _ _)
    have ih' := ih (fun x hx => h x (List.mem_cons_of_mem _ hx))
    by_cases ht : isTerminator c = true
    · simp [tokenScan, hc, ht, List.takeWhile]
    · simp [tokenScan, hc, ht, List.takeWhile, ih']

theorem count_takeWhile_brace (l : List Char) (b : Char) (hb : isTerminator b = true) :
    (l.takeWhile (fun x => !isTerminator x)).count b = 0 := by
  rw [List.count_eq_zero]
  intro hmem
  have := List.mem_takeWhile_imp hmem
  simp [hb] at this

/-- Without quotes, backslashes and `/` in the text, the token parser at a
character that is no `isspace` character returns a token, passes no brace,
and moves unless it stands on a brace. -/
theorem token_spec (Content : List Char)
    (hfree : ∀ x ∈ Content, x ≠ '"' ∧ x ≠ '\\' ∧ x ≠ '/') (Pos : Nat)
    (hlt : Pos < Content.length) (hst : isspace (charAt Content Pos) = false) :
    ∃ tok p, ParseStringAt Content Pos = .ok (tok, p) ∧ Pos ≤ p ∧ p ≤ Content.length ∧
      opens Content p = opens Content Pos ∧ closes Content p = closes Content Pos ∧
      (charAt Content Pos ≠ '{' → charAt Content Pos ≠ '}' → Pos < p) ∧
      ((charAt Content Pos = '{' ∨ charAt Content Pos = '}') → p = Pos) := by
  obtain ⟨e, hl⟩ := charAt_split Content Pos hlt
  have hc := hfree _ (charAt_mem Content Pos hlt)
  generalize charAt Content Pos = c at e hc hst
  generalize hpre : Content.take Pos = pre at e hl
  generalize Content.drop (Pos + 1) = suf at e
  have hnb : ∀ x ∈ c :: suf, x ≠ '\\' := fun x hx =>
    (hfree x (by rw [e]; exact List.mem_append_right _ hx)).2.1
  have hP := ParseStringAt_unquoted pre c suf hc.1 hst (fun h => hc.2.2 h.1)
  rw [tokenScan_noBackslash _ hnb, ← e, hl] at hP
  have hpfx := List.takeWhile_prefix (fun x => !isTerminator x) (l := c :: suf)
  have hle : ((c :: suf).takeWhile (fun x => !isTerminator x)).length ≤ (c :: suf).length :=
    hpfx.length_le
  have htake : (c :: suf).take ((c :: suf).takeWhile (fun x => !isTerminator x)).length
      = (c :: suf).takeWhile (fun x => !isTerminator x) :=
    (List.prefix_iff_eq_take.mp hpfx).symm
  have hcount : ∀ b, isTerminator b = true →
      (Content.take (Pos + ((c :: suf).takeWhile (fun x => !isTerminator x)).length)).count b
        = (Content.take Pos).count b := by
    intro b hb
    rw [hpre]
    conv_lhs => rw [e, ← hl, List.take_append, htake, List.count_append,
      count_takeWhile_brace _ b hb, Nat.add_zero]
  refine ⟨_, _, hP, Nat.le_add_right _ _, ?_, hcount '{' (by decide), hcount '}' (by decide),
    ?_, ?_⟩
  · have : Content.length = pre.length + (c :: suf).length := by rw [e]; simp
    rw [this, ← hl]
    omega
  · intro h1 h2
    have hnt : isTerminator c = false := isTerminator_of_not_isspace hst h1 h2
    simp [List.takeWhile, hnt]
  · intro h
    have ht : isTerminator c = true := by rcases h with rfl | rfl <;> decide
    simp [List.takeWhile, ht]

/-! ## Brace balance of the recursive descent -/

/-- In a text without quotes, backslashes and `/`: what `ParseValue`, `ParseObject`
and the pair loop of `ParseObject` consume holds as many `{` as `}`, their only
failures are "Unexpected end of input" and "Expected '}'", and fuel of three times
the remaining length (plus 3) is enough for an outcome. -/
theorem parser_balance (Content : List Char)
    (hfree : ∀ x ∈ Content, x ≠ '"' ∧ x ≠ '\\' ∧ x ≠ '/') (fuel : Nat) :
    (∀ Pos, Pos ≤ Content.length →
      (∀ v p, ParseValue fuel Content Pos = .ok (v, p) →
        Pos ≤ p ∧ p ≤ Content.length ∧
        opens Content p + closes Content Pos = closes Content p + opens Content Pos ∧
        (charAt Content (SkipWhitespace Content Pos) = '{' →
          SkipWhitespace Content Pos + 2 ≤ p)) ∧
      (∀ e, ParseValue fuel Content Pos = .error e → unmatchedError e) ∧
      (ParseValue fuel Content Pos = .outOfFuel → fuel < 3 * (Content.length - Pos) + 2)) ∧
    (∀ Pos, Pos < Content.length → charAt Content Pos = '{' →
      (∀ v p, ParseObject fuel Content Pos = .ok (v, p) →
        Pos + 2 ≤ p ∧ p ≤ Content.length ∧
        opens Content p + closes Content Pos = closes Content p + opens Content Pos) ∧
      (∀ e, ParseObject fuel Content Pos = .error e → unmatchedError e) ∧
      (ParseObject fuel Content Pos = .outOfFuel → fuel < 3 * (Content.length - Pos) + 1)) ∧
    (∀ Pos Obj, Pos ≤ Content.length →
      (Pos < Content.length → isspace (charAt Content Pos) = false) →
      (∀ Obj' p, ParseObjectLoop fuel Content Pos Obj = .ok (Obj', p) →
        Pos ≤ p ∧ p ≤ Content.length ∧
        opens Content p + closes Content Pos = closes Content p + opens Content Pos) ∧
      (∀ e, ParseObjectLoop fuel Content Pos Obj = .error e → unmatchedError e) ∧
      (ParseObjectLoop fuel Content Pos Obj = .outOfFuel →
        fuel < 3 * (Content.length - Pos) + 3)) := by
  have hs : ∀ x ∈ Content, x ≠ '/' := fun x hx => (hfree x hx).2.2
  induction fuel with
  | zero =>
    refine ⟨fun Pos _ => ?_, fun Pos _ _ => ?_, fun Pos Obj _ _ => ?_⟩ <;>
      simp [ParseValue, ParseObject, ParseObjectLoop]
  | succ fuel ih =>
    obtain ⟨ihV, ihO, ihL⟩ := ih
    refine ⟨?_, ?_, ?_⟩
    · intro Pos hPos
      obtain ⟨s1, s2, s3, s4, s5⟩ := skip_spec Content hs Pos hPos
      simp only [ParseValue]
      by_cases h1 : Content.length ≤ SkipWhitespace Content Pos
      · simp [h1, unmatchedError]
      · by_cases h2 : charAt Content (SkipWhitespace Content Pos) = '{'
        · simp only [ge_iff_le, h1, if_false, h2, if_true]
          obtain ⟨o1, o2, o3⟩ := ihO (SkipWhitespace Content Pos) (by omega) h2
          refine ⟨fun v p h => ?_, o2, fun h => ?_⟩
          · obtain ⟨a, b, c⟩ := o1 v p h
            rw [s3, s4] at c
            exact ⟨by omega, b, c, fun _ => a⟩
          · have := o3 h
            omega
        · simp only [ge_iff_le, h1, if_false, h2]
          obtain ⟨tok, p, hP, t1, t2, t3, t4, _, _⟩ :=
            token_spec Content hfree (SkipWhitespace Content Pos) (by omega) (s5 (by omega))
          rw [hP]
          refine ⟨fun v p' h => ?_, fun e h => by simp at h, fun h => by simp at h⟩
          simp only [Res.ok.injEq, Prod.mk.injEq] at h
          obtain ⟨-, rfl⟩ := h
          exact ⟨by omega, t2, by rw [t3, t4, s3, s4]; omega, fun hc => hc.elim⟩
    · intro Pos hlt hc
      obtain ⟨s1, s2, s3, s4, s5⟩ := skip_spec Content hs (Pos + 1) (by omega)
      obtain ⟨l1, l2, l3⟩ := ihL (SkipWhitespace Content (Pos + 1)) [] s2 s5
      have ho := opens_succ Content Pos hlt
      have hcl := closes_succ Content Pos hlt
      rw [hc, if_pos rfl] at ho
      rw [hc, if_neg (by decide)] at hcl
      simp only [ParseObject, hc, ne_eq, not_true_eq_false, if_false]
      cases hL : ParseObjectLoop fuel Content (SkipWhitespace Content (Pos + 1)) [] with
      | outOfFuel =>
        refine ⟨fun v p h => by simp at h, fun e h => by simp at h, fun _ => ?_⟩
        have := l3 hL
        omega
      | error e =>
        refine ⟨fun v p h => by simp at h, fun e' h => ?_, fun h => by simp at h⟩
        simp only [Res.error.injEq] at h
        exact h ▸ l2 e hL
      | ok r =>
        obtain ⟨Obj', q⟩ := r
        obtain ⟨a, b, c⟩ := l1 Obj' q hL
        simp only
        by_cases hcond : Content.length ≤ q ∨ charAt Content q ≠ '}'
        · rw [if_pos hcond]
          refine ⟨fun v p h => by simp at h, fun e' h => ?_, fun h => by simp at h⟩
          simp only [Res.error.injEq] at h
          exact Or.inr ⟨q, h.symm⟩
        · rw [if_neg hcond]
          have hq : q < Content.length := by
            by_contra hn; exact hcond (Or.inl (by omega))
          have hcq : charAt Content q = '}' := by
            by_contra hn; exact hcond (Or.inr hn)
          have ho' := opens_succ Content q hq
          have hcl' := closes_succ Content q hq
          rw [hcq, if_neg (by decide)] at ho'
          rw [hcq, if_pos rfl] at hcl'
          refine ⟨fun v p h => ?_, fun e h => by simp at h, fun h => by simp at h⟩
          simp only [Res.ok.injEq, Prod.mk.injEq] at h
          obtain ⟨-, rfl⟩ := h
          exact ⟨by omega, by omega, by omega⟩
    · intro Pos Obj hPos hst
      simp only [ParseObjectLoop]
      by_cases hcond : Pos < Content.length ∧ charAt Content Pos ≠ '}'
      · obtain ⟨Key, p1, hK, t1, t2, t3, t4, t5, t6⟩ :=
          token_spec Content hfree Pos hcond.1 (hst hcond.1)
        rw [if_pos hcond, hK]
        simp only
        obtain ⟨s1, s2, s3, s4, s5⟩ := skip_spec Content hs p1 t2
        obtain ⟨v1, v2, v3⟩ := ihV (SkipWhitespace Content p1) s2
        have hss : SkipWhitespace Content (SkipWhitespace Content p1)
            = SkipWhitespace Content p1 := skip_stable Content hs _ s5
        cases hV : ParseValue fuel Content (SkipWhitespace Content p1) with
        | outOfFuel =>
          refine ⟨fun v p h => by simp at h, fun e h => by simp at h, fun _ => ?_⟩
          have := v3 hV
          omega
        | error e =>
          refine ⟨fun v p h => by simp at h, fun e' h => ?_, fun h => by simp at h⟩
          simp only [Res.error.injEq] at h
          exact h ▸ v2 e hV
        | ok w =>
          obtain ⟨Value, p2⟩ := w
          obtain ⟨a, b, c, d⟩ := v1 Value p2 hV
          rw [hss] at d
          have hprog : Pos < p2 := by
            by_cases hb : charAt Content Pos = '{'
            · have hp1 : p1 = Pos := t6 (Or.inl hb)
              have hsp : SkipWhitespace Content p1 = Pos := by
                rw [hp1]; exact skip_stable Content hs Pos hst
              rw [hsp] at d
              have := d hb
              omega
            · have := t5 hb hcond.2
              omega
          obtain ⟨r1, r2, r3, r4, r5⟩ := skip_spec Content hs p2 b
          obtain ⟨l1, l2, l3⟩ := ihL (SkipWhitespace Content p2) (mapInsert Key Value Obj) r2 r5
          simp only
          refine ⟨fun Obj' p h => ?_, l2, fun h => ?_⟩
          · obtain ⟨x, y, z⟩ := l1 Obj' p h
            exact ⟨by omega, y, by omega⟩
          · have := l3 h
            omega
      · rw [if_neg hcond]
        refine ⟨fun Obj' p h => ?_, fun e h => by simp at h, fun h => by simp at h⟩
        simp only [Res.ok.injEq, Prod.mk.injEq] at h
        obtain ⟨-, rfl⟩ := h
        exact ⟨Nat.le_refl _, hPos, Nat.add_comm _ _⟩

/-- The top-level pair loop in a text without quotes, backslashes and `/` in which
no prefix holds more `}` than `{`: started where the braces read so far are
matched, it returns only if all braces of the text are matched, fails only with
"Unexpected end of input" or "Expected '}'", and has an outcome with fuel of three
times the remaining length plus 3. -/
theorem top_balance (Content : List Char)
    (hfree : ∀ x ∈ Content, x ≠ '"' ∧ x ≠ '\\' ∧ x ≠ '/')
    (hpre : ∀ i, i ≤ Content.length → closes Content i ≤ opens Content i) (fuel : Nat) :
    ∀ Pos m, Pos ≤ Content.length →
      (Pos < Content.length → isspace (charAt Content Pos) = false) →
      opens Content Pos = closes Content Pos →
      (∀ R, ParseStringLoop fuel Content Pos (.Object m) = .ok R →
        opens Content Content.length = closes Content Content.length) ∧
      (∀ e, ParseStringLoop fuel Content Pos (.Object m) = .error e → unmatchedError e) ∧
      (ParseStringLoop fuel Content Pos (.Object m) = .outOfFuel →
        fuel < 3 * (Content.length - Pos) + 3) := by
  have hs : ∀ x ∈ Content, x ≠ '/' := fun x hx => (hfree x hx).2.2
  induction fuel with
  | zero =>
    intro Pos m _ _ _
    simp [ParseStringLoop]
  | succ fuel ih =>
    intro Pos m hPos hst hbal
    simp only [ParseStringLoop]
    by_cases hlt : Pos < Content.length
    · have hnc : charAt Content Pos ≠ '}' := by
        intro hc
        have h1 := opens_succ Content Pos hlt
        have h2 := closes_succ Content Pos hlt
        rw [hc, if_neg (by decide)] at h1
        rw [hc, if_pos rfl] at h2
        have := hpre (Pos + 1) (by omega)
        omega
      obtain ⟨Key, p1, hK, t1, t2, t3, t4, t5, t6⟩ := token_spec Content hfree Pos hlt (hst hlt)
      rw [if_pos hlt, hK]
      simp only
      obtain ⟨s1, s2, s3, s4, s5⟩ := skip_spec Content hs p1 t2
      obtain ⟨v1, v2, v3⟩ := (parser_balance Content hfree fuel).1 (SkipWhitespace Content p1) s2
      have hss : SkipWhitespace Content (SkipWhitespace Content p1)
          = SkipWhitespace Content p1 := skip_stable Content hs _ s5
      cases hV : ParseValue fuel Content (SkipWhitespace Content p1) with
      | outOfFuel =>
        refine ⟨fun R h => by simp at h, fun e h => by simp at h, fun _ => ?_⟩
        have := v3 hV
        omega
      | error e =>
        refine ⟨fun R h => by simp at h, fun e' h => ?_, fun h => by simp at h⟩
        simp only [Res.error.injEq] at h
        exact h ▸ v2 e hV
      | ok w =>
        obtain ⟨Value, p2⟩ := w
        obtain ⟨a, b, c, d⟩ := v1 Value p2 hV
        rw [hss] at d
        have hprog : Pos < p2 := by
          by_cases hb : charAt Content Pos = '{'
          · have hp1 : p1 = Pos := t6 (Or.inl hb)
            have hsp : SkipWhitespace Content p1 = Pos := by
              rw [hp1]; exact skip_stable Content hs Pos hst
            rw [hsp] at d
            have := d hb
            omega
          · have := t5 hb hnc
            omega
        obtain ⟨r1, r2, r3, r4, r5⟩ := skip_spec Content hs p2 b
        obtain ⟨l1, l2, l3⟩ := ih (SkipWhitespace Content p2) (mapInsert Key Value m) r2 r5
          (by omega)
        simp only [VDFNode.SetValue]
        refine ⟨l1, l2, fun h => ?_⟩
        have := l3 h
        omega
    · rw [if_neg hlt]
      have hP : Pos = Content.length := by omega
      refine ⟨fun R _ => hP ▸ hbal, fun e h => by simp at h, fun h => by simp at h⟩

/-! ## Claims -/

/-- C1: the AppState example parses (with any fuel of at least 6) to a root Object
whose only key is `AppState`, mapped to the Object with the two entries
`appid -> "252490"` and `name -> "Half-Life 2"`; on that root the chained lookup
`["AppState"]["appid"]` converts to `252490` and `["AppState"]["missing"]` converts
to the empty string. -/
theorem C1_appstate_example (n : Nat) :
    ∃ root : VDFValue,
      ParseString (n + 6)
          "\"AppState\"\n\x7b\n  \"appid\" \"252490\"\n  \"name\" \"Half-Life 2\"\n\x7d\n".toList
        = .ok root ∧
      root = ⟨some (.Object [("AppState".toList,
          .Object [("appid".toList, .String "252490".toList),
                   ("name".toList, .String "Half-Life 2".toList)])])⟩ ∧
      ((root.operatorIndex "AppState".toList).operatorIndex "appid".toList).operatorString
        = "252490".toList ∧
      ((root.operatorIndex "AppState".toList).operatorIndex "missing".toList).operatorString
        = [] :=
  ⟨_, rfl, rfl, rfl, rfl⟩

/-- C2 (the code at the failing input): on the one-character text `}` the token
parser returns the empty key without moving the cursor, `ParseValue` returns the
empty String without moving the cursor, so an iteration of the top-level pair loop
ends where it began, and `ParseString` has no outcome with any amount of fuel. -/
theorem C2_stray_brace_never_returns :
    ParseStringAt ['}'] 0 = .ok ([], 0) ∧
    (∀ fuel, ParseValue (fuel + 1) ['}'] 0 = .ok (.String [], 0)) ∧
    (∀ fuel, ParseString fuel ['}'] = .outOfFuel) := by
  have hK : ParseStringAt ['}'] 0 = .ok ([], 0) := rfl
  have hS : SkipWhitespace ['}'] 0 = 0 := rfl
  have hV : ∀ fuel, ParseValue (fuel + 1) ['}'] 0 = .ok (.String [], 0) := fun _ => rfl
  refine ⟨hK, hV, ?_⟩
  have hL : ∀ fuel m, ParseStringLoop fuel ['}'] 0 (.Object m) = .outOfFuel := by
    intro fuel
    induction fuel with
    | zero => intro m; rfl
    | succ fuel ih =>
      intro m
      cases fuel with
      | zero => rfl
      | succ fuel =>
        rw [ParseStringLoop]
        simp only [List.length_singleton, Nat.lt_one_iff, if_true, hK, hS, hV,
          VDFNode.SetValue]
        exact ih _
  intro fuel
  simp [ParseString, hS, hL]

/-- C3: at a cursor on `"` the token parser returns the escape-decoded body up to
the first unescaped `"` and leaves the cursor just past that quote; the escapes
`n r t` decode to LF, CR, TAB, every other escaped character (backslash and quote
included) to itself, and everything else in the body is copied, `//`, braces and
blanks included. Hence quoting `s` with `\\` and `"` escaped and parsing it as a
value gives back the String `s`; `"line1\nline2"` gives 11 characters, one of them
a newline. -/
theorem C3_quoted_token (pre body rest s : List Char) (n : Nat)
    (hb : closedBody body = true) :
    ParseStringAt (pre ++ '"' :: (body ++ '"' :: rest)) pre.length
        = .ok (decodeEscapes body, pre.length + body.length + 2) ∧
    (unescape 'n' = '\n' ∧ unescape 'r' = '\r' ∧ unescape 't' = '\t' ∧
      unescape '\\' = '\\' ∧ unescape '"' = '"' ∧
      ∀ X : Char, X ≠ 'n' → X ≠ 'r' → X ≠ 't' → unescape X = X) ∧
    ('\\' ∉ body → decodeEscapes body = body) ∧
    ParseValue (n + 1) ('"' :: (escapeQuoted s ++ ['"'])) 0
        = .ok (.String s, (escapeQuoted s).length + 2) ∧
    ParseValue (n + 1) "\"a // b \x7b \x7d\"".toList 0 = .ok (.String "a // b \x7b \x7d".toList, 12) ∧
    ParseValue (n + 1) "\"line1\\nline2\"".toList 0
        = .ok (.String "line1\nline2".toList, 14) ∧
    "line1\nline2".toList.length = 11 ∧ "line1\nline2".toList.count '\n' = 1 := by
  refine ⟨?_, ⟨rfl, rfl, rfl, rfl, rfl, ?_⟩, decodeEscapes_plain body, ?_, rfl, rfl, rfl, rfl⟩
  · rw [ParseStringAt_quoted, tokenScan_closedBody body rest hb]
    simp [charAt_quote_body, Nat.add_assoc, Nat.add_comm 1]
  · intro X h1 h2 h3
    unfold unescape
    split_ifs <;> simp_all
  · have hT := ParseStringAt_quoted [] (escapeQuoted s ++ ['"'])
    rw [tokenScan_escapeQuoted s []] at hT
    simp only [List.nil_append, List.length_nil, charAt_quote_body, ne_eq, not_true,
      if_false] at hT
    have hS : SkipWhitespace ('"' :: (escapeQuoted s ++ ['"'])) 0 = 0 :=
      SkipWhitespace_stay _ _ (by simp) (by simp [charAt, isspace]) (by simp [charAt])
    simp only [ParseValue, hS, hT]
    simp [charAt]
    omega

/-- C3 at a concrete quoted token with an escaped quote in its body. -/
theorem C3_quoted_token_witness :
    closedBody "a\\\"b".toList = true ∧
    ParseStringAt ("k ".toList ++ '"' :: ("a\\\"b".toList ++ '"' :: " x".toList)) 2
      = .ok ("a\"b".toList, 2 + 4 + 2) :=
  ⟨by decide, (C3_quoted_token "k ".toList "a\\\"b".toList " x".toList [] 0 (by decide)).1⟩

/-- C4 (the code at the failing inputs): a lone `"` and the token `"abc\"`, each
ending the text inside an open quoted token, are returned as the tokens `` and
`abc"` instead of failing with the unterminated-string error, because the check
after the loop only looks whether the last character read is a `"`; so
`ParseString` returns a tree for the documents `k "` and `k "abc\"`. -/
theorem C4_open_quote_accepted (n : Nat) :
    ParseStringAt ['"'] 0 = .ok ([], 1) ∧
    ParseStringAt "\"abc\\\"".toList 0 = .ok ("abc\"".toList, 6) ∧
    ParseString (n + 2) "k \"".toList = .ok ⟨some (.Object [("k".toList, .String [])])⟩ ∧
    ParseString (n + 2) "k \"abc\\\"".toList
      = .ok ⟨some (.Object [("k".toList, .String "abc\"".toList)])⟩ ∧
    ParseStringAt "\"abc".toList 0 = .error (.UnterminatedString 4) :=
  ⟨rfl, rfl, rfl, rfl, rfl⟩

/-- C5 (refuted as stated): the unquoted value `C:\new` is not returned as its 6
raw characters but as the 5 characters `C:`, LF, `ew`; and at a cursor on a blank
the token parser does not return the empty token, it skips the blank first. -/
theorem C5_unquoted_raw_counterexample :
    ParseStringAt "C:\\new".toList 0 = .ok (['C', ':', '\n', 'e', 'w'], 6) ∧
    "C:\\new".toList.takeWhile (fun x => !isTerminator x) = ['C', ':', '\\', 'n', 'e', 'w'] ∧
    ['C', ':', '\n', 'e', 'w'] ≠ ['C', ':', '\\', 'n', 'e', 'w'] ∧
    ParseStringAt " a".toList 0 = .ok (['a'], 2) :=
  ⟨rfl, rfl, by decide, rfl⟩

/-- C5 (amended): at a cursor on a character that is not `"`, not one of the six
`isspace` characters and not the first `/` of `//`, the token parser returns the
characters from the cursor up to (not including) the first terminator (blank, tab,
CR, LF, `{`, `}`) that no backslash escapes, or up to the end of the text, decoded
with the escape rules of quoted tokens; the terminator is left unconsumed; a token
without backslash is returned unchanged and is the longest terminator-free stretch. -/
theorem C5_unquoted_token (pre : List Char) (c : Char) (suf : List Char)
    (hq : c ≠ '"') (hsp : isspace c = false) (hcm : ¬ (c = '/' ∧ suf.head? = some '/')) :
    ParseStringAt (pre ++ c :: suf) pre.length
        = .ok (decodeEscapes ((c :: suf).take (unquotedLength (c :: suf))),
            pre.length + unquotedLength (c :: suf)) ∧
    unquotedLength (c :: suf) ≤ (c :: suf).length ∧
    (unquotedLength (c :: suf) < (c :: suf).length →
      isTerminator (charAt (c :: suf) (unquotedLength (c :: suf))) = true) ∧
    ('\\' ∉ (c :: suf).take (unquotedLength (c :: suf)) →
      decodeEscapes ((c :: suf).take (unquotedLength (c :: suf)))
          = (c :: suf).take (unquotedLength (c :: suf)) ∧
      (c :: suf).take (unquotedLength (c :: suf))
          = (c :: suf).takeWhile (fun x => !isTerminator x)) := by
  refine ⟨?_, unquotedLength_le _, unquotedLength_stops _, fun h =>
    ⟨decodeEscapes_plain _ h, take_unquotedLength_plain _ h⟩⟩
  rw [ParseStringAt_unquoted pre c suf hq hsp hcm, tokenScan_unquoted]

/-- C5 (amended) at the value of `k C:\new x`. -/
theorem C5_unquoted_token_witness :
    ParseStringAt ("k ".toList ++ 'C' :: ":\\new x".toList) 2
      = .ok (['C', ':', '\n', 'e', 'w'], 2 + 6) :=
  (C5_unquoted_token "k ".toList 'C' ":\\new x".toList (by decide) (by decide) (by decide)).1

/-- C6 (refuted as stated): with `k` the single vertical tab 0x0B (not blank, tab,
CR or LF, no brace, quote, backslash or `/`), `v1 = a` and `v2 = b`, the document
`k v1 k v2` is read as the one pair `a b`: the root has no entry for `k`. -/
theorem C6_vertical_tab_counterexample :
    (['\x0b'] ≠ [] ∧
      ∀ x ∈ ['\x0b'], x ≠ ' ' ∧ x ≠ '\t' ∧ x ≠ '\r' ∧ x ≠ '\n' ∧ x ≠ '{' ∧ x ≠ '}' ∧
        x ≠ '"' ∧ x ≠ '\\' ∧ x ≠ '/') ∧
    (∀ n, ParseString (n + 2) (['\x0b'] ++ ' ' :: (['a'] ++ ' ' :: (['\x0b'] ++ ' ' :: ['b'])))
      = .ok ⟨some (.Object [(['a'], .String ['b'])])⟩) ∧
    mapFind ['\x0b'] [(['a'], .String ['b'])] = none :=
  ⟨⟨by decide, by decide⟩, fun _ => rfl, rfl⟩

/-- C6 (amended): duplicate keys are last-write-wins at every nesting level. The
root returned by `ParseString` and the node returned by every call of `ParseObject`
are Objects in which, at every depth, each key occurs once, and which map each key
to the value of the last pair with that key among the pairs read by their pair
loop. In particular for all simple tokens `k`, `v1`, `v2` (not empty, free of the
six `isspace` characters, of braces, quotes and backslashes, not beginning with
`//`) the document `k v1 k v2` and the body of `o { k v1 k v2 }` hold exactly one
entry, `k -> String v2`. -/
theorem C6_last_write_wins :
    (∀ fuel Content root, ParseString fuel Content = .ok root →
      ∃ m pairs Pos', root.Node = some (.Object m) ∧ (VDFNode.Object m).UniqueKeys ∧
        PairSeq Content false (SkipWhitespace Content 0) pairs Pos' ∧
        Content.length ≤ Pos' ∧ ∀ k, mapFind k m = lastValue k pairs) ∧
    (∀ fuel Content Pos node Pos', ParseObject fuel Content Pos = .ok (node, Pos') →
      ∃ m pairs q, node = .Object m ∧ node.UniqueKeys ∧
        PairSeq Content true (SkipWhitespace Content (Pos + 1)) pairs q ∧
        Pos' = q + 1 ∧ ∀ k, mapFind k m = lastValue k pairs) ∧
    (∀ n k v1 v2, simpleToken k → simpleToken v1 → simpleToken v2 →
      ParseString (n + 3) (k ++ ' ' :: (v1 ++ ' ' :: (k ++ ' ' :: v2)))
        = .ok ⟨some (.Object [(k, .String v2)])⟩ ∧
      ParseString (n + 6)
          ('o' :: ' ' :: '{' :: ' ' ::
            (k ++ ' ' :: (v1 ++ ' ' :: (k ++ ' ' :: (v2 ++ [' ', '}'])))))
        = .ok ⟨some (.Object [(['o'], .Object [(k, .String v2)])])⟩) := by
  have hfind : ∀ (k : List Char) (pairs : List (List Char × VDFNode)),
      mapFind k (pairs.foldl (fun acc p => mapInsert p.1 p.2 acc) []) = lastValue k pairs := by
    intro k pairs
    rw [mapFind_foldl]
    cases lastValue k pairs <;> rfl
  refine ⟨?_, ?_, fun n k v1 v2 hk hv1 hv2 =>
    ⟨duplicate_top n k v1 v2 hk hv1 hv2, duplicate_nested n k v1 v2 hk hv1 hv2⟩⟩
  · intro fuel Content root h
    simp only [ParseString] at h
    cases hL : ParseStringLoop fuel Content (SkipWhitespace Content 0) (.Object []) with
    | outOfFuel => simp [hL] at h
    | error e => simp [hL] at h
    | ok Root =>
      simp only [hL, VDFValue.ofPtr, Res.ok.injEq] at h
      obtain ⟨m, hm, hs, hc⟩ := ParseStringLoop_sorted _ _ _ _ _ hL
        (by simp [keysSorted]) (by simp [childrenAllObjects])
      obtain ⟨pairs, Pos', hseq, hend, hfold⟩ := ParseStringLoop_pairs _ _ _ _ _ hL
      refine ⟨m, pairs, Pos', by rw [← h, hm], ?_, hseq, hend, ?_⟩
      · exact AllObjects_mono keysSorted_nodup _ (by simpa [VDFNode.AllObjects] using ⟨hs, hc⟩)
      · intro k
        rw [hm] at hfold
        injection hfold with hfold
        rw [hfold, hfind]
  · intro fuel Content Pos node Pos' h
    have hsorted := (parser_sorted fuel).2.1 _ _ _ _ h
    cases fuel with
    | zero => simp [ParseObject] at h
    | succ fuel =>
      simp only [ParseObject] at h
      split_ifs at h
      cases hL : ParseObjectLoop fuel Content (SkipWhitespace Content (Pos + 1)) [] with
      | outOfFuel => simp [hL] at h
      | error e => simp [hL] at h
      | ok r =>
        simp only [hL] at h
        split_ifs at h
        simp only [Res.ok.injEq, Prod.mk.injEq] at h
        obtain ⟨pairs, hseq, hfold⟩ := ParseObjectLoop_pairs _ _ _ _ _ _ hL
        refine ⟨r.1, pairs, r.2, h.1.symm, AllObjects_mono keysSorted_nodup _ hsorted, hseq,
          h.2.symm, ?_⟩
        intro k
        rw [hfold, hfind]

/-- C6 (amended) at `k 1 k 2`: one entry, `k -> 2`. -/
theorem C6_last_write_wins_witness :
    simpleToken "k".toList ∧ simpleToken "1".toList ∧ simpleToken "2".toList ∧
    ParseString 3 "k 1 k 2".toList = .ok ⟨some (.Object [("k".toList, .String "2".toList)])⟩ :=
  ⟨⟨by decide, by decide, by decide⟩, ⟨by decide, by decide, by decide⟩,
    ⟨by decide, by decide, by decide⟩,
    (C6_last_write_wins.2.2 0 "k".toList "1".toList "2".toList
      ⟨by decide, by decide, by decide⟩ ⟨by decide, by decide, by decide⟩
      ⟨by decide, by decide, by decide⟩).1⟩

/-- C7 (refuted as stated): the key made of the single vertical tab 0x0B holds none
of the bytes blank, tab, CR, LF, no brace, quote or backslash and does not begin
with `//`, yet `std::isspace` skips it: the text VT, blank, `v` is read as the key
`v` without a value and `ParseString` fails with "Unexpected end of input". -/
theorem C7_vertical_tab_counterexample :
    (['\x0b'] ≠ [] ∧ ¬ (['/', '/'] <+: ['\x0b']) ∧
      ∀ x ∈ ['\x0b'], x ≠ ' ' ∧ x ≠ '\t' ∧ x ≠ '\r' ∧ x ≠ '\n' ∧ x ≠ '{' ∧ x ≠ '}' ∧
        x ≠ '"' ∧ x ≠ '\\') ∧
    (∀ n, ParseString (n + 2) (['\x0b'] ++ ' ' :: ['v']) = .error .UnexpectedEndOfInput) :=
  ⟨⟨by decide, by decide, by decide⟩, fun _ => rfl⟩

/-- C7 (amended): for all non-empty `k` and `v` that hold no `isspace` character
(blank, tab, LF, VT, FF, CR), no `{`, `}`, `"` or `\` and do not begin with `//`,
`ParseString` on `k`, blank, `v` returns (with any fuel of at least 2) the root
Object with the single entry `k -> String v`. -/
theorem C7_key_value (k v : List Char) (n : Nat) (hk : simpleToken k) (hv : simpleToken v) :
    ParseString (n + 2) (k ++ ' ' :: v) = .ok ⟨some (.Object [(k, .String v)])⟩ := by
  have hends : endsToken (' ' :: v) := Or.inr ⟨' ', v, rfl, by decide⟩
  have h0 : SkipWhitespace (k ++ ' ' :: v) 0 = 0 := simpleToken_skip [] k _ hk hends
  have hK : ParseStringAt (k ++ ' ' :: v) 0 = .ok (k, k.length) := by
    simpa using simpleToken_parse [] k _ hk hends
  have e : k ++ ' ' :: v = (k ++ [' ']) ++ (v ++ []) := by simp
  have hl : (k ++ [' ']).length = k.length + 1 := by simp
  have h1 : SkipWhitespace (k ++ ' ' :: v) k.length = k.length + 1 := by
    rw [skip_blank, e, ← hl]
    exact simpleToken_skip _ v [] hv (Or.inl rfl)
  have hV : ParseValue (n + 1) (k ++ ' ' :: v) (k.length + 1)
      = .ok (.String v, k.length + 1 + v.length) := by
    rw [e, ← hl]
    exact simpleToken_value n _ v [] hv (Or.inl rfl)
  have hlen : (k ++ ' ' :: v).length = k.length + 1 + v.length := by simp; omega
  have h2 : SkipWhitespace (k ++ ' ' :: v) (k.length + 1 + v.length) = k.length + 1 + v.length :=
    SkipWhitespace_end _ _ (by rw [hlen])
  have hpos : 0 < (k ++ ' ' :: v).length := by simp
  simp only [ParseString, h0, ParseStringLoop, hpos, if_true, hK, h1, hV, VDFNode.SetValue,
    mapInsert, h2, hlen, Nat.lt_irrefl, if_false, VDFValue.ofPtr]
  rw [if_pos (by omega)]

/-- C7 (amended) at `key value`: the single pair `("key", "value")`. -/
theorem C7_key_value_witness :
    simpleToken "key".toList ∧ simpleToken "value".toList ∧
    ParseString 2 "key value".toList
      = .ok ⟨some (.Object [("key".toList, .String "value".toList)])⟩ :=
  ⟨⟨by decide, by decide, by decide⟩, ⟨by decide, by decide, by decide⟩,
    C7_key_value "key".toList "value".toList 0 ⟨by decide, by decide, by decide⟩
      ⟨by decide, by decide, by decide⟩⟩

/-- C8 (refuted as stated): `key{value}` does not fail; the key `value` of the
nested object, followed directly by `}`, gets the empty String as its value. -/
theorem C8_key_brace_value_counterexample :
    (∀ n, ParseString (n + 5) "key\x7bvalue\x7d".toList
      = .ok ⟨some (.Object [("key".toList,
          .Object [("value".toList, .String [])])])⟩) ∧
    ParseString 5 "key\x7bvalue\x7d".toList ≠ .error .UnexpectedEndOfInput :=
  ⟨fun _ => rfl, by
    have h : ParseString 5 "key\x7bvalue\x7d".toList
      = .ok ⟨some (.Object [("key".toList, .Object [("value".toList, .String [])])])⟩ := rfl
    rw [h]
    exact fun e => Res.noConfusion e⟩

/-- C8 (amended): `ParseString` on `key{value}` reads `key` as the key (ended by
`{`) and returns the root `key -> Object (value -> String "")`. More generally,
where a value is expected and the next character after blanks and comments is `}`,
`ParseValue` returns the empty String and leaves the cursor on the brace, so a key
of a nested object that is followed directly by `}` produces the entry
`Key -> String ""` and the pair loop stops on that brace. -/
theorem C8_key_before_closing_brace (n : Nat) (Content : List Char) (Pos p1 : Nat)
    (Key : List Char) (Obj : VDFMap)
    (hPos : Pos < Content.length) (hne : charAt Content Pos ≠ '}')
    (hKey : ParseStringAt Content Pos = .ok (Key, p1))
    (hq : SkipWhitespace Content p1 < Content.length)
    (hc : charAt Content (SkipWhitespace Content p1) = '}') :
    ParseString (n + 5) "key\x7bvalue\x7d".toList
      = .ok ⟨some (.Object [("key".toList, .Object [("value".toList, .String [])])])⟩ ∧
    ParseValue (n + 1) Content p1 = .ok (.String [], SkipWhitespace Content p1) ∧
    ParseObjectLoop (n + 2) Content Pos Obj
      = .ok (mapInsert Key (.String []) Obj, SkipWhitespace Content p1) := by
  have hs := SkipWhitespace_closeBrace Content _ hq hc
  have hV := ParseValue_closeBrace n Content (SkipWhitespace Content p1) (by rw [hs]; exact hq)
    (by rw [hs]; exact hc)
  rw [hs] at hV
  refine ⟨rfl, ParseValue_closeBrace n Content p1 hq hc, ?_⟩
  rw [ParseObjectLoop]
  simp only [hPos, hne, ne_eq, not_false_eq_true, and_self, if_true, hKey, hV, hs]
  rw [ParseObjectLoop]
  simp [hc]

/-- C8 (amended) at the nested object of `o{value }`. -/
theorem C8_key_before_closing_brace_witness :
    ParseObjectLoop 2 "o\x7bvalue \x7d".toList 2 []
      = .ok ([("value".toList, .String [])], 8) :=
  (C8_key_before_closing_brace 0 "o\x7bvalue \x7d".toList 2 7 "value".toList []
    (by decide) (by decide) rfl (by decide) (by decide)).2.2

/-- C9: for every text without `"`, `\` and `/` in which no prefix holds more `}`
than `{` and the whole text holds more `{` than `}`, `ParseString` with fuel of at
least three times the length plus 3 does not return a tree: it fails, with
"Unexpected end of input" or with "Expected '}'". -/
theorem C9_unmatched_open_brace (Content : List Char) (fuel : Nat)
    (hfree : ∀ x ∈ Content, x ≠ '"' ∧ x ≠ '\\' ∧ x ≠ '/')
    (hpre : ∀ i, i ≤ Content.length →
      (Content.take i).count '}' ≤ (Content.take i).count '{')
    (htot : Content.count '}' < Content.count '{')
    (hfuel : 3 * Content.length + 3 ≤ fuel) :
    ∃ e, ParseString fuel Content = .error e ∧
      (e = .UnexpectedEndOfInput ∨ ∃ p, e = .ExpectedCloseBrace p) := by
  have hs : ∀ x ∈ Content, x ≠ '/' := fun x hx => (hfree x hx).2.2
  obtain ⟨s1, s2, s3, s4, s5⟩ := skip_spec Content hs 0 (Nat.zero_le _)
  have h0 : opens Content (SkipWhitespace Content 0) = closes Content (SkipWhitespace Content 0) := by
    rw [s3, s4]; rfl
  obtain ⟨l1, l2, l3⟩ := top_balance Content hfree hpre fuel (SkipWhitespace Content 0) [] s2 s5 h0
  simp only [ParseString]
  cases hL : ParseStringLoop fuel Content (SkipWhitespace Content 0) (.Object []) with
  | outOfFuel =>
    have := l3 hL
    omega
  | error e => exact ⟨e, rfl, l2 e hL⟩
  | ok R =>
    have := l1 R hL
    simp only [opens, closes, List.take_length] at this
    omega

/-- C9 at the text `a {b`. -/
theorem C9_unmatched_open_brace_witness :
    ParseString 15 "a \x7bb".toList = .error .UnexpectedEndOfInput ∧
    ∃ e, ParseString 15 "a \x7bb".toList = .error e ∧
      (e = .UnexpectedEndOfInput ∨ ∃ p, e = .ExpectedCloseBrace p) :=
  ⟨rfl, C9_unmatched_open_brace "a \x7bb".toList 15 (by decide) (by decide) (by decide)
    (by decide)⟩

/-- C10: for every `c` without LF and every document `d`, with every amount of
fuel, `ParseString` on `//`, `c`, LF, `d` has the outcome of `ParseString` on `d`:
the same tree when `d` parses, the same error (its reported position moved by the
length of the comment line) when `d` fails, no outcome when `d` has none. -/
theorem C10_comment_line (fuel : Nat) (c d : List Char) (hc : '\n' ∉ c) :
    ParseString fuel ('/' :: '/' :: (c ++ '\n' :: d))
        = (ParseString fuel d).shiftError (c.length + 3) ∧
    (∀ t, ParseString fuel ('/' :: '/' :: (c ++ '\n' :: d)) = .ok t
        ↔ ParseString fuel d = .ok t) ∧
    (∀ e, ParseString fuel d = .error e →
        ParseString fuel ('/' :: '/' :: (c ++ '\n' :: d)) = .error (e.shift (c.length + 3))) := by
  have hS := SkipWhitespace_comment_line c d hc
  have e3 : '/' :: '/' :: (c ++ '\n' :: d) = ('/' :: '/' :: (c ++ ['\n'])) ++ d := by simp
  have hl3 : c.length + 3 = ('/' :: '/' :: (c ++ ['\n'])).length := by simp
  have hL := ParseStringLoop_shift ('/' :: '/' :: (c ++ ['\n'])) d fuel (SkipWhitespace d 0)
    (.Object [])
  rw [← e3, ← hl3] at hL
  have main : ParseString fuel ('/' :: '/' :: (c ++ '\n' :: d))
      = (ParseString fuel d).shiftError (c.length + 3) := by
    simp only [ParseString, hS, hL]
    cases ParseStringLoop fuel d (SkipWhitespace d 0) (.Object []) <;> rfl
  refine ⟨main, ?_, ?_⟩
  · intro t
    rw [main]
    cases ParseString fuel d <;> simp [Res.shiftError]
  · intro e he
    rw [main, he]
    rfl

/-- C10 at `// note`, LF, `key "value"`: it parses as `key "value"` does, to the
single pair `key -> value`. -/
theorem C10_comment_line_witness :
    '\n' ∉ " note".toList ∧
    ParseString 2 "// note\nkey \"value\"".toList
      = (ParseString 2 "key \"value\"".toList).shiftError 8 ∧
    ParseString 2 "key \"value\"".toList
      = .ok ⟨some (.Object [("key".toList, .String "value".toList)])⟩ :=
  ⟨by decide, (C10_comment_line 2 " note".toList "key \"value\"".toList (by decide)).1, rfl⟩


/-! ## The view and the node accessors -/

theorem resolve_empty_object (ks : List (List Char)) :
    pathText ((VDFNode.Object []).resolve ks) = [] := by
  cases ks with
  | nil => rfl
  | cons k ks => rfl

theorem chain_text (t : VDFNode) (ks : List (List Char)) :
    ((VDFValue.mk (some t)).chain ks).operatorStringChecked = .ok (pathText (t.resolve ks)) := by
  induction ks generalizing t with
  | nil => cases t <;> rfl
  | cons k ks ih =>
    have hstep : (VDFValue.mk (some t)).chain (k :: ks)
        = ((VDFValue.mk (some t)).operatorIndex k).chain ks := rfl
    rw [hstep]
    cases t with
    | String s =>
      have : (VDFValue.mk (some (.String s))).operatorIndex k = ⟨some (.Object [])⟩ := rfl
      rw [this, ih, resolve_empty_object]
      rfl
    | Object m =>
      cases hf : mapFind k m with
      | none =>
        have : (VDFValue.mk (some (.Object m))).operatorIndex k = ⟨some (.Object [])⟩ := by
          simp [VDFValue.operatorIndex, VDFNode.IsObject, VDFNode.operatorIndex, hf,
            VDFValue.ofPtr]
        rw [this, ih, resolve_empty_object]
        simp [VDFNode.resolve, VDFNode.operatorIndex, hf, pathText]
      | some c =>
        have : (VDFValue.mk (some (.Object m))).operatorIndex k = ⟨some c⟩ := by
          simp [VDFValue.operatorIndex, VDFNode.IsObject, VDFNode.operatorIndex, hf,
            VDFValue.ofPtr]
        rw [this, ih]
        simp [VDFNode.resolve, VDFNode.operatorIndex, hf]

theorem mapFind_eq_none_iff (k : List Char) (m : VDFMap) :
    mapFind k m = none ↔ k ∉ m.map Prod.fst := by
  induction m with
  | nil => simp [mapFind]
  | cons p rest ih =>
    obtain ⟨a, w⟩ := p
    rw [mapFind_cons]
    by_cases h : k = a
    · simp [h]
    · simp [h, ih]

theorem operatorIndex_missing (v : VDFValue) (k : List Char)
    (h : v.Node = none ∨ (∃ s, v.Node = some (.String s)) ∨
      (∃ m, v.Node = some (.Object m) ∧ mapFind k m = none)) :
    v.operatorIndex k = ⟨some (.Object [])⟩ := by
  obtain ⟨n⟩ := v
  rcases h with h | ⟨s, h⟩ | ⟨m, h, hf⟩
  · simp only at h
    subst h
    rfl
  · simp only at h
    subst h
    rfl
  · simp only at h
    subst h
    simp [VDFValue.operatorIndex, VDFNode.IsObject, VDFNode.operatorIndex, hf,
      VDFValue.ofPtr]

theorem operatorIndex_found (v : VDFValue) (k : List Char) (m : VDFMap) (c : VDFNode)
    (h : v.Node = some (.Object m)) (hf : mapFind k m = some c) :
    v.operatorIndex k = ⟨some c⟩ := by
  obtain ⟨n⟩ := v
  simp only at h
  subst h
  simp [VDFValue.operatorIndex, VDFNode.IsObject, VDFNode.operatorIndex, hf, VDFValue.ofPtr]

theorem mapFind_eq_specEntry (k : List Char) (m : VDFMap) :
    mapFind k m = specEntry k m := by
  induction m with
  | nil => rfl
  | cons p rest ih =>
    obtain ⟨a, w⟩ := p
    rw [mapFind_cons, ih]
    simp only [specEntry]
    by_cases h : k = a
    · rw [if_pos h, if_pos h.symm]
    · rw [if_neg h, if_neg (fun e => h e.symm)]

theorem resolve_eq_specResolve (t : VDFNode) (ks : List (List Char)) :
    t.resolve ks = specResolve t ks := by
  induction ks generalizing t with
  | nil => cases t <;> rfl
  | cons k ks ih =>
    cases t with
    | String s => rfl
    | Object m =>
      simp only [VDFNode.resolve, VDFNode.operatorIndex, specResolve, mapFind_eq_specEntry]
      cases specEntry k m with
      | none => rfl
      | some c => exact ih c

theorem specEntry_of_mem (m : VDFMap) (hm : keysSorted m) (k : List Char) (c : VDFNode)
    (h : (k, c) ∈ m) : specEntry k m = some c := by
  have hn := keysSorted_nodup m hm
  clear hm
  induction m with
  | nil => simp at h
  | cons p rest ih =>
    obtain ⟨a, w⟩ := p
    rw [List.map_cons, List.nodup_cons] at hn
    simp only [specEntry]
    rcases List.mem_cons.1 h with e | hr
    · injection e with e1 e2
      rw [if_pos e1.symm, e2]
    · have hk : k ∈ rest.map Prod.fst := List.mem_map.2 ⟨(k, c), hr, rfl⟩
      have hne : ¬ a = k := fun e => hn.1 (e ▸ hk)
      rw [if_neg hne]
      exact ih hr hn.2

theorem mem_of_specEntry (m : VDFMap) (k : List Char) (c : VDFNode)
    (h : specEntry k m = some c) : (k, c) ∈ m := by
  induction m with
  | nil => simp [specEntry] at h
  | cons p rest ih =>
    obtain ⟨a, w⟩ := p
    simp only [specEntry] at h
    by_cases e : a = k
    · rw [if_pos e] at h
      injection h with h
      rw [e, h]
      exact List.mem_cons_self _ _
    · rw [if_neg e] at h
      exact List.mem_cons_of_mem _ (ih h)

theorem resolvesTo_iff (t : VDFNode) (ks : List (List Char)) (n : VDFNode)
    (ht : t.AllObjects keysSorted) : ResolvesTo t ks n ↔ specResolve t ks = some n := by
  induction ks generalizing t with
  | nil =>
    constructor
    · intro h
      cases h
      cases n <;> rfl
    · intro h
      have h2 : some t = some n := by
        cases t <;> exact h
      injection h2 with h2
      rw [h2]
      exact ResolvesTo.here n
  | cons k ks ih =>
    cases t with
    | String s =>
      constructor
      · intro h
        cases h
      · intro h
        simp [specResolve] at h
    | Object m =>
      simp only [VDFNode.AllObjects] at ht
      have hch := (childrenAllObjects_iff keysSorted m).1 ht.2
      constructor
      · intro h
        cases h with
        | step _ _ c _ _ hmem hr =>
          simp only [specResolve, specEntry_of_mem m ht.1 k c hmem]
          exact (ih c (hch (k, c) hmem)).1 hr
      · intro h
        simp only [specResolve] at h
        cases hf : specEntry k m with
        | none => rw [hf] at h; simp at h
        | some c =>
          rw [hf] at h
          have hmem := mem_of_specEntry m k c hf
          exact ResolvesTo.step m k c ks n hmem ((ih c (hch (k, c) hmem)).2 h)

/-- C11: a chained lookup through the view, converted to text, never throws: for
every view (a null one included) and every sequence of keys the conversion
returns a text, which is the payload when the key path resolves to a String node
of the tree and the empty string in every other case. The resolution is the one
of the specification, `specResolve`, stated on the entries without the lookup of
the code, and, for trees whose maps are in key order as every `std::map` is, the
relation `ResolvesTo` of following the path through entries. On the empty root
`["a"]["b"]["c"]` converts to the empty string; on the tree read from
`a {b "v"} c w` the paths `a, b` and `c` convert to `v` and `w`, and the paths
`a` (an Object at the end), `a, b, c` (indexing into a String), `a, x` and `x`
(missing keys) convert to the empty string. -/
theorem C11_chained_lookup_never_fails (t : VDFNode) (ks : List (List Char)) :
    ((VDFValue.mk (some t)).chain ks).operatorStringChecked
      = .ok (pathText (specResolve t ks)) ∧
    ((VDFValue.mk (some t)).chain ks).operatorString = pathText (specResolve t ks) ∧
    ((VDFValue.mk none).chain ks).operatorStringChecked = .ok [] ∧
    (∀ s, specResolve t ks = some (.String s) →
      ((VDFValue.mk (some t)).chain ks).operatorStringChecked = .ok s) ∧
    (specResolve t ks = none →
      ((VDFValue.mk (some t)).chain ks).operatorStringChecked = .ok []) ∧
    (∀ m, specResolve t ks = some (.Object m) →
      ((VDFValue.mk (some t)).chain ks).operatorStringChecked = .ok []) ∧
    (t.AllObjects keysSorted →
      (∀ s, ResolvesTo t ks (.String s) →
        ((VDFValue.mk (some t)).chain ks).operatorStringChecked = .ok s) ∧
      ((∀ s, ¬ ResolvesTo t ks (.String s)) →
        ((VDFValue.mk (some t)).chain ks).operatorStringChecked = .ok [])) ∧
    ParseString 1 [] = .ok (VDFValue.ofPtr (some (.Object []))) ∧
    ((VDFValue.ofPtr (some (.Object []))).chain
        ["a".toList, "b".toList, "c".toList]).operatorStringChecked = .ok [] ∧
    ParseString 6 "a \x7bb \"v\"\x7d c w".toList
      = .ok ⟨some (.Object [("a".toList, .Object [("b".toList, .String "v".toList)]),
          ("c".toList, .String "w".toList)])⟩ ∧
    ((VDFValue.mk (some (.Object [("a".toList, .Object [("b".toList, .String "v".toList)]),
        ("c".toList, .String "w".toList)]))).chain
      ["a".toList, "b".toList]).operatorStringChecked = .ok "v".toList ∧
    ((VDFValue.mk (some (.Object [("a".toList, .Object [("b".toList, .String "v".toList)]),
        ("c".toList, .String "w".toList)]))).chain
      ["c".toList]).operatorStringChecked = .ok "w".toList ∧
    ((VDFValue.mk (some (.Object [("a".toList, .Object [("b".toList, .String "v".toList)]),
        ("c".toList, .String "w".toList)]))).chain
      ["a".toList]).operatorStringChecked = .ok [] ∧
    ((VDFValue.mk (some (.Object [("a".toList, .Object [("b".toList, .String "v".toList)]),
        ("c".toList, .String "w".toList)]))).chain
      ["a".toList, "b".toList, "c".toList]).operatorStringChecked = .ok [] ∧
    ((VDFValue.mk (some (.Object [("a".toList, .Object [("b".toList, .String "v".toList)]),
        ("c".toList, .String "w".toList)]))).chain
      ["a".toList, "x".toList]).operatorStringChecked = .ok [] ∧
    ((VDFValue.mk (some (.Object [("a".toList, .Object [("b".toList, .String "v".toList)]),
        ("c".toList, .String "w".toList)]))).chain
      ["x".toList]).operatorStringChecked = .ok [] := by
  have h : ((VDFValue.mk (some t)).chain ks).operatorStringChecked
      = .ok (pathText (specResolve t ks)) := by
    rw [chain_text, resolve_eq_specResolve]
  have hs : ∀ v : VDFValue, v.operatorStringChecked = .ok v.operatorString := by
    intro v
    obtain ⟨n⟩ := v
    cases n with
    | none => rfl
    | some n => cases n <;> rfl
  refine ⟨h, ?_, ?_, ?_, ?_, ?_, ?_, rfl, rfl, rfl, rfl, rfl, rfl, rfl, rfl, rfl⟩
  · have := hs ((VDFValue.mk (some t)).chain ks)
    rw [h] at this
    injection this with this
    exact this.symm
  · cases ks with
    | nil => rfl
    | cons k ks =>
      have hstep : (VDFValue.mk none).chain (k :: ks)
          = (VDFValue.mk (some (.Object []))).chain ks := rfl
      rw [hstep, chain_text, resolve_empty_object]
  · intro s hr
    rw [h, hr]
    rfl
  · intro hr
    rw [h, hr]
    rfl
  · intro m hr
    rw [h, hr]
    rfl
  · intro ht
    constructor
    · intro s hr
      rw [h, (resolvesTo_iff t ks _ ht).1 hr]
      rfl
    · intro hno
      rw [h]
      cases hr : specResolve t ks with
      | none => rfl
      | some n =>
        cases n with
        | String s => exact absurd ((resolvesTo_iff t ks _ ht).2 hr) (hno s)
        | Object m => rfl

/-- C12 (refuted as stated): on the empty root the view returned for the missing
key `a` is not null: `IsNull()` is false and `IsObject()` is true. -/
theorem C12_missing_key_not_null_counterexample :
    ((VDFValue.ofPtr (some (.Object []))).operatorIndex "a".toList).IsNull = false ∧
    ((VDFValue.ofPtr (some (.Object []))).operatorIndex "a".toList).IsObject = true ∧
    ((VDFValue.ofPtr (some (.String "x".toList))).operatorIndex "a".toList).IsNull = false ∧
    ((VDFValue.ofPtr (some (.String "x".toList))).operatorIndex "a".toList).IsObject = true :=
  ⟨rfl, rfl, rfl, rfl⟩

/-- C12 (amended): when the node of `v` is null, is a String, or is an Object
without entry for `k`, then `v[k]` is a view over a fresh empty Object: `IsNull()`
and `IsString()` are false, `IsObject()` is true, it converts to `false` and to the
empty string. Otherwise `v[k]` is a view, not null, over the child stored under
`k`. -/
theorem C12_view_lookup (v : VDFValue) (k : List Char) :
    ((v.Node = none ∨ (∃ s, v.Node = some (.String s)) ∨
        (∃ m, v.Node = some (.Object m) ∧ mapFind k m = none)) →
      v.operatorIndex k = ⟨some (.Object [])⟩ ∧
      (v.operatorIndex k).IsNull = false ∧ (v.operatorIndex k).IsString = false ∧
      (v.operatorIndex k).IsObject = true ∧ (v.operatorIndex k).operatorBool = false ∧
      (v.operatorIndex k).operatorString = []) ∧
    (∀ m c, v.Node = some (.Object m) → mapFind k m = some c →
      v.operatorIndex k = ⟨some c⟩ ∧ (v.operatorIndex k).IsNull = false) := by
  constructor
  · intro h
    rw [operatorIndex_missing v k h]
    exact ⟨rfl, rfl, rfl, rfl, rfl, rfl⟩
  · intro m c h hf
    rw [operatorIndex_found v k m c h hf]
    exact ⟨rfl, rfl⟩

/-- C12 (amended) on the root `k -> "v"`: the child under `k`, an empty Object under `a`. -/
theorem C12_view_lookup_witness :
    (VDFValue.mk (some (.Object [("k".toList, .String "v".toList)]))).operatorIndex "k".toList
      = ⟨some (.String "v".toList)⟩ ∧
    (VDFValue.mk (some (.Object [("k".toList, .String "v".toList)]))).operatorIndex "a".toList
      = ⟨some (.Object [])⟩ :=
  ⟨((C12_view_lookup ⟨some (.Object [("k".toList, .String "v".toList)])⟩ "k".toList).2
      _ _ rfl rfl).1,
    ((C12_view_lookup ⟨some (.Object [("k".toList, .String "v".toList)])⟩ "a".toList).1
      (Or.inr (Or.inr ⟨_, rfl, rfl⟩))).1⟩

/-- C13: the typed accessors fail exactly on the wrong variant. `AsString` returns
the payload of a String and throws on an Object, `GetObject` returns the mapping
of an Object and throws on a String, `SetValue` succeeds on an Object and throws on
a String, and a `SetValue` that throws leaves the node as it was. -/
theorem C13_typed_accessors (n : VDFNode) (Key : List Char) (Value : VDFNode) :
    (∀ s, n.AsString = .ok s ↔ n = .String s) ∧
    ((∃ e, n.AsString = .error e) ↔ n.IsObject = true) ∧
    (∀ m, n.GetObject = .ok m ↔ n = .Object m) ∧
    ((∃ e, n.GetObject = .error e) ↔ n.IsString = true) ∧
    ((∃ n', n.SetValue Key Value = .ok n') ↔ n.IsObject = true) ∧
    ((∃ e, n.SetValue Key Value = .error e) ↔ n.IsString = true) ∧
    (n.IsObject = true ↔ n.IsString = false) ∧
    (∀ n', n.SetValue Key Value = .ok n' ↔ n.SetValueState Key Value = (n', .ok ())) ∧
    (∀ e, n.SetValue Key Value = .error e ↔ n.SetValueState Key Value = (n, .error e)) ∧
    (∀ e, (n.SetValueState Key Value).2 = .error e → (n.SetValueState Key Value).1 = n) := by
  cases n with
  | String s =>
    simp [VDFNode.AsString, VDFNode.GetObject, VDFNode.SetValue, VDFNode.SetValueState,
      VDFNode.IsObject, VDFNode.IsString]
  | Object m =>
    simp [VDFNode.AsString, VDFNode.GetObject, VDFNode.SetValue, VDFNode.SetValueState,
      VDFNode.IsObject, VDFNode.IsString, VDFNode.ObjectValue]

/-- C14: after `o.SetValue(k, n)` on an Object the lookup `o[k]` returns `n`, the
lookup of every other key returns what it returned before, and strictly ascending
(hence unique) keys stay so; the node lookup returns null exactly when the node is
a String or the key is missing. -/
theorem C14_lookup_after_set (m : VDFMap) (k k' : List Char) (n : VDFNode) (node : VDFNode) :
    (VDFNode.Object m).SetValue k n = .ok (.Object (mapInsert k n m)) ∧
    (VDFNode.Object (mapInsert k n m)).operatorIndex k = some n ∧
    (k' ≠ k → (VDFNode.Object (mapInsert k n m)).operatorIndex k'
      = (VDFNode.Object m).operatorIndex k') ∧
    (keysSorted m → keysSorted (mapInsert k n m) ∧ ((mapInsert k n m).map Prod.fst).Nodup) ∧
    (node.operatorIndex k = none ↔
      node.IsString = true ∨ ∃ m', node = .Object m' ∧ k ∉ m'.map Prod.fst) := by
  refine ⟨rfl, ?_, ?_, ?_, ?_⟩
  · simp [VDFNode.operatorIndex, mapFind_mapInsert]
  · intro h
    simp [VDFNode.operatorIndex, mapFind_mapInsert, h]
  · intro h
    exact ⟨keysSorted_mapInsert k n m h, keysSorted_nodup _ (keysSorted_mapInsert k n m h)⟩
  · cases node with
    | String s => simp [VDFNode.operatorIndex, VDFNode.IsString]
    | Object m' => simp [VDFNode.operatorIndex, VDFNode.IsString, mapFind_eq_none_iff]

/-- C14 on the Object `b -> "1"`: setting `a` keeps `b` and the ascending order. -/
theorem C14_lookup_after_set_witness :
    (VDFNode.Object (mapInsert "a".toList (.String "2".toList)
        [("b".toList, .String "1".toList)])).operatorIndex "b".toList
      = (VDFNode.Object [("b".toList, .String "1".toList)]).operatorIndex "b".toList ∧
    keysSorted (mapInsert "a".toList (.String "2".toList) [("b".toList, .String "1".toList)]) :=
  ⟨(C14_lookup_after_set [("b".toList, .String "1".toList)] "a".toList "b".toList
      (.String "2".toList) (.String [])).2.2.1 (by decide),
    ((C14_lookup_after_set [("b".toList, .String "1".toList)] "a".toList "b".toList
      (.String "2".toList) (.String [])).2.2.2.1 (by simp [keysSorted])).1⟩

/-- C15: a node converts to `false` exactly when it is the empty String or the
Object without entries; a view converts as its node does and a null view converts
to `false`; the view returned for a missing key converts to `false`; `{}` and `""`
are falsy, `{"k":"v"}` and `"x"` are truthy. -/
theorem C15_truthiness (n : VDFNode) (v : VDFValue) (k : List Char) :
    (n.operatorBool = false ↔ n = .String [] ∨ n = .Object []) ∧
    (VDFValue.mk (some n)).operatorBool = n.operatorBool ∧
    (VDFValue.ofPtr (some n)).operatorBool = n.operatorBool ∧
    (VDFValue.mk none).operatorBool = false ∧
    ((v.Node = none ∨ (∃ s, v.Node = some (.String s)) ∨
        (∃ m, v.Node = some (.Object m) ∧ mapFind k m = none)) →
      (v.operatorIndex k).operatorBool = false) ∧
    (VDFNode.Object []).operatorBool = false ∧
    (VDFNode.String []).operatorBool = false ∧
    (VDFNode.Object [("k".toList, .String "v".toList)]).operatorBool = true ∧
    (VDFNode.String "x".toList).operatorBool = true := by
  refine ⟨?_, rfl, rfl, rfl, fun h => by rw [operatorIndex_missing v k h]; rfl, rfl, rfl, rfl, rfl⟩
  cases n with
  | String s =>
    cases s <;> simp [VDFNode.operatorBool, VDFNode.IsString, VDFNode.IsObject,
      VDFNode.StringValue, VDFNode.ObjectValue]
  | Object m =>
    cases m <;> simp [VDFNode.operatorBool, VDFNode.IsString, VDFNode.IsObject,
      VDFNode.StringValue, VDFNode.ObjectValue]


/-! ## The order of serialization -/

theorem keyLt_asymm (a b : List Char) (h1 : keyLt a b = true) (h2 : keyLt b a = true) : False := by
  have := keyLt_trans a b a h1 h2
  rw [keyLt_irrefl] at this
  exact Bool.false_ne_true this

theorem mapInsert_perm (k : List Char) (v : VDFNode) (m : VDFMap) (hk : k ∉ m.map Prod.fst) :
    (mapInsert k v m).Perm ((k, v) :: m) := by
  induction m with
  | nil => exact List.Perm.refl _
  | cons p rest ih =>
    obtain ⟨a, w⟩ := p
    have hka : k ≠ a := fun e => hk (by rw [e]; simp)
    have hrest : k ∉ rest.map Prod.fst := fun h => hk (by simp only [List.map_cons]; exact List.mem_cons_of_mem _ h)
    simp only [mapInsert]
    split_ifs with h1 h2
    · exact List.Perm.refl _
    · exact ((ih hrest).cons (a, w)).trans (List.Perm.swap _ _ _)
    · exact absurd (keyLt_total _ _ (by simpa using h1) (by simpa using h2)) hka

theorem foldl_mapInsert_perm (ps : List (List Char × VDFNode)) :
    ∀ acc : VDFMap, ((ps ++ acc).map Prod.fst).Nodup →
      (ps.foldl (fun a p => mapInsert p.1 p.2 a) acc).Perm (ps ++ acc) := by
  induction ps with
  | nil => intro acc _; exact List.Perm.refl _
  | cons p ps ih =>
    intro acc hnd
    simp only [List.cons_append, List.map_cons, List.nodup_cons, List.map_append,
      List.mem_append, not_or] at hnd
    have hins := mapInsert_perm p.1 p.2 acc hnd.1.2
    have hperm : (ps ++ mapInsert p.1 p.2 acc).Perm (ps ++ p :: acc) :=
      List.Perm.append_left ps hins
    have hnd' : ((ps ++ mapInsert p.1 p.2 acc).map Prod.fst).Nodup := by
      refine (List.Perm.nodup_iff (hperm.map Prod.fst)).mpr ?_
      simp only [List.map_append, List.map_cons]
      refine (List.Perm.nodup_iff List.perm_middle).mpr ?_
      rw [List.nodup_cons]
      exact ⟨by simp only [List.mem_append, not_or]; exact hnd.1, by
        simpa only [List.map_append] using hnd.2⟩
    rw [List.foldl_cons]
    exact ((ih _ hnd').trans hperm).trans List.perm_middle

theorem keysSorted_foldl (ps : List (List Char × VDFNode)) :
    ∀ acc : VDFMap, keysSorted acc →
      keysSorted (ps.foldl (fun a p => mapInsert p.1 p.2 a) acc) := by
  induction ps with
  | nil => intro acc h; exact h
  | cons p ps ih =>
    intro acc h
    rw [List.foldl_cons]
    exact ih _ (keysSorted_mapInsert _ _ _ h)

theorem keysSorted_eq_of_perm (m1 m2 : VDFMap) (hp : m1.Perm m2) (h1 : keysSorted m1)
    (h2 : keysSorted m2) : m1 = m2 := by
  haveI : IsAntisymm (List Char × VDFNode) (fun p q => keyLt p.1 q.1 = true) :=
    ⟨fun a b hab hba => (keyLt_asymm _ _ hab hba).elim⟩
  exact List.eq_of_perm_of_sorted hp h1 h2

theorem foldl_mapInsert_order (ps ps' : List (List Char × VDFNode)) (hp : ps.Perm ps')
    (hnd : (ps.map Prod.fst).Nodup) :
    ps.foldl (fun a p => mapInsert p.1 p.2 a) [] = ps'.foldl (fun a p => mapInsert p.1 p.2 a) [] := by
  have hnd' : (ps'.map Prod.fst).Nodup := (List.Perm.nodup_iff (hp.map Prod.fst)).mp hnd
  have h1 := foldl_mapInsert_perm ps [] (by simpa using hnd)
  have h2 := foldl_mapInsert_perm ps' [] (by simpa using hnd')
  simp only [List.append_nil] at h1 h2
  exact keysSorted_eq_of_perm _ _ ((h1.trans hp).trans h2.symm)
    (keysSorted_foldl ps [] (by simp [keysSorted])) (keysSorted_foldl ps' [] (by simp [keysSorted]))


/-! ## Reading back what `ToString` wrote -/

theorem indentStr_length (n : Nat) : (indentStr n).length = n := by
  simp [indentStr]

theorem indentStr_isspace (n : Nat) : ∀ x ∈ indentStr n, isspace x = true := by
  intro x hx
  have : x = ' ' := by simpa [indentStr] using (List.eq_of_mem_replicate hx)
  rw [this]
  decide

theorem at_char (Content pre : List Char) (c : Char) (tl : List Char)
    (hC : Content = pre ++ c :: tl) :
    charAt Content pre.length = c ∧ pre.length < Content.length := by
  subst hC
  exact ⟨charAt_append_length pre c tl, by simp⟩

/-- The function `SkipWhitespace` passes a run of `isspace` characters that is followed by a
character which is neither an `isspace` character nor a `/`. -/
theorem skip_ws_run (ws : List Char) (hws : ∀ x ∈ ws, isspace x = true) :
    ∀ (Content pre : List Char) (c : Char) (tl : List Char),
      Content = pre ++ (ws ++ c :: tl) → isspace c = false → c ≠ '/' →
      SkipWhitespace Content pre.length = pre.length + ws.length := by
  induction ws with
  | nil =>
    intro Content pre c tl hC hc1 hc2
    obtain ⟨h1, h2⟩ := at_char Content pre c tl (by simpa using hC)
    exact SkipWhitespace_stay _ _ h2 (by rw [h1]; exact hc1) (by rw [h1]; exact fun h => hc2 h.1)
  | cons w ws ih =>
    intro Content pre c tl hC hc1 hc2
    obtain ⟨h1, h2⟩ := at_char Content pre w (ws ++ c :: tl) (by simpa using hC)
    have hw := hws w (List.mem_cons_self _ _)
    have := ih (fun x hx => hws x (List.mem_cons_of_mem _ hx)) Content (pre ++ [w]) c tl
      (by rw [hC]; simp) hc1 hc2
    simp only [List.length_append, List.length_singleton] at this
    rw [SkipWhitespace_step _ _ h2, h1, if_pos hw, this]
    simp only [List.length_cons]
    omega

theorem tokenScan_quoteFree (s rest : List Char) (hs : ∀ x ∈ s, x ≠ '"' ∧ x ≠ '\\') :
    tokenScan true (s ++ '"' :: rest) false = (s, s.length + 1) := by
  induction s with
  | nil => simp [tokenScan]
  | cons c t ih =>
    have hc := hs c (List.mem_cons_self _ _)
    have ih' := ih (fun x hx => hs x (List.mem_cons_of_mem _ hx))
    simp [tokenScan, hc.1, hc.2, ih']

/-- A quoted token without `"` and backslash in its body is returned as it is. -/
theorem quoted_plain (Content pre s rest : List Char)
    (hC : Content = pre ++ '"' :: (s ++ '"' :: rest)) (hs : ∀ x ∈ s, x ≠ '"' ∧ x ≠ '\\') :
    ParseStringAt Content pre.length = .ok (s, pre.length + s.length + 2) := by
  subst hC
  rw [ParseStringAt_quoted, tokenScan_quoteFree s rest hs]
  simp [charAt_quote_body, Nat.add_assoc, Nat.add_comm 1]

theorem ParseStringAt_openBrace (Content : List Char) (q : Nat) (hq : q < Content.length)
    (hc : charAt Content q = '{') : ParseStringAt Content q = .ok ([], q) := by
  obtain ⟨e, hl⟩ := charAt_split Content q hq
  have h := ParseStringAt_unquoted (Content.take q) '{' (Content.drop (q + 1))
    (by decide) (by decide) (by simp)
  rw [hc] at e
  rw [← e, hl] at h
  rw [h]
  simp [tokenScan, isTerminator]

theorem ToString_head (v : VDFNode) (J : Nat) :
    ∃ c tl, v.ToString J = indentStr J ++ c :: tl ∧ isspace c = false ∧ c ≠ '/' := by
  cases v with
  | String s => exact ⟨'"', s ++ ['"'], by simp [VDFNode.ToString], by decide, by decide⟩
  | Object m =>
    exact ⟨'{', '\n' :: (entriesToString m J ++ (indentStr J ++ ['}'])), by
      simp only [VDFNode.ToString], by decide, by decide⟩

theorem foldl_mapInsert_sorted (m : VDFMap) (hm : keysSorted m) :
    m.foldl (fun a p => mapInsert p.1 p.2 a) [] = m := by
  have hp := foldl_mapInsert_perm m [] (by simpa using keysSorted_nodup m hm)
  simp only [List.append_nil] at hp
  exact keysSorted_eq_of_perm _ _ hp (keysSorted_foldl m [] (by simp [keysSorted])) hm


mutual

/-- The function `ParseValue`, started behind the indentation of the text of a tree whose maps
are in key order and whose keys and payloads hold no `"` and no backslash, returns
that tree and stops behind its text. -/
theorem roundtrip_value : ∀ (n : VDFNode) (Indent : Nat) (Content pre rest : List Char)
    (fuel : Nat), Content = pre ++ (n.ToString Indent ++ rest) →
    n.AllObjects keysSorted → n.quoteFree → n.parseFuel ≤ fuel →
    ParseValue fuel Content (pre.length + Indent)
      = .ok (n, pre.length + (n.ToString Indent).length)
  | .String s, Indent, Content, pre, rest, fuel, hC, _, hq, hf => by
    obtain ⟨f, rfl⟩ : ∃ f, fuel = f + 1 :=
      ⟨fuel - 1, by simp only [VDFNode.parseFuel] at hf; omega⟩
    have hC' : Content = (pre ++ indentStr Indent) ++ '"' :: (s ++ '"' :: rest) := by
      rw [hC]; simp [VDFNode.ToString]
    have hl : (pre ++ indentStr Indent).length = pre.length + Indent := by
      simp [indentStr_length]
    obtain ⟨h1, h2⟩ := at_char _ _ _ _ hC'
    have hS := skip_ws_run [] (by simp) Content (pre ++ indentStr Indent) '"' _
      (by simpa using hC') (by decide) (by decide)
    have hT := quoted_plain Content _ s rest hC' (by simpa [VDFNode.quoteFree] using hq)
    rw [hl] at h1 h2 hS hT
    simp only [List.length_nil, Nat.add_zero] at hS
    have hne : charAt Content (pre.length + Indent) ≠ '{' := by rw [h1]; decide
    rw [ParseValue]
    simp only [hS, ge_iff_le, Nat.not_le.mpr h2, if_false, hne, hT]
    simp only [VDFNode.ToString, List.length_append, List.length_cons, List.length_nil,
      indentStr_length, Res.ok.injEq, Prod.mk.injEq, true_and]
    omega
  | .Object m, Indent, Content, pre, rest, fuel, hC, hs, hq, hf => by
    obtain ⟨f, rfl⟩ : ∃ f, fuel = f + 2 :=
      ⟨fuel - 2, by simp only [VDFNode.parseFuel] at hf; omega⟩
    simp only [VDFNode.parseFuel] at hf
    simp only [VDFNode.AllObjects] at hs
    simp only [VDFNode.quoteFree] at hq
    have hC' : Content = (pre ++ indentStr Indent) ++ '{' ::
        ('\n' :: (entriesToString m Indent ++ (indentStr Indent ++ '}' :: rest))) := by
      rw [hC]; simp [VDFNode.ToString]
    have hl : (pre ++ indentStr Indent).length = pre.length + Indent := by
      simp [indentStr_length]
    obtain ⟨h1, h2⟩ := at_char _ _ _ _ hC'
    have hS := skip_ws_run [] (by simp) Content (pre ++ indentStr Indent) '{' _
      (by simpa using hC') (by decide) (by decide)
    rw [hl] at h1 h2 hS
    simp only [List.length_nil, Nat.add_zero] at hS
    have hL := roundtrip_entries m Indent Content (pre ++ indentStr Indent ++ ['{']) rest f []
      (by rw [hC']; simp) hs.2 hq (by omega)
    have hl1 : (pre ++ indentStr Indent ++ ['{']).length = pre.length + Indent + 1 := by
      simp only [List.length_append, List.length_cons, List.length_nil, indentStr_length]
    rw [hl1] at hL
    have hC2 : Content = (pre ++ indentStr Indent ++ '{' :: '\n' ::
        (entriesToString m Indent ++ indentStr Indent)) ++ '}' :: rest := by
      rw [hC']; simp
    have hl2 : (pre ++ indentStr Indent ++ '{' :: '\n' ::
        (entriesToString m Indent ++ indentStr Indent)).length
        = pre.length + Indent + 1 + 1 + (entriesToString m Indent).length + Indent := by
      simp only [List.length_append, List.length_cons, indentStr_length]; omega
    obtain ⟨h3, h4⟩ := at_char _ _ _ _ hC2
    rw [hl2] at h3 h4
    rw [ParseValue]
    simp only [hS, ge_iff_le, Nat.not_le.mpr h2, if_false, h1, if_true]
    rw [ParseObject]
    simp only [h1, ne_eq, not_true_eq_false, if_false, hL, Nat.not_le.mpr h4, h3, or_self,
      foldl_mapInsert_sorted m hs.1]
    simp only [VDFNode.ToString, List.length_append, List.length_cons, List.length_nil,
      indentStr_length, Res.ok.injEq, Prod.mk.injEq, true_and]
    omega

/-- The pair loop of `ParseObject`, started behind a `{` of such a text, inserts
the entries in their order and stops on the closing brace. -/
theorem roundtrip_entries : ∀ (m : List (List Char × VDFNode)) (Indent : Nat)
    (Content pre rest : List Char) (fuel : Nat) (acc : VDFMap),
    Content = pre ++ '\n' :: (entriesToString m Indent ++ (indentStr Indent ++ '}' :: rest)) →
    childrenAllObjects keysSorted m → entriesQuoteFree m → entriesFuel m ≤ fuel →
    ParseObjectLoop fuel Content (SkipWhitespace Content pre.length) acc
      = .ok (m.foldl (fun a p => mapInsert p.1 p.2 a) acc,
          pre.length + 1 + (entriesToString m Indent).length + Indent)
  | [], Indent, Content, pre, rest, fuel, acc, hC, _, _, hf => by
    obtain ⟨f, rfl⟩ : ∃ f, fuel = f + 1 :=
      ⟨fuel - 1, by simp only [entriesFuel] at hf; omega⟩
    simp only [entriesToString, List.nil_append] at hC
    have hS := skip_ws_run ('\n' :: indentStr Indent)
      (by
        intro x hx
        rcases List.mem_cons.mp hx with h | h
        · rw [h]; decide
        · exact indentStr_isspace _ x h)
      Content pre '}' rest (by rw [hC]; simp) (by decide) (by decide)
    simp only [List.length_cons, indentStr_length] at hS
    obtain ⟨h1, h2⟩ := at_char Content (pre ++ '\n' :: indentStr Indent) '}' rest
      (by rw [hC]; simp)
    have hl : (pre ++ '\n' :: indentStr Indent).length = pre.length + (Indent + 1) := by
      simp [indentStr_length]
    rw [hl] at h1 h2
    rw [hS, ParseObjectLoop]
    simp only [h1, ne_eq, not_true_eq_false, and_false, if_false, List.foldl_nil,
      entriesToString, List.length_nil, Res.ok.injEq, Prod.mk.injEq, true_and]
    omega
  | (k, v) :: ms, Indent, Content, pre, rest, fuel, acc, hC, hs, hq, hf => by
    simp only [entriesFuel] at hf
    obtain ⟨f, rfl⟩ : ∃ f, fuel = f + 1 := ⟨fuel - 1, by omega⟩
    simp only [childrenAllObjects] at hs
    simp only [entriesQuoteFree] at hq
    simp only [entriesToString] at hC
    obtain ⟨c, tl, hTv, hc1, hc2⟩ := ToString_head v (Indent + 2)
    -- the cursor on the opening quote of the key
    have hSQ := skip_ws_run ('\n' :: (indentStr Indent ++ [' ', ' ']))
      (by
        intro x hx
        rcases List.mem_cons.mp hx with h | h
        · rw [h]; decide
        · rcases List.mem_append.mp h with h | h
          · exact indentStr_isspace _ x h
          · have : x = ' ' := by simpa using h
            rw [this]; decide)
      Content pre '"' (k ++ '"' :: '\n' :: (v.ToString (Indent + 2) ++ '\n' ::
        (entriesToString ms Indent ++ (indentStr Indent ++ '}' :: rest))))
      (by rw [hC]; simp) (by decide) (by decide)
    simp only [List.length_cons, List.length_append, List.length_nil, indentStr_length] at hSQ
    have hCQ : Content = (pre ++ '\n' :: (indentStr Indent ++ [' ', ' '])) ++ '"' ::
        (k ++ '"' :: ('\n' :: (v.ToString (Indent + 2) ++ '\n' ::
          (entriesToString ms Indent ++ (indentStr Indent ++ '}' :: rest))))) := by
      rw [hC]; simp
    have hlQ : (pre ++ '\n' :: (indentStr Indent ++ [' ', ' '])).length
        = pre.length + (Indent + (0 + 1 + 1) + 1) := by
      simp only [List.length_append, List.length_cons, List.length_nil, indentStr_length]
    obtain ⟨q1, q2⟩ := at_char _ _ _ _ hCQ
    have hK := quoted_plain Content _ k _ hCQ hq.1
    rw [hlQ] at q1 q2 hK
    -- the cursor behind the key, the value behind the next indentation
    have hCV : Content = (pre ++ '\n' :: (indentStr Indent ++ ' ' :: ' ' :: '"' ::
        (k ++ ['"']))) ++ (('\n' :: indentStr (Indent + 2)) ++ c :: (tl ++ '\n' ::
          (entriesToString ms Indent ++ (indentStr Indent ++ '}' :: rest)))) := by
      rw [hC, hTv]; simp
    have hlV : (pre ++ '\n' :: (indentStr Indent ++ ' ' :: ' ' :: '"' :: (k ++ ['"']))).length
        = pre.length + (Indent + (0 + 1 + 1) + 1) + k.length + 2 := by
      simp only [List.length_append, List.length_cons, List.length_nil, indentStr_length]
      omega
    have hSV := skip_ws_run ('\n' :: indentStr (Indent + 2))
      (by
        intro x hx
        rcases List.mem_cons.mp hx with h | h
        · rw [h]; decide
        · exact indentStr_isspace _ x h)
      Content _ c _ hCV hc1 hc2
    rw [hlV] at hSV
    simp only [List.length_cons, indentStr_length] at hSV
    have hV := roundtrip_value v (Indent + 2) Content
      (pre ++ '\n' :: (indentStr Indent ++ ' ' :: ' ' :: '"' :: (k ++ ['"', '\n'])))
      ('\n' :: (entriesToString ms Indent ++ (indentStr Indent ++ '}' :: rest))) f
      (by rw [hC]; simp) hs.1 hq.2.1 (by omega)
    have hlV2 : (pre ++ '\n' :: (indentStr Indent ++ ' ' :: ' ' :: '"' ::
        (k ++ ['"', '\n']))).length
        = pre.length + (Indent + (0 + 1 + 1) + 1) + k.length + 2 + 1 := by
      simp only [List.length_append, List.length_cons, List.length_nil, indentStr_length]
      omega
    rw [hlV2] at hV
    -- the rest of the entries
    have hL := roundtrip_entries ms Indent Content
      (pre ++ '\n' :: (indentStr Indent ++ ' ' :: ' ' :: '"' :: (k ++ '"' :: '\n' ::
        v.ToString (Indent + 2))))
      rest f (mapInsert k v acc) (by rw [hC]; simp) hs.2 hq.2.2 (by omega)
    have hlL : (pre ++ '\n' :: (indentStr Indent ++ ' ' :: ' ' :: '"' :: (k ++ '"' :: '\n' ::
        v.ToString (Indent + 2)))).length
        = pre.length + (Indent + (0 + 1 + 1) + 1) + k.length + 2 + 1
          + (v.ToString (Indent + 2)).length := by
      simp only [List.length_append, List.length_cons, List.length_nil, indentStr_length]
      omega
    rw [hlL] at hL
    have hne : charAt Content (pre.length + (Indent + (0 + 1 + 1) + 1)) ≠ '}' := by
      rw [q1]; decide
    have e1 : pre.length + (Indent + (0 + 1 + 1) + 1) + k.length + 2 + (Indent + 2 + 1)
        = pre.length + (Indent + (0 + 1 + 1) + 1) + k.length + 2 + 1 + (Indent + 2) := by omega
    rw [e1] at hSV
    rw [hSQ, ParseObjectLoop]
    simp only [q2, hne, ne_eq, not_false_eq_true, and_self, if_true, hK, hSV, hV, hL,
      List.foldl_cons, entriesToString, List.length_append, List.length_cons,
      indentStr_length, Res.ok.injEq, Prod.mk.injEq, true_and]
    omega

end


/-- C16 (refuted as stated): the text of the empty Object is `{`, LF, `}`, and the
text of `a -> "1"` is `{`, LF, `  "a"`, LF, `  "1"`, LF, `}`; read back, the `{` at
top level is taken as the value of an empty key, and the root returned is not the
tree but the Object with the one entry `"" -> tree`. -/
theorem C16_roundtrip_counterexample :
    (VDFNode.Object []).ToString 0 = "\x7b\n\x7d".toList ∧
    (∀ n, ParseString (n + 4) ((VDFNode.Object []).ToString 0)
      = .ok ⟨some (.Object [([], .Object [])])⟩) ∧
    ParseString 4 ((VDFNode.Object []).ToString 0) ≠ .ok ⟨some (.Object [])⟩ ∧
    (∀ n, ParseString (n + 5) ((VDFNode.Object [("a".toList, .String "1".toList)]).ToString 0)
      = .ok ⟨some (.Object [([], .Object [("a".toList, .String "1".toList)])])⟩) ∧
    ParseString 5 ((VDFNode.Object [("a".toList, .String "1".toList)]).ToString 0)
      ≠ .ok ⟨some (.Object [("a".toList, .String "1".toList)])⟩ := by
  refine ⟨rfl, fun _ => rfl, ?_, fun _ => rfl, ?_⟩
  · have h : ParseString 4 ((VDFNode.Object []).ToString 0)
        = .ok ⟨some (.Object [([], .Object [])])⟩ := rfl
    rw [h]
    intro e
    simp at e
  · have h : ParseString 5 ((VDFNode.Object [("a".toList, .String "1".toList)]).ToString 0)
        = .ok ⟨some (.Object [([], .Object [("a".toList, .String "1".toList)])])⟩ := rfl
    rw [h]
    intro e
    simp at e

/-- C16 (amended): for every Object tree `t` (its maps in key order, as every
`std::map` is) whose keys and String payloads hold no `"` and no backslash,
`ParseString` on `t.ToString()` succeeds, with any fuel from `t.parseFuel + 1` on,
and returns the root Object with exactly one entry: the empty key, whose value is
equal to `t`. -/
theorem C16_write_then_read (m : VDFMap) (fuel : Nat)
    (hs : (VDFNode.Object m).AllObjects keysSorted) (hq : (VDFNode.Object m).quoteFree)
    (hf : (VDFNode.Object m).parseFuel + 1 ≤ fuel) :
    ParseString fuel ((VDFNode.Object m).ToString 0)
      = .ok ⟨some (.Object [([], .Object m)])⟩ := by
  have hf' := hf
  simp only [VDFNode.parseFuel] at hf'
  obtain ⟨f, rfl⟩ : ∃ f, fuel = f + 2 := ⟨fuel - 2, by omega⟩
  generalize hC : (VDFNode.Object m).ToString 0 = Content
  have hV := roundtrip_value (.Object m) 0 Content [] [] (f + 1) (by rw [← hC]; simp) hs hq
    (by omega)
  simp only [List.length_nil, Nat.add_zero, Nat.zero_add] at hV
  rw [hC] at hV
  have hC' : Content = [] ++ '{' :: ('\n' :: (entriesToString m 0 ++ (indentStr 0 ++ ['}']))) := by
    rw [← hC]; simp [VDFNode.ToString, indentStr]
  obtain ⟨h1, h2⟩ := at_char _ _ _ _ hC'
  simp only [List.length_nil] at h1 h2
  have hS : SkipWhitespace Content 0 = 0 :=
    SkipWhitespace_stay _ _ h2 (by rw [h1]; decide) (by rw [h1]; simp)
  have hK := ParseStringAt_openBrace Content 0 h2 h1
  have hE := SkipWhitespace_end Content Content.length (Nat.le_refl _)
  rw [ParseString, hS, ParseStringLoop]
  simp only [h2, if_true, hK, hS, hV, VDFNode.SetValue, mapInsert, hE]
  rw [ParseStringLoop_exit f _ _ _ (Nat.le_refl _)]
  rfl

/-- C16 (amended) on the tree `a -> "1", b -> (c -> "x y")`. -/
theorem C16_write_then_read_witness :
    ParseString 12 ((VDFNode.Object [("a".toList, .String "1".toList),
        ("b".toList, .Object [("c".toList, .String "x y".toList)])]).ToString 0)
      = .ok ⟨some (.Object [([], .Object [("a".toList, .String "1".toList),
        ("b".toList, .Object [("c".toList, .String "x y".toList)])])])⟩ :=
  C16_write_then_read _ 12
    (by simp [VDFNode.AllObjects, childrenAllObjects, keysSorted]; decide)
    (by simp [VDFNode.quoteFree, entriesQuoteFree])
    (by simp [VDFNode.parseFuel, entriesFuel])


/-! ## `SkipWhitespace` described on the text -/

theorem comment_run_end (c : List Char) (hc : '\n' ∉ c) :
    ∀ (pre : List Char) (fuel : Nat),
      SkipWhitespace.comment (pre ++ c) fuel pre.length ≤ pre.length + c.length ∧
      (c.length ≤ fuel →
        SkipWhitespace.comment (pre ++ c) fuel pre.length = pre.length + c.length) := by
  induction c with
  | nil =>
    intro pre fuel
    cases fuel <;> simp [SkipWhitespace.comment]
  | cons x t ih =>
    intro pre fuel
    have hx : x ≠ '\n' := fun e => hc (e ▸ List.mem_cons_self _ _)
    have ht : '\n' ∉ t := fun h => hc (List.mem_cons_of_mem _ h)
    cases fuel with
    | zero => simp [SkipWhitespace.comment]
    | succ f =>
      have h := ih ht (pre ++ [x]) f
      have e : pre ++ [x] ++ t = pre ++ x :: t := by simp
      rw [e] at h
      simp only [List.length_append, List.length_singleton] at h
      rw [SkipWhitespace.comment]
      simp only [charAt_append_length, hx, ne_eq, not_false_eq_true, and_true]
      rw [if_pos (by simp)]
      simp only [List.length_cons]
      exact ⟨by omega, fun hf => by rw [h.2 (by omega)]; omega⟩

theorem comment_run_tail (body tail : List Char) (hb : '\n' ∉ body)
    (ht : tail = [] ∨ ∃ t, tail = '\n' :: t) (pre : List Char) (fuel : Nat)
    (hf : body.length ≤ fuel) :
    SkipWhitespace.comment (pre ++ (body ++ tail)) fuel pre.length
      = pre.length + body.length := by
  rcases ht with rfl | ⟨t, rfl⟩
  · rw [List.append_nil]
    exact (comment_run_end body hb pre fuel).2 hf
  · exact comment_run body hb pre t fuel hf

theorem SkipWhitespace_stop (pre rest : List Char) (h : stopsSkip rest) :
    SkipWhitespace (pre ++ rest) pre.length = pre.length := by
  rcases h with rfl | ⟨c, t, rfl, hsp, hcm⟩
  · exact SkipWhitespace_end _ _ (by simp)
  · have hc := charAt_append_length pre c t
    refine SkipWhitespace_stay _ _ (by simp) (by rw [hc]; exact hsp) ?_
    rw [hc, charAt_append_right]
    rintro ⟨h1, h2, h3⟩
    apply hcm
    refine ⟨h1, ?_⟩
    cases t with
    | nil => simp at h2
    | cons d u => simpa [charAt] using h3

/-- Along `SkipsTo` the function `SkipWhitespace` moves the cursor exactly over the
part of the text that was passed. -/
theorem SkipWhitespace_of_SkipsTo {l rest : List Char} (h : SkipsTo l rest) :
    ∀ pre : List Char, ∃ seg, l = seg ++ rest ∧
      SkipWhitespace (pre ++ l) pre.length = pre.length + seg.length := by
  induction h with
  | stop rest hs =>
    intro pre
    exact ⟨[], rfl, by simpa using SkipWhitespace_stop pre rest hs⟩
  | space c t rest hc _ ih =>
    intro pre
    obtain ⟨seg, hseg, hS⟩ := ih (pre ++ [c])
    refine ⟨c :: seg, by rw [hseg]; rfl, ?_⟩
    have e : pre ++ [c] ++ t = pre ++ c :: t := by simp
    rw [e] at hS
    simp only [List.length_append, List.length_singleton] at hS
    rw [SkipWhitespace_step _ _ (by simp), charAt_append_length, if_pos hc, hS]
    simp only [List.length_cons]
    omega
  | comment body tail rest hb ht _ ih =>
    intro pre
    obtain ⟨seg, hseg, hS⟩ := ih (pre ++ '/' :: '/' :: body)
    refine ⟨'/' :: '/' :: (body ++ seg), by rw [hseg]; simp, ?_⟩
    have e : pre ++ '/' :: '/' :: body ++ tail = pre ++ '/' :: '/' :: (body ++ tail) := by simp
    rw [e] at hS
    have hrun := comment_run_tail body tail hb ht (pre ++ ['/', '/'])
      ((pre ++ '/' :: '/' :: (body ++ tail)).length - (pre.length + 2))
      (by simp only [List.length_append, List.length_cons]; omega)
    have e2 : pre ++ ['/', '/'] ++ (body ++ tail) = pre ++ '/' :: '/' :: (body ++ tail) := by
      simp
    rw [e2] at hrun
    simp only [List.length_append, List.length_cons, List.length_nil] at hrun hS
    have h0 := charAt_append_length pre '/' ('/' :: (body ++ tail))
    have h1 : charAt (pre ++ '/' :: '/' :: (body ++ tail)) (pre.length + 1) = '/' := by
      rw [charAt_append_right]; rfl
    rw [SkipWhitespace_step _ _ (by simp), h0, if_neg (by decide),
      if_pos ⟨rfl, by simp, h1⟩]
    simp only [List.length_append, List.length_cons, List.length_nil]
    have e3 : pre.length + (0 + 1 + 1) = pre.length + 2 := by omega
    rw [e3] at hrun
    rw [hrun]
    have e4 : pre.length + 2 + body.length = pre.length + (body.length + 1 + 1) := by omega
    rw [e4, hS]
    omega

theorem SkipsTo_stops {l rest : List Char} (h : SkipsTo l rest) : stopsSkip rest := by
  induction h with
  | stop rest hs => exact hs
  | space _ _ _ _ _ ih => exact ih
  | comment _ _ _ _ _ _ ih => exact ih

theorem split_at_newline (l : List Char) :
    ∃ body tail, l = body ++ tail ∧ '\n' ∉ body ∧ (tail = [] ∨ ∃ t, tail = '\n' :: t) := by
  induction l with
  | nil => exact ⟨[], [], rfl, by simp, Or.inl rfl⟩
  | cons x t ih =>
    by_cases hx : x = '\n'
    · exact ⟨[], x :: t, rfl, by simp, Or.inr ⟨t, by rw [hx]⟩⟩
    · obtain ⟨body, tail, e, hb, ht⟩ := ih
      refine ⟨x :: body, tail, by rw [e]; rfl, ?_, ht⟩
      intro hm
      rcases List.mem_cons.mp hm with h | h
      · exact hx h.symm
      · exact hb h

theorem SkipsTo_exists (n : Nat) : ∀ l : List Char, l.length ≤ n → ∃ rest, SkipsTo l rest := by
  induction n with
  | zero =>
    intro l hl
    have : l = [] := List.length_eq_zero.mp (by omega)
    subst this
    exact ⟨[], SkipsTo.stop [] (Or.inl rfl)⟩
  | succ n ih =>
    intro l hl
    cases l with
    | nil => exact ⟨[], SkipsTo.stop [] (Or.inl rfl)⟩
    | cons c t =>
      by_cases hsp : isspace c = true
      · obtain ⟨rest, h⟩ := ih t (by simp at hl; omega)
        exact ⟨rest, SkipsTo.space c t rest hsp h⟩
      · by_cases hcm : c = '/' ∧ t.head? = some '/'
        · obtain ⟨rfl, hh⟩ := hcm
          cases t with
          | nil => simp at hh
          | cons d u =>
            simp only [List.head?_cons, Option.some.injEq] at hh
            subst hh
            obtain ⟨body, tail, e, hb, ht⟩ := split_at_newline u
            have hlen : tail.length ≤ n := by
              have : u.length = body.length + tail.length := by rw [e]; simp
              simp at hl
              omega
            obtain ⟨rest, h⟩ := ih tail hlen
            exact ⟨rest, e ▸ SkipsTo.comment body tail rest hb ht h⟩
        · exact ⟨c :: t, SkipsTo.stop _ (Or.inr ⟨c, t, rfl, by simpa using hsp, hcm⟩)⟩

/-- C17 (refuted as stated): on the text VT, `k` the skipper moves from 0 to 1
although the byte at 0 is none of blank, tab, CR, LF and no `/`; and on `//a`, LF,
`b` it returns 4 although already the byte `a` at 2 is neither whitespace nor a
`/`, so that 4 is not the least such position. -/
theorem C17_skip_counterexample :
    SkipWhitespace ['\x0b', 'k'] 0 = 1 ∧
    (charAt ['\x0b', 'k'] 0 ≠ ' ' ∧ charAt ['\x0b', 'k'] 0 ≠ '\t' ∧
      charAt ['\x0b', 'k'] 0 ≠ '\r' ∧ charAt ['\x0b', 'k'] 0 ≠ '\n' ∧
      charAt ['\x0b', 'k'] 0 ≠ '/') ∧
    SkipWhitespace "//a\nb".toList 0 = 4 ∧ charAt "//a\nb".toList 2 = 'a' :=
  ⟨rfl, by decide, rfl, rfl⟩

/-- C17 (amended): for every text and cursor `p0 <= length`, `SkipWhitespace`
returns the position reached from `p0` by passing over `isspace` bytes (blank,
tab, LF, VT, FF, CR) and over whole comments, `//` up to but not including the
next LF or the end of the text; nothing else is passed over; the position reached
is in bounds and is the end of the text or holds a byte that is neither an
`isspace` byte nor the first `/` of `//` (so a single `/` stops the skipper);
the text passed over and the text left are determined by the text alone. -/
theorem C17_skip_whitespace (Content : List Char) (p0 : Nat) (hp : p0 ≤ Content.length) :
    (∃ seg rest, Content.drop p0 = seg ++ rest ∧ SkipsTo (Content.drop p0) rest ∧
      stopsSkip rest ∧
      SkipWhitespace Content p0 = p0 + seg.length ∧
      SkipWhitespace Content p0 ≤ Content.length ∧
      ∀ rest', SkipsTo (Content.drop p0) rest' → rest' = rest) ∧
    (∀ pre t : List Char, t.head? ≠ some '/' →
      SkipWhitespace (pre ++ '/' :: t) pre.length = pre.length) := by
  constructor
  · obtain ⟨rest, h⟩ := SkipsTo_exists _ (Content.drop p0) (Nat.le_refl _)
    have hsplit : Content.take p0 ++ Content.drop p0 = Content := List.take_append_drop p0 Content
    have hl : (Content.take p0).length = p0 := by simp; omega
    have key : ∀ rest', SkipsTo (Content.drop p0) rest' →
        ∃ seg, Content.drop p0 = seg ++ rest' ∧ SkipWhitespace Content p0 = p0 + seg.length := by
      intro rest' h'
      obtain ⟨seg, e, hS⟩ := SkipWhitespace_of_SkipsTo h' (Content.take p0)
      rw [hsplit, hl] at hS
      exact ⟨seg, e, hS⟩
    obtain ⟨seg, e, hS⟩ := key rest h
    refine ⟨seg, rest, e, h, SkipsTo_stops h, hS, ?_, ?_⟩
    · have : (Content.drop p0).length = seg.length + rest.length := by rw [e]; simp
      simp only [List.length_drop] at this
      rw [hS]
      omega
    · intro rest' h'
      obtain ⟨seg', e', hS'⟩ := key rest' h'
      have hlen : seg'.length = seg.length := by omega
      have := congrArg (List.drop seg.length) e
      rw [List.drop_left] at this
      have h2 := congrArg (List.drop seg'.length) e'
      rw [List.drop_left, hlen] at h2
      rw [← this, ← h2]
  · intro pre t ht
    exact SkipWhitespace_stop pre ('/' :: t)
      (Or.inr ⟨'/', t, rfl, by decide, fun h => ht h.2⟩)

/-- C17 (amended) on blank, `// c`, LF, `/x`: the cursor moves from 0 to 6. -/
theorem C17_skip_whitespace_witness :
    SkipWhitespace " // c\n/x".toList 0 = 6 ∧
    ∃ seg rest, " // c\n/x".toList.drop 0 = seg ++ rest ∧ stopsSkip rest ∧
      SkipWhitespace " // c\n/x".toList 0 = 0 + seg.length := by
  obtain ⟨seg, rest, h1, _, h3, h4, _, _⟩ :=
    (C17_skip_whitespace " // c\n/x".toList 0 (by decide)).1
  exact ⟨rfl, seg, rest, h1, h3, h4⟩


/-- C18: serialization is in canonical key order. `ToString` of an Object emits
`{`, then for each entry of the map, in its iteration order, the quoted key on a
line of its own followed by the serialized child, then `}`. The iteration order of
every map the program builds, by insertions into an empty map, is strictly
ascending in the byte-lexicographic order of the keys, each key once; so are all
Objects of a parsed tree. Hence the text depends only on the mapping: pair
sequences with distinct keys that differ only in their order build the same map
and the same text, as the documents `b 1`, LF, `a 2` and `a 2`, LF, `b 1` do. -/
theorem C18_serialization_order :
    (∀ (m : VDFMap) (Indent : Nat),
      (VDFNode.Object m).ToString Indent
        = indentStr Indent ++ "\x7b\n".toList ++ entriesToString m Indent
            ++ indentStr Indent ++ "\x7d".toList) ∧
    (∀ (k : List Char) (v : VDFNode) (rest : VDFMap) (Indent : Nat),
      entriesToString ((k, v) :: rest) Indent
        = indentStr Indent ++ "  \"".toList ++ k ++ "\"\n".toList
            ++ v.ToString (Indent + 2) ++ "\n".toList ++ entriesToString rest Indent) ∧
    (∀ Indent, entriesToString [] Indent = []) ∧
    (∀ ps : List (List Char × VDFNode),
      keysSorted (ps.foldl (fun a p => mapInsert p.1 p.2 a) []) ∧
      ((ps.foldl (fun a p => mapInsert p.1 p.2 a) []).map Prod.fst).Nodup) ∧
    (∀ fuel Content root, ParseString fuel Content = .ok root →
      ∃ (m : VDFMap) (pairs : List (List Char × VDFNode)), root.Node = some (.Object m) ∧
        m = pairs.foldl (fun a p => mapInsert p.1 p.2 a) [] ∧
        (VDFNode.Object m).AllObjects keysSorted) ∧
    (∀ (ps ps' : List (List Char × VDFNode)) (Indent : Nat), ps.Perm ps' →
      (ps.map Prod.fst).Nodup →
      ps.foldl (fun a p => mapInsert p.1 p.2 a) [] = ps'.foldl (fun a p => mapInsert p.1 p.2 a) [] ∧
      (VDFNode.Object (ps.foldl (fun a p => mapInsert p.1 p.2 a) [])).ToString Indent
        = (VDFNode.Object (ps'.foldl (fun a p => mapInsert p.1 p.2 a) [])).ToString Indent) ∧
    ParseString 3 "b 1\na 2".toList = ParseString 3 "a 2\nb 1".toList ∧
    ParseString 3 "b 1\na 2".toList
      = .ok ⟨some (.Object [("a".toList, .String "2".toList), ("b".toList, .String "1".toList)])⟩ ∧
    (VDFNode.Object [("a".toList, .String "2".toList), ("b".toList, .String "1".toList)]).ToString 0
      = "\x7b\n  \"a\"\n  \"2\"\n  \"b\"\n  \"1\"\n\x7d".toList := by
  refine ⟨?_, ?_, fun _ => rfl, ?_, ?_, ?_, rfl, rfl, rfl⟩
  · intro m Indent
    simp [VDFNode.ToString]
  · intro k v rest Indent
    simp [entriesToString]
  · intro ps
    have h := keysSorted_foldl ps [] (by simp [keysSorted])
    exact ⟨h, keysSorted_nodup _ h⟩
  · intro fuel Content root h
    simp only [ParseString] at h
    cases hL : ParseStringLoop fuel Content (SkipWhitespace Content 0) (.Object []) with
    | outOfFuel => simp [hL] at h
    | error e => simp [hL] at h
    | ok Root =>
      simp only [hL, VDFValue.ofPtr, Res.ok.injEq] at h
      obtain ⟨m, hm, hs, hc⟩ := ParseStringLoop_sorted _ _ _ _ _ hL
        (by simp [keysSorted]) (by simp [childrenAllObjects])
      obtain ⟨pairs, Pos', _, _, hfold⟩ := ParseStringLoop_pairs _ _ _ _ _ hL
      rw [hm] at hfold
      injection hfold with hfold
      exact ⟨m, pairs, by rw [← h, hm], hfold, by simpa [VDFNode.AllObjects] using ⟨hs, hc⟩⟩
  · intro ps ps' Indent hp hnd
    have h := foldl_mapInsert_order ps ps' hp hnd
    exact ⟨h, by rw [h]⟩

/-- C18 on the pair sequences `b 1, a 2` and `a 2, b 1`: the same map. -/
theorem C18_serialization_order_witness :
    [("b".toList, VDFNode.String "1".toList), ("a".toList, .String "2".toList)].foldl
        (fun a p => mapInsert p.1 p.2 a) []
      = [("a".toList, VDFNode.String "2".toList), ("b".toList, .String "1".toList)].foldl
        (fun a p => mapInsert p.1 p.2 a) [] :=
  (C18_serialization_order.2.2.2.2.2.1
    [("b".toList, VDFNode.String "1".toList), ("a".toList, .String "2".toList)]
    [("a".toList, VDFNode.String "2".toList), ("b".toList, .String "1".toList)] 0
    (List.Perm.swap _ _ _) (by decide)).1


/-! ## The "Expected '{'" branch -/

theorem ParseStringAt_error_kind (Content : List Char) (Pos : Nat) (e : VDFError)
    (h : ParseStringAt Content Pos = .error e) :
    e = .UnexpectedEndOfInputInString ∨ ∃ p, e = .UnterminatedString p := by
  simp only [ParseStringAt] at h
  split_ifs at h <;>
    first
    | (injection h with h; exact Or.inl h.symm)
    | (injection h with h; exact Or.inr ⟨_, h.symm⟩)

theorem charAt_lt_of_ne_nul (Content : List Char) (Pos : Nat) (h : charAt Content Pos ≠ '\x00') :
    Pos < Content.length := by
  by_contra hn
  apply h
  simp [charAt, List.getD_eq_getElem?_getD, List.getElem?_eq_none (Nat.le_of_not_lt hn)]

theorem no_open_brace_error (fuel : Nat) :
    (∀ Content Pos p, ParseValue fuel Content Pos ≠ .error (.ExpectedOpenBrace p)) ∧
    (∀ Content Pos p, charAt Content Pos = '{' →
      ParseObject fuel Content Pos ≠ .error (.ExpectedOpenBrace p)) ∧
    (∀ Content Pos Obj p,
      ParseObjectLoop fuel Content Pos Obj ≠ .error (.ExpectedOpenBrace p)) := by
  induction fuel with
  | zero =>
    refine ⟨?_, ?_, ?_⟩ <;> intros <;> simp [ParseValue, ParseObject, ParseObjectLoop]
  | succ fuel ih =>
    obtain ⟨ihV, ihO, ihL⟩ := ih
    refine ⟨?_, ?_, ?_⟩
    · intro Content Pos p h
      simp only [ParseValue] at h
      by_cases h1 : SkipWhitespace Content Pos ≥ Content.length
      · simp [h1] at h
      by_cases h2 : charAt Content (SkipWhitespace Content Pos) = '{'
      · rw [if_neg h1, if_pos h2] at h
        exact ihO _ _ _ h2 h
      · rw [if_neg h1, if_neg h2] at h
        cases hK : ParseStringAt Content (SkipWhitespace Content Pos) with
        | error e =>
          rw [hK] at h
          injection h with h
          rcases ParseStringAt_error_kind _ _ _ hK with h' | ⟨q, h'⟩ <;> rw [h'] at h <;>
            cases h
        | ok r => simp [hK] at h
    · intro Content Pos p hc h
      simp only [ParseObject, hc, ne_eq, not_true_eq_false, if_false] at h
      cases hL : ParseObjectLoop fuel Content (SkipWhitespace Content (Pos + 1)) [] with
      | outOfFuel => simp [hL] at h
      | error e =>
        rw [hL] at h
        injection h with h
        exact ihL _ _ _ _ (h ▸ hL)
      | ok r =>
        simp only [hL] at h
        split_ifs at h
        injection h with h
        cases h
    · intro Content Pos Obj p h
      simp only [ParseObjectLoop] at h
      split_ifs at h
      cases hK : ParseStringAt Content Pos with
      | error e =>
        rw [hK] at h
        injection h with h
        rcases ParseStringAt_error_kind _ _ _ hK with h' | ⟨q, h'⟩ <;> rw [h'] at h <;>
          cases h
      | ok r =>
        simp only [hK] at h
        cases hV : ParseValue fuel Content (SkipWhitespace Content r.2) with
        | outOfFuel => simp [hV] at h
        | error e =>
          rw [hV] at h
          injection h with h
          exact ihV _ _ _ (h ▸ hV)
        | ok w =>
          simp only [hV] at h
          exact ihL _ _ _ _ h

theorem ParseStringLoop_no_open_brace_error (fuel : Nat) (Content : List Char) (Pos : Nat)
    (Root : VDFNode) (p : Nat) :
    ParseStringLoop fuel Content Pos Root ≠ .error (.ExpectedOpenBrace p) := by
  induction fuel generalizing Pos Root with
  | zero => simp [ParseStringLoop]
  | succ fuel ih =>
    intro h
    simp only [ParseStringLoop] at h
    split_ifs at h
    cases hK : ParseStringAt Content Pos with
    | error e =>
      rw [hK] at h
      injection h with h
      rcases ParseStringAt_error_kind _ _ _ hK with h' | ⟨q, h'⟩ <;> rw [h'] at h <;> cases h
    | ok r =>
      simp only [hK] at h
      cases hV : ParseValue fuel Content (SkipWhitespace Content r.2) with
      | outOfFuel => simp [hV] at h
      | error e =>
        rw [hV] at h
        injection h with h
        exact (no_open_brace_error fuel).1 _ _ _ (h ▸ hV)
      | ok w =>
        simp only [hV] at h
        cases hS : Root.SetValue r.1 w.1 with
        | error e =>
          rw [hS] at h
          cases Root <;> simp [VDFNode.SetValue] at hS
          subst hS
          injection h with h
          cases h
        | ok Root1 =>
          rw [hS] at h
          exact ih _ _ h

/-- C19: `ParseString` never fails with "Expected '{'". `ParseObject` takes that
branch exactly when its cursor is not on `{`; `ParseValue`, its only caller, calls
it only after it has found the cursor inside the text and on `{`, and then the
branch is not taken; every error of a callee is passed on unchanged, so no run of
`ParseValue`, of the pair loops or of `ParseString` ends in that error. -/
theorem C19_open_brace_branch_unreachable (fuel : Nat) (Content : List Char) (Pos p : Nat) :
    ParseString fuel Content ≠ .error (.ExpectedOpenBrace p) ∧
    ParseValue fuel Content Pos ≠ .error (.ExpectedOpenBrace p) ∧
    (∀ Obj, ParseObjectLoop fuel Content Pos Obj ≠ .error (.ExpectedOpenBrace p)) ∧
    (charAt Content Pos ≠ '{' →
      ParseObject (fuel + 1) Content Pos = .error (.ExpectedOpenBrace Pos)) ∧
    (charAt Content Pos = '{' →
      Pos < Content.length ∧ ParseObject fuel Content Pos ≠ .error (.ExpectedOpenBrace p)) ∧
    (SkipWhitespace Content Pos < Content.length →
      charAt Content (SkipWhitespace Content Pos) = '{' →
      ParseValue (fuel + 1) Content Pos = ParseObject fuel Content (SkipWhitespace Content Pos)) ∧
    (Content.length ≤ SkipWhitespace Content Pos →
      ParseValue (fuel + 1) Content Pos = .error .UnexpectedEndOfInput) ∧
    (SkipWhitespace Content Pos < Content.length →
      charAt Content (SkipWhitespace Content Pos) ≠ '{' →
      ParseValue (fuel + 1) Content Pos =
        match ParseStringAt Content (SkipWhitespace Content Pos) with
        | .error e => .error e
        | .ok (s, q) => .ok (.String s, q)) := by
  refine ⟨?_, (no_open_brace_error fuel).1 _ _ _, fun Obj => (no_open_brace_error fuel).2.2 _ _ _ _,
    ?_, ?_, ?_, ?_, ?_⟩
  · intro h
    simp only [ParseString] at h
    cases hL : ParseStringLoop fuel Content (SkipWhitespace Content 0) (.Object []) with
    | outOfFuel => simp [hL] at h
    | error e =>
      rw [hL] at h
      injection h with h
      exact ParseStringLoop_no_open_brace_error _ _ _ _ _ (h ▸ hL)
    | ok R => simp [hL] at h
  · intro hc
    simp [ParseObject, hc]
  · intro hc
    exact ⟨charAt_lt_of_ne_nul _ _ (by rw [hc]; decide), (no_open_brace_error fuel).2.1 _ _ _ hc⟩
  · intro h1 h2
    simp [ParseValue, Nat.not_le.mpr h1, h2]
  · intro h1
    simp [ParseValue, h1]
  · intro h1 h2
    simp [ParseValue, Nat.not_le.mpr h1, h2]


/-! ## Cursor bounds and reads -/

theorem readAt_eq (Content : List Char) (Pos : Nat) (h : Pos < Content.length) :
    readAt Content Pos = some (charAt Content Pos) := by
  simp [readAt, charAt, List.getD_eq_getElem?_getD, List.getElem?_eq_getElem h]

theorem comment_checked (Content : List Char) (fuel Pos : Nat) :
    SkipWhitespaceChecked.comment Content fuel Pos
      = some (SkipWhitespace.comment Content fuel Pos) := by
  induction fuel generalizing Pos with
  | zero => rfl
  | succ fuel ih =>
    simp only [SkipWhitespaceChecked.comment, SkipWhitespace.comment]
    by_cases h : Pos < Content.length
    · rw [if_pos h, readAt_eq _ _ h]
      by_cases hc : charAt Content Pos ≠ '\n'
      · simp only [hc, ne_eq, not_false_eq_true, if_true, h, and_self, ih]
      · simp only [hc, if_false, h, and_false]
    · simp [h]

theorem comment_le (Content : List Char) (fuel Pos : Nat) (h : Pos ≤ Content.length) :
    SkipWhitespace.comment Content fuel Pos ≤ Content.length := by
  induction fuel generalizing Pos with
  | zero => exact h
  | succ fuel ih =>
    simp only [SkipWhitespace.comment]
    split_ifs with hc
    · exact ih _ hc.1
    · exact h

theorem skipLoop_checked (Content : List Char) (fuel Pos : Nat) :
    SkipWhitespaceChecked.loop Content fuel Pos = some (SkipWhitespace.loop Content fuel Pos) := by
  induction fuel generalizing Pos with
  | zero => rfl
  | succ fuel ih =>
    simp only [SkipWhitespaceChecked.loop, SkipWhitespace.loop]
    by_cases h : Pos < Content.length
    · rw [if_pos h, if_pos h, readAt_eq _ _ h]
      simp only
      by_cases hs : isspace (charAt Content Pos) = true
      · rw [if_pos hs, if_pos hs, ih]
      · rw [if_neg hs, if_neg hs]
        by_cases h1 : charAt Content Pos = '/' ∧ Pos + 1 < Content.length
        · rw [if_pos h1, readAt_eq _ _ h1.2]
          simp only
          by_cases h2 : charAt Content (Pos + 1) = '/'
          · rw [if_pos h2, if_pos ⟨h1.1, h1.2, h2⟩, comment_checked]
            simp only [ih]
          · rw [if_neg h2, if_neg (fun hh => h2 hh.2.2)]
        · rw [if_neg h1, if_neg (fun hh => h1 ⟨hh.1, hh.2.1⟩)]
    · rw [if_neg h, if_neg h]

theorem SkipWhitespace_checked (Content : List Char) (Pos : Nat) :
    SkipWhitespaceChecked Content Pos = some (SkipWhitespace Content Pos) :=
  skipLoop_checked Content _ Pos

theorem SkipWhitespace_le (Content : List Char) (Pos : Nat) (h : Pos ≤ Content.length) :
    SkipWhitespace Content Pos ≤ Content.length := by
  unfold SkipWhitespace
  generalize Content.length - Pos = fuel
  induction fuel generalizing Pos with
  | zero => exact h
  | succ fuel ih =>
    simp only [SkipWhitespace.loop]
    split_ifs with h1 h2 h3
    · exact ih _ h1
    · exact ih _ (comment_le _ _ _ h3.2.1)
    · exact h
    · exact h

theorem tokenLoop_checked (Content : List Char) (q : Bool) (fuel Pos : Nat) (R : List Char)
    (esc : Bool) :
    ParseStringAtChecked.loop Content q fuel Pos R esc
      = some (ParseStringAt.loop Content q fuel Pos R esc) := by
  induction fuel generalizing Pos R esc with
  | zero => rfl
  | succ fuel ih =>
    simp only [ParseStringAtChecked.loop, ParseStringAt.loop]
    by_cases h : Pos < Content.length
    · rw [if_pos h, if_pos h, readAt_eq _ _ h]
      simp only [ih]
      split_ifs <;> rfl
    · rw [if_neg h, if_neg h]

theorem tokenLoop_le (Content : List Char) (q : Bool) (fuel Pos : Nat) (R : List Char)
    (esc : Bool) (h : Pos ≤ Content.length) :
    (ParseStringAt.loop Content q fuel Pos R esc).2 ≤ Content.length := by
  induction fuel generalizing Pos R esc with
  | zero => exact h
  | succ fuel ih =>
    simp only [ParseStringAt.loop, Nat.add_sub_cancel]
    split_ifs with h1
    · exact ih _ _ _ h1
    · exact ih _ _ _ h1
    · exact h1
    · exact h
    · exact ih _ _ _ h1
    · exact h

/-- The token parser: its reads are inside the text, and a token is returned with
the cursor between the start cursor and the end of the text. -/
theorem ParseStringAt_checked (Content : List Char) (Pos : Nat) (hp : Pos ≤ Content.length) :
    ParseStringAtChecked Content Pos = some (ParseStringAt Content Pos) ∧
    ∀ tok p, ParseStringAt Content Pos = .ok (tok, p) → Pos ≤ p ∧ p ≤ Content.length := by
  have hge := SkipWhitespace_ge Content Pos
  have hle := SkipWhitespace_le Content Pos hp
  simp only [ParseStringAtChecked, ParseStringAt, SkipWhitespace_checked]
  by_cases h1 : SkipWhitespace Content Pos ≥ Content.length
  · simp [h1]
  · have hlt : SkipWhitespace Content Pos < Content.length := Nat.lt_of_not_le h1
    rw [if_neg h1, if_neg h1, readAt_eq _ _ hlt]
    simp only [tokenLoop_checked]
    by_cases hq : charAt Content (SkipWhitespace Content Pos) = '"'
    · have hg := tokenLoop_ge Content true (Content.length - (SkipWhitespace Content Pos + 1))
        (SkipWhitespace Content Pos + 1) [] false
      have hl := tokenLoop_le Content true (Content.length - (SkipWhitespace Content Pos + 1))
        (SkipWhitespace Content Pos + 1) [] false hlt
      simp only [hq, decide_True, if_true, true_and, gt_iff_lt, Nat.not_lt.mpr hl, false_or,
        if_false] at hg hl ⊢
      generalize ParseStringAt.loop Content true (Content.length - (SkipWhitespace Content Pos + 1))
        (SkipWhitespace Content Pos + 1) [] false = r at hg hl ⊢
      have hb : readBefore Content r.2 = some (charAt Content (r.2 - 1)) := by
        rw [readBefore, if_neg (by omega), readAt_eq _ _ (by omega)]
      rw [hb]
      simp only
      constructor
      · split_ifs <;> rfl
      · intro tok p h
        split_ifs at h
        injection h with h
        have hp2 : r.2 = p := by rw [h]
        exact ⟨by omega, hp2 ▸ hl⟩
    · have hg := tokenLoop_ge Content false (Content.length - SkipWhitespace Content Pos)
        (SkipWhitespace Content Pos) [] false
      have hl := tokenLoop_le Content false (Content.length - SkipWhitespace Content Pos)
        (SkipWhitespace Content Pos) [] false hle
      simp only [hq, decide_False, Bool.false_eq_true, if_false, false_and] at hg hl ⊢
      refine ⟨trivial, ?_⟩
      intro tok p h
      injection h with h
      rw [h] at hg hl
      exact ⟨by simp only at hg; omega, hl⟩


/-- The recursive descent: started inside the text, its reads are inside the text,
and a value is returned with the cursor between the start cursor and the end of
the text. -/
theorem parser_checked (fuel : Nat) :
    (∀ Content Pos, Pos ≤ Content.length →
      ParseValueChecked fuel Content Pos = some (ParseValue fuel Content Pos) ∧
      ∀ v p, ParseValue fuel Content Pos = .ok (v, p) → Pos ≤ p ∧ p ≤ Content.length) ∧
    (∀ Content Pos, Pos < Content.length →
      ParseObjectChecked fuel Content Pos = some (ParseObject fuel Content Pos) ∧
      ∀ v p, ParseObject fuel Content Pos = .ok (v, p) → Pos ≤ p ∧ p ≤ Content.length) ∧
    (∀ Content Pos Obj, Pos ≤ Content.length →
      ParseObjectLoopChecked fuel Content Pos Obj = some (ParseObjectLoop fuel Content Pos Obj) ∧
      ∀ Obj' p, ParseObjectLoop fuel Content Pos Obj = .ok (Obj', p) →
        Pos ≤ p ∧ p ≤ Content.length) := by
  induction fuel with
  | zero =>
    refine ⟨fun _ _ _ => ⟨rfl, ?_⟩, fun _ _ _ => ⟨rfl, ?_⟩, fun _ _ _ _ => ⟨rfl, ?_⟩⟩ <;>
      intros <;> simp_all [ParseValue, ParseObject, ParseObjectLoop]
  | succ fuel ih =>
    obtain ⟨ihV, ihO, ihL⟩ := ih
    refine ⟨?_, ?_, ?_⟩
    · intro Content Pos hp
      have hge := SkipWhitespace_ge Content Pos
      have hle := SkipWhitespace_le Content Pos hp
      simp only [ParseValueChecked, ParseValue, SkipWhitespace_checked]
      by_cases h1 : SkipWhitespace Content Pos ≥ Content.length
      · simp [h1]
      · have hlt : SkipWhitespace Content Pos < Content.length := Nat.lt_of_not_le h1
        rw [if_neg h1, if_neg h1, readAt_eq _ _ hlt]
        simp only
        by_cases h2 : charAt Content (SkipWhitespace Content Pos) = '{'
        · rw [if_pos h2, if_pos h2]
          obtain ⟨o1, o2⟩ := ihO Content _ hlt
          exact ⟨o1, fun v p h => ⟨Nat.le_trans hge (o2 v p h).1, (o2 v p h).2⟩⟩
        · rw [if_neg h2, if_neg h2]
          obtain ⟨t1, t2⟩ := ParseStringAt_checked Content _ hle
          rw [t1]
          cases hK : ParseStringAt Content (SkipWhitespace Content Pos) with
          | error e => simp
          | ok r =>
            obtain ⟨tok, p⟩ := r
            have := t2 tok p hK
            refine ⟨rfl, ?_⟩
            intro v p' h
            simp only [Res.ok.injEq, Prod.mk.injEq] at h
            rw [← h.2]
            exact ⟨by omega, this.2⟩
    · intro Content Pos hlt
      have hge := SkipWhitespace_ge Content (Pos + 1)
      have hle := SkipWhitespace_le Content (Pos + 1) hlt
      simp only [ParseObjectChecked, ParseObject, SkipWhitespace_checked, readAt_eq _ _ hlt]
      by_cases hc : charAt Content Pos ≠ '{'
      · simp [hc]
      · rw [if_neg hc, if_neg hc]
        obtain ⟨l1, l2⟩ := ihL Content (SkipWhitespace Content (Pos + 1)) [] hle
        rw [l1]
        cases hL : ParseObjectLoop fuel Content (SkipWhitespace Content (Pos + 1)) [] with
        | outOfFuel => simp
        | error e => simp
        | ok r =>
          obtain ⟨Obj, q⟩ := r
          have hb := l2 Obj q hL
          simp only
          by_cases h1 : q ≥ Content.length
          · simp [h1]
          · have hq : q < Content.length := Nat.lt_of_not_le h1
            rw [if_neg h1, readAt_eq _ _ hq]
            simp only
            by_cases h2 : charAt Content q ≠ '}'
            · simp [h1, h2]
            · rw [if_neg h2, if_neg (by simp only [not_or]; exact ⟨h1, h2⟩)]
              refine ⟨rfl, ?_⟩
              intro v p h
              simp only [Res.ok.injEq, Prod.mk.injEq] at h
              rw [← h.2]
              exact ⟨by omega, by omega⟩
    · intro Content Pos Obj hp
      simp only [ParseObjectLoopChecked, ParseObjectLoop]
      by_cases h1 : Pos < Content.length
      · rw [if_pos h1, readAt_eq _ _ h1]
        simp only
        by_cases h2 : charAt Content Pos ≠ '}'
        · rw [if_pos h2, if_pos ⟨h1, h2⟩]
          obtain ⟨t1, t2⟩ := ParseStringAt_checked Content Pos hp
          rw [t1]
          cases hK : ParseStringAt Content Pos with
          | error e => simp
          | ok r =>
            obtain ⟨Key, p1⟩ := r
            have hb1 := t2 Key p1 hK
            have hge1 := SkipWhitespace_ge Content p1
            have hle1 := SkipWhitespace_le Content p1 hb1.2
            obtain ⟨v1, v2⟩ := ihV Content (SkipWhitespace Content p1) hle1
            simp only [SkipWhitespace_checked, v1]
            cases hV : ParseValue fuel Content (SkipWhitespace Content p1) with
            | outOfFuel => simp
            | error e => simp
            | ok w =>
              obtain ⟨Value, p2⟩ := w
              have hb2 := v2 Value p2 hV
              have hge2 := SkipWhitespace_ge Content p2
              have hle2 := SkipWhitespace_le Content p2 hb2.2
              obtain ⟨l1, l2⟩ := ihL Content (SkipWhitespace Content p2)
                (mapInsert Key Value Obj) hle2
              simp only
              exact ⟨l1, fun Obj' p h => ⟨by have := (l2 Obj' p h).1; omega, (l2 Obj' p h).2⟩⟩
        · rw [if_neg h2, if_neg (fun hh => h2 hh.2)]
          refine ⟨rfl, ?_⟩
          intro Obj' p h
          simp only [Res.ok.injEq, Prod.mk.injEq] at h
          rw [← h.2]
          exact ⟨Nat.le_refl _, hp⟩
      · rw [if_neg h1, if_neg (fun hh => h1 hh.1)]
        refine ⟨rfl, ?_⟩
        intro Obj' p h
        simp only [Res.ok.injEq, Prod.mk.injEq] at h
        rw [← h.2]
        exact ⟨Nat.le_refl _, hp⟩

/-- C20 (refuted as stated): started at the end of the text `abc`, at the cursor
3 = length, `ParseObject` reads `Content[3]` in its test for `{`, an index that
is not strictly below the length: the run with checked reads has no outcome,
while the plain run reads the terminating NUL and fails with the expected-`{`
error; likewise on the empty text at the cursor 0. -/
theorem C20_parse_object_end_counterexample :
    3 ≤ "abc".toList.length ∧ readAt "abc".toList 3 = none ∧
    ParseObjectChecked 3 "abc".toList 3 = none ∧
    ParseObject 3 "abc".toList 3 = .error (.ExpectedOpenBrace 3) ∧
    readAt [] 0 = none ∧
    ParseObjectChecked 3 [] 0 = none ∧
    ParseObject 3 [] 0 = .error (.ExpectedOpenBrace 0) :=
  ⟨by decide, rfl, rfl, rfl, rfl, rfl, rfl⟩

/-- C20 (amended): for every text and every start cursor `p0 <= length`:
`SkipWhitespace` returns a cursor in `p0 .. length`; the token parser,
`ParseValue` and `ParseObject`, when they return normally, return a cursor in
`p0 .. length`; and the run with checked reads, which has no outcome once a byte
is read at an index that is not strictly below the length (the look-ahead
`Content[Pos + 1]` of the comment test and the look-behind `Content[Pos - 1]` of
the unterminated-string test included, the latter refused at `Pos = 0`), has the
outcome of the plain run: for `SkipWhitespace`, the token parser and `ParseValue`
in every run, for `ParseObject` in every run that returns normally and in every
run started strictly inside the text. Started at `p0 = length`, `ParseObject`
reads `Content[length]` in its test for `{` and fails with the expected-`{`
error. -/
theorem C20_cursor_bounds (fuel : Nat) (Content : List Char) (p0 : Nat)
    (hp : p0 ≤ Content.length) :
    (p0 ≤ SkipWhitespace Content p0 ∧ SkipWhitespace Content p0 ≤ Content.length ∧
      SkipWhitespaceChecked Content p0 = some (SkipWhitespace Content p0)) ∧
    (ParseStringAtChecked Content p0 = some (ParseStringAt Content p0) ∧
      ∀ tok p, ParseStringAt Content p0 = .ok (tok, p) → p0 ≤ p ∧ p ≤ Content.length) ∧
    (ParseValueChecked fuel Content p0 = some (ParseValue fuel Content p0) ∧
      ∀ v p, ParseValue fuel Content p0 = .ok (v, p) → p0 ≤ p ∧ p ≤ Content.length) ∧
    (∀ v p, ParseObject fuel Content p0 = .ok (v, p) →
      p0 ≤ p ∧ p ≤ Content.length ∧ ParseObjectChecked fuel Content p0 = some (.ok (v, p))) ∧
    (p0 < Content.length →
      ParseObjectChecked fuel Content p0 = some (ParseObject fuel Content p0)) ∧
    (p0 = Content.length →
      readAt Content p0 = none ∧
      ParseObjectChecked (fuel + 1) Content p0 = none ∧
      ParseObject (fuel + 1) Content p0 = .error (.ExpectedOpenBrace p0)) := by
  refine ⟨⟨SkipWhitespace_ge _ _, SkipWhitespace_le _ _ hp, SkipWhitespace_checked _ _⟩,
    ParseStringAt_checked _ _ hp, (parser_checked fuel).1 _ _ hp, ?_,
    fun h => ((parser_checked fuel).2.1 _ _ h).1, ?_⟩
  · intro v p h
    have hlt : p0 < Content.length := by
      cases fuel with
      | zero => simp [ParseObject] at h
      | succ fuel =>
        simp only [ParseObject] at h
        split_ifs at h with hc
        exact charAt_lt_of_ne_nul _ _ (by
          have : charAt Content p0 = '{' := by simpa using hc
          rw [this]; decide)
    obtain ⟨o1, o2⟩ := (parser_checked fuel).2.1 Content p0 hlt
    exact ⟨(o2 v p h).1, (o2 v p h).2, by rw [o1, h]⟩
  · intro he
    have hr : readAt Content p0 = none := by
      rw [he]
      simp [readAt]
    have hc : charAt Content p0 ≠ '{' := by
      intro hc
      have := charAt_lt_of_ne_nul Content p0 (by rw [hc]; decide)
      omega
    refine ⟨hr, ?_, ?_⟩
    · simp only [ParseObjectChecked, hr]
    · simp only [ParseObject]
      rw [if_pos hc]

/-- C20 on the text `k {a "b"}` at the cursor 1: the value ends at the cursor 9. -/
theorem C20_cursor_bounds_witness :
    ParseValue 4 "k \x7ba \"b\"\x7d".toList 1
      = .ok (.Object [("a".toList, .String "b".toList)], 9) ∧
    ParseValueChecked 4 "k \x7ba \"b\"\x7d".toList 1
      = some (ParseValue 4 "k \x7ba \"b\"\x7d".toList 1) :=
  ⟨rfl, (C20_cursor_bounds 4 "k \x7ba \"b\"\x7d".toList 1 (by decide)).2.2.1.1⟩

end SteamVDF
